import Mathlib

/-!
# smc: an incremental message-framing codec (shallow embedding of `smc.go`)

The Go source is embedded as pure Lean functions.

* `uint64` values are `Nat` with an explicit `% 2 ^ 64` at every arithmetic
  operation of the source; `int` is the 64-bit Go `int`, an `Int` wrapped with
  `wrapInt` where the source can overflow.
* A byte slice is a `List Nat` (bytes are naturals below 256); a possibly-nil
  slice is an `Option (List Nat)`.
* The two handlers are modelled as recorders: a call appends an `Event` to the
  ghost field `calls` of the decoder, and the handler does not re-enter the
  decoder. `onmissing`/`onmessage` say whether a handler is installed.
* A Go run-time panic is `Except.error Fault.panic`; loops that are not
  structurally recursive carry fuel and report `Fault.fuel` when it runs out.
  `RecvS` is `Recv` returning also the decoder that a panic leaves behind.
-/

namespace Smc

/-! ## Faults, errors, events -/

/-- Abnormal ends of a call: a Go panic, or the fuel of a modelled loop ran out. -/
inductive Fault where
  | panic
  | fuel
  deriving DecidableEq, Repr

/-- Decode errors, `ErrInvalidVarint` and `ErrSizeLimit` of the source. -/
inductive Err where
  | ErrInvalidVarint
  | ErrSizeLimit
  deriving DecidableEq, Repr

/-- Handler invocations, in the order they happen. -/
inductive Event where
  | missing (n : Int)
  | message (ch : Nat) (k : Nat) (payload : Option (List Nat)) (data : List Nat) (offset : Nat)
  deriving DecidableEq, Repr

/-! ## Constants and `encodingLength` -/

def n1 : Nat := 2 ^ 7
def n2 : Nat := 2 ^ 14
def n3 : Nat := 2 ^ 21
def n4 : Nat := 2 ^ 28
def n5 : Nat := 2 ^ 35
def n6 : Nat := 2 ^ 42
def n7 : Nat := 2 ^ 49
def n8 : Nat := 2 ^ 56
def n9 : Nat := 2 ^ 63

def encodingLength (i : Nat) : Nat :=
  if i < n1 then 1
  else if i < n2 then 2
  else if i < n3 then 3
  else if i < n4 then 4
  else if i < n5 then 5
  else if i < n6 then 6
  else if i < n7 then 7
  else if i < n8 then 8
  else if i < n9 then 9
  else 10

def defaultMaxSize : Int := 8 * 1024 * 1024

/-- Two's-complement wrap of an integer into the range of a 64-bit Go `int`. -/
def wrapInt (x : Int) : Int := (x + 2 ^ 63) % 2 ^ 64 - 2 ^ 63

/-- Conversion `int(v)` of a `uint64`. -/
def toInt (v : Nat) : Int := wrapInt (Int.ofNat v)

/-! ## The decoder -/

@[ext]
structure SMC where
  state : Nat
  factor : Nat
  varint : Nat
  header : Nat
  message : Option (List Nat)
  destroyed : Bool
  receiving : Bool
  length : Int
  consumed : Int
  err : Option Err
  onmissing : Bool
  onmessage : Bool
  calls : List Event
  deriving DecidableEq, Repr

/-- `NewSMC(opts...)`: the options can only install the two handlers. -/
def NewSMC (withMissing withMessage : Bool) : SMC :=
  { state := 0, factor := 1, varint := 0, header := 0, message := none,
    destroyed := false, receiving := false, length := 0, consumed := 0,
    err := none, onmissing := withMissing, onmessage := withMessage, calls := [] }

/-- `Error()`: returns the stored error and clears it. -/
def Error (s : SMC) : SMC × Option Err :=
  ({ s with err := none }, s.err)

def destroy (s : SMC) (err : Option Err) : SMC :=
  let s := if err.isSome then { s with err := err } else s
  { s with destroyed := true }

def next (s : SMC) (data : List Nat) (offset : Nat) : SMC × Bool :=
  match s.state with
  | 0 =>
    let s := { s with state := 1, factor := 1, length := toInt s.varint, consumed := 0,
                      varint := 0 }
    let s := if s.length = 0 then { s with state := 0 } else s
    (s, true)
  | 1 =>
    let s := { s with state := 2, factor := 1, header := s.varint,
                      length := wrapInt (s.length - s.consumed), consumed := 0, varint := 0 }
    if s.length < 0 ∨ s.length > defaultMaxSize then
      (destroy s (some Err.ErrSizeLimit), false)
    else
      let s :=
        if s.onmissing then
          let extra : Int := (data.length : Int) - (offset : Int)
          if s.length > extra then
            { s with calls := s.calls ++ [Event.missing (s.length - extra)] }
          else s
        else s
      (s, true)
  | 2 =>
    let s := { s with state := 0 }
    let s :=
      if s.onmessage then
        { s with calls := s.calls ++
            [Event.message (s.header >>> 4) ((s.header &&& 0b1111) % 256) s.message data offset] }
      else s
    let s := { s with message := none }
    (s, !s.destroyed)
  | _ => (s, false)

/-- The `for ; offset < len(data); offset++` loop of `readVarint`, with the code
after the loop in the `[]` case; `rest` is `data[offset:]`. -/
def readVarintLoop (data : List Nat) : List Nat → SMC → Nat → SMC × Nat
  | [], s, _ =>
    let s := if s.consumed ≥ 9 then destroy s (some Err.ErrInvalidVarint) else s
    (s, data.length)
  | b :: rest, s, offset =>
    let s := { s with varint := (s.varint + ((b &&& 127) * s.factor) % 2 ^ 64) % 2 ^ 64 }
    let s := { s with consumed := s.consumed + 1 }
    if b < 128 then
      let offset := offset + 1
      let r := next s data offset
      if r.2 then (r.1, offset) else (r.1, data.length)
    else
      let s := { s with factor := (s.factor * 128) % 2 ^ 64 }
      readVarintLoop data rest s (offset + 1)

def readVarint (s : SMC) (data : List Nat) (offset : Nat) : SMC × Nat :=
  readVarintLoop data (data.drop offset) s offset

/-- Go `copy(dst[at:], src)`: overwrites `dst` from index `at` with as many bytes
of `src` as fit. -/
def copyAt (dst : List Nat) (pos : Nat) (src : List Nat) : List Nat :=
  let k := min (dst.length - pos) src.length
  dst.take pos ++ src.take k ++ dst.drop (pos + k)

/-- `copy(s.message[len(s.message)-s.length:], data[offset:])`; the slice
expression panics when its low bound is outside `0..len(s.message)`. -/
def copyTail (msg : List Nat) (length : Int) (data : List Nat) (offset : Nat) :
    Except Fault (List Nat) :=
  let low : Int := (msg.length : Int) - length
  if low < 0 ∨ low > (msg.length : Int) then .error Fault.panic
  else .ok (copyAt msg low.toNat (data.drop offset))

def readMessage (s : SMC) (data : List Nat) (offset : Nat) : Except Fault (SMC × Nat) :=
  let l := data.length
  let free : Int := (l : Int) - (offset : Int)
  if free ≥ s.length then
    (match s.message with
      | some msg => (copyTail msg s.length data offset).map fun m => { s with message := some m }
      | none =>
        -- data[offset : offset+s.length] panics when the high bound is below the low one
        if s.length < 0 then .error Fault.panic
        else .ok { s with message := some ((data.drop offset).take s.length.toNat) }) >>= fun s =>
    let offset := offset + s.length.toNat
    let r := next s data offset
    if r.2 then .ok (r.1, offset) else .ok (r.1, l)
  else
    (match s.message with
      | some msg => .ok msg
      | none =>
        if s.length < 0 then .error Fault.panic
        else .ok (List.replicate s.length.toNat 0)) >>= fun msg =>
    (copyTail msg s.length data offset) >>= fun m =>
    .ok ({ s with message := some m, length := wrapInt (s.length - free) }, l)

/-- The `for offset < l` loop of `Recv`. -/
def recvLoop (d : List Nat) : Nat → SMC → Nat → Except Fault SMC
  | 0, _, _ => .error Fault.fuel
  | fuel + 1, s, offset =>
    if offset < d.length then
      if s.state = 2 then
        readMessage s d offset >>= fun r => recvLoop d fuel r.1 r.2
      else
        let r := readVarint s d offset
        recvLoop d fuel r.1 r.2
    else .ok s

/-- The code of `Recv` after its loop, which has left `offset = len(d)`. -/
def recvEnd (s : SMC) (d : List Nat) : Except Fault (SMC × Bool) :=
  (if s.state = 2 ∧ s.length = 0 then
    (readMessage s d d.length).map fun r => r.1
   else .ok s) >>= fun s =>
  let s := { s with receiving := false }
  .ok (s, !s.destroyed)

/-- `Recv(d)`. Every pass of the loop reads a byte or leaves state 2, so
`2 * len(d) + 2` passes are enough (`recvLoop_fuel`). -/
def Recv (s : SMC) (d : List Nat) : Except Fault (SMC × Bool) :=
  let l := d.length
  if l = 0 then .ok (s, !s.destroyed)
  else if s.receiving then .error Fault.panic
  else
    let s := { s with receiving := true }
    recvLoop d (2 * l + 2) s 0 >>= fun s =>
    recvEnd s d

/-! ## The encoder -/

/-- The loop of `binary.PutUvarint(buf[base:], x)` (Go standard library):
`for x >= 0x80 { buf[i] = byte(x) | 0x80; x >>= 7; i++ }; buf[i] = byte(x); return i + 1`.
The slice `buf[base:]` shares its storage with `buf`, so the model writes into
`buf` at `base + i`; an index outside the slice panics. -/
def PutUvarintLoop (base : Nat) : Nat → List Nat → Nat → Nat → Except Fault (List Nat × Nat)
  | 0, _, _, _ => .error Fault.fuel
  | fuel + 1, buf, i, x =>
    if x ≥ 0x80 then
      if base + i < buf.length then
        PutUvarintLoop base fuel (buf.set (base + i) ((x % 256) ||| 0x80)) (i + 1) (x >>> 7)
      else .error Fault.panic
    else
      if base + i < buf.length then .ok (buf.set (base + i) (x % 256), i + 1)
      else .error Fault.panic

/-- `binary.PutUvarint(buf[base:], x)`: the updated buffer and the number of
bytes written. Taking the slice `buf[base:]` panics when `base > len(buf)`. A
`uint64` has at most ten groups of seven bits. -/
def PutUvarint (buf : List Nat) (base : Nat) (x : Nat) : Except Fault (List Nat × Nat) :=
  if base > buf.length then .error Fault.panic
  else PutUvarintLoop base 10 buf 0 x

def Send (ch : Nat) (k : Nat) (d : List Nat) : Except Fault (List Nat) :=
  let header := ((ch <<< 4) % 2 ^ 64) ||| k
  let length := (d.length + encodingLength header) % 2 ^ 64
  let payload := List.replicate ((encodingLength length + length) % 2 ^ 64) 0
  PutUvarint payload 0 length >>= fun r1 =>
  PutUvarint r1.1 r1.2 header >>= fun r2 =>
  let n := r1.2 + r2.2
  if n > r2.1.length then .error Fault.panic
  else .ok (copyAt r2.1 n d)

/-- The `Message` struct: `ID` is a Go `int`, `Channel` a `rune` (`int32`). -/
structure Message where
  ID : Int
  Channel : Int
  Data : List Nat
  deriving DecidableEq, Repr

/-- Conversion `uint64(x)` of a signed integer. -/
def toUint64 (x : Int) : Nat := (x % 2 ^ 64).toNat

/-- First loop of `SendBatch`: the size of the buffer. -/
def batchLength : List Message → Nat → Nat
  | [], length => length
  | v :: items, length =>
    batchLength items ((length + (16 + encodingLength (v.Data.length % 2 ^ 64))) % 2 ^ 64)

/-- Second loop of `SendBatch`: writes the frames into `payload` from `offset`. -/
def batchWrite : List Message → List Nat → Nat → Except Fault (List Nat × Nat)
  | [], payload, offset => .ok (payload, offset)
  | v :: items, payload, offset =>
    let header := toUint64 (wrapInt (v.ID * 16)) ||| toUint64 v.Channel
    let l := (v.Data.length + encodingLength header) % 2 ^ 64
    PutUvarint payload offset l >>= fun r1 =>
    let offset := offset + r1.2
    PutUvarint r1.1 offset header >>= fun r2 =>
    let offset := offset + r2.2
    if offset > r2.1.length then .error Fault.panic
    else
      let payload := copyAt r2.1 offset v.Data
      batchWrite items payload (offset + v.Data.length)

def SendBatch (items : List Message) : Except Fault (List Nat) :=
  let payload := List.replicate (batchLength items 0) 0
  batchWrite items payload 0 >>= fun r =>
  -- payload[0:offset] panics when offset exceeds the capacity of the buffer
  if r.2 > r.1.length then .error Fault.panic
  else .ok (r.1.take r.2)

/-! ## Feeding several chunks, and views of the handler log -/

/-- Calls `Recv` on each chunk in order; returns the final decoder and the
return value of every call. -/
def feed : SMC → List (List Nat) → Except Fault (SMC × List Bool)
  | s, [] => .ok (s, [])
  | s, c :: cs =>
    Recv s c >>= fun r =>
    feed r.1 cs >>= fun r2 =>
    .ok (r2.1, r.2 :: r2.2)

/-- The (channel, kind, payload) of every message-handler call, in order. -/
def messagesOf : List Event → List (Nat × Nat × Option (List Nat))
  | [] => []
  | Event.message ch k p _ _ :: es => (ch, k, p) :: messagesOf es
  | Event.missing _ :: es => messagesOf es

/-- The argument of every missing-handler call, in order. -/
def missingOf : List Event → List Int
  | [] => []
  | Event.message _ _ _ _ _ :: es => missingOf es
  | Event.missing n :: es => n :: missingOf es

/-! ## The varint of the specification -/

/-- Base-128 little-endian varint as the specification words it: seven value
bits per byte, the continuation bit (128) set on all but the last byte. -/
def uvarint (x : Nat) : List Nat :=
  if x < 128 then [x] else (x % 128 + 128) :: uvarint (x / 128)
decreasing_by omega

/-- The wire bytes of one frame, as the specification describes them. -/
def frameBytes (h : Nat) (d : List Nat) : List Nat :=
  uvarint (d.length + encodingLength h) ++ uvarint h ++ d

/-- Little-endian value of a run of seven-bit groups. -/
def leval : List Nat → Nat
  | [] => 0
  | b :: bs => b % 128 + 128 * leval bs

/-- One pass of the body of the `readVarint` loop over a continuation byte
(a byte with the high bit set): the code between the loop head and `factor *= 128`. -/
def contStep (s : SMC) (b : Nat) : SMC :=
  let s := { s with varint := (s.varint + ((b &&& 127) * s.factor) % 2 ^ 64) % 2 ^ 64 }
  let s := { s with consumed := s.consumed + 1 }
  { s with factor := (s.factor * 128) % 2 ^ 64 }

/-- The state of the decoder when the last byte `t` of a varint is read, just
before `next` is called. -/
def termStep (s : SMC) (t : Nat) : SMC :=
  let s := { s with varint := (s.varint + ((t &&& 127) * s.factor) % 2 ^ 64) % 2 ^ 64 }
  { s with consumed := s.consumed + 1 }

/-- A message to send: channel, kind and payload. -/
structure Packet where
  ch : Nat
  k : Nat
  d : List Nat
  deriving DecidableEq, Repr

/-- The header value `ch << 4 | k` of a packet whose kind fits four bits. -/
def Packet.hdr (m : Packet) : Nat := m.ch * 16 + m.k

/-- The outer length of the frame of a packet. -/
def Packet.outer (m : Packet) : Nat := m.d.length + encodingLength m.hdr

/-- The bounds under which the round trip is claimed. -/
def Packet.valid (m : Packet) : Prop :=
  m.ch < 2 ^ 59 ∧ m.k ≤ 15 ∧ m.d.length ≤ 8388608

/-- What the message handler sees of a delivered packet. -/
def Packet.seen (m : Packet) : Nat × Nat × Option (List Nat) := (m.ch, m.k, some m.d)

/-- The frames of a list of packets, one after the other. -/
def stream : List Packet → List Nat
  | [] => []
  | m :: ms => frameBytes m.hdr m.d ++ stream ms

/-- Calls `Send` on every packet and concatenates the results in order. -/
def sendAll : List Packet → Except Fault (List Nat)
  | [] => .ok []
  | m :: ms =>
    Send m.ch m.k m.d >>= fun b =>
    sendAll ms >>= fun bs =>
    .ok (b ++ bs)

/-- The decoder is `j` bytes into the varint of `v`: the accumulator holds the
low `7 * j` bits of `v`. -/
def VarAt (s : SMC) (v j : Nat) : Prop :=
  j < (uvarint v).length ∧ s.varint = v % 128 ^ j ∧ s.factor = 128 ^ j ∧ s.consumed = (j : Int)

/-- The decoder is live and has a message handler. -/
def Live (s : SMC) : Prop := s.destroyed = false ∧ s.onmessage = true

/-- The decoder has received the first `g` bytes of the payload `d`: none yet
and no owned buffer, or some, stored at the front of an owned buffer of the
size of the payload. -/
def BufAt (s : SMC) (d : List Nat) (g : Nat) : Prop :=
  (g = 0 ∧ s.message = none) ∨
  (0 < g ∧ g < d.length ∧
    ∃ buf, s.message = some buf ∧ buf.length = d.length ∧ buf.take g = d.take g)

/-- `Inv s rest ms`: the live decoder `s` has read a stream of frames up to a
point from which the bytes `rest` remain, and these carry the packets `ms`
(the first of them possibly partly read). -/
inductive Inv : SMC → List Nat → List Packet → Prop
  | idle (s : SMC) (rest : List Nat) :
      Live s → s.state = 0 → s.message = none → VarAt s 0 0 → rest = [] → Inv s rest []
  | len (s : SMC) (rest : List Nat) (m : Packet) (ms : List Packet) (j : Nat) :
      Live s → s.state = 0 → s.message = none → VarAt s m.outer j →
      rest = (uvarint m.outer).drop j ++ (uvarint m.hdr ++ (m.d ++ stream ms)) →
      Inv s rest (m :: ms)
  | head (s : SMC) (rest : List Nat) (m : Packet) (ms : List Packet) (j : Nat) :
      Live s → s.state = 1 → s.message = none → s.length = (m.outer : Int) →
      VarAt s m.hdr j →
      rest = (uvarint m.hdr).drop j ++ (m.d ++ stream ms) →
      Inv s rest (m :: ms)
  | body (s : SMC) (rest : List Nat) (m : Packet) (ms : List Packet) (g : Nat) :
      Live s → s.state = 2 → VarAt s 0 0 → s.header = m.hdr →
      s.length = (m.d.length : Int) - (g : Int) → g ≤ m.d.length → BufAt s m.d g →
      rest = m.d.drop g ++ stream ms →
      Inv s rest (m :: ms)

/-- Bound on the number of passes the `Recv` loop still makes from `offset`:
every pass reads at least one byte or leaves state 2. -/
def passes (d : List Nat) (s : SMC) (offset : Nat) : Nat :=
  2 * (d.length - offset) + (if s.state = 2 then 1 else 0)

/-- The end of the completing path of `readMessage`, once `s.message` holds the
payload `msg`: `offset += s.length`, then `next`. -/
def finishWith (s : SMC) (msg : List Nat) (d : List Nat) (off : Nat) : SMC × Nat :=
  let s1 : SMC := { s with message := some msg }
  let r := next s1 d (off + s.length.toNat)
  if r.2 then (r.1, off + s.length.toNat) else (r.1, d.length)

/-- The operations of the API on one decoder. -/
inductive Op where
  | recv (d : List Nat)
  | error
  | send (ch k : Nat) (d : List Nat)
  | sendBatch (items : List Message)
  deriving Repr

/-- Runs one operation; the list holds the return value of `Recv` when the
operation is a `Recv`. A panic ends the run. -/
def Op.run : Op → SMC → Except Fault (SMC × List Bool)
  | Op.recv d, s => (Recv s d).map fun r => (r.1, [r.2])
  | Op.error, s => .ok ((Error s).1, [])
  | Op.send ch k d, s => (Send ch k d).map fun _ => (s, [])
  | Op.sendBatch items, s => (SendBatch items).map fun _ => (s, [])

/-- Runs operations in order and collects the return values of the `Recv` calls. -/
def runOps : SMC → List Op → Except Fault (SMC × List Bool)
  | s, [] => .ok (s, [])
  | s, op :: ops =>
    op.run s >>= fun r =>
    runOps r.1 ops >>= fun r2 =>
    .ok (r2.1, r.2 ++ r2.2)

/-- The event is a call made while the chunk `c` is processed: a message-handler
call carries `c` itself and an offset inside it. -/
def EventIn (c : List Nat) : Event → Prop
  | Event.message _ _ _ data offset => data = c ∧ offset ≤ c.length
  | Event.missing _ => True

/-- The bounds a live decoder keeps: a known state; in state 2 a remaining length
inside the size limit; an owned buffer only in state 2, with the remaining length
positive and no more than the size of the buffer. -/
def InBounds (s : SMC) : Prop :=
  s.state ≤ 2 ∧ (s.state = 2 → 0 ≤ s.length ∧ s.length ≤ defaultMaxSize) ∧
  (∀ buf, s.message = some buf → s.state = 2 ∧ 0 < s.length ∧ s.length ≤ (buf.length : Int))

/-- The handler call without its raw-chunk and offset arguments. -/
def eraseEvent : Event → Event
  | Event.message ch k p _ _ => Event.message ch k p [] 0
  | Event.missing n => Event.missing n

/-- The decoder with the raw-chunk and offset arguments erased from its handler
log: what is left is independent of how the bytes were positioned in a chunk. -/
def erase (s : SMC) : SMC := { s with calls := s.calls.map eraseEvent }

/-- `readMessage` together with the decoder it leaves behind. Each panic of
`readMessage` is raised by a slice expression that is evaluated before the first
assignment to a field of the decoder, so after a panic the decoder is as on entry. -/
def readMessageS (s : SMC) (data : List Nat) (offset : Nat) : SMC × Except Fault Nat :=
  match readMessage s data offset with
  | .ok r => (r.1, .ok r.2)
  | .error e => (s, .error e)

/-- The `for offset < l` loop of `Recv`, together with the decoder it leaves
behind: when a pass panics the loop is abandoned with the decoder as that pass
left it. -/
def recvLoopS (d : List Nat) : Nat → SMC → Nat → SMC × Except Fault Unit
  | 0, s, _ => (s, .error Fault.fuel)
  | fuel + 1, s, offset =>
    if offset < d.length then
      if s.state = 2 then
        match readMessageS s d offset with
        | (s1, .ok off1) => recvLoopS d fuel s1 off1
        | (s1, .error e) => (s1, .error e)
      else
        let r := readVarint s d offset
        recvLoopS d fuel r.1 r.2
    else (s, .ok ())

/-- `Recv(d)` as a transformation of the decoder: the decoder after the call, and
the value returned or the panic raised. The statements are in the order of the
source: the length test, the test of `receiving`, `receiving = true`, the loop,
the pending message, `receiving = false`. -/
def RecvS (s : SMC) (d : List Nat) : SMC × Except Fault Bool :=
  let l := d.length
  if l = 0 then (s, .ok (!s.destroyed))
  else if s.receiving then (s, .error Fault.panic)
  else
    let s := { s with receiving := true }
    match recvLoopS d (2 * l + 2) s 0 with
    | (s, .error e) => (s, .error e)
    | (s, .ok _) =>
      if s.state = 2 ∧ s.length = 0 then
        match readMessageS s d d.length with
        | (s, .error e) => (s, .error e)
        | (s, .ok _) =>
          let s := { s with receiving := false }
          (s, .ok (!s.destroyed))
      else
        let s := { s with receiving := false }
        (s, .ok (!s.destroyed))

/-- Forgets the decoder left behind by a panic. -/
def outcome {α : Type} (r : SMC × Except Fault α) : Except Fault (SMC × α) :=
  match r.2 with
  | .ok a => .ok (r.1, a)
  | .error e => .error e

/-- The message-handler calls of a handler log, in order, with all five arguments. -/
def msgEvents : List Event → List Event
  | [] => []
  | Event.message ch k p data offset :: es => Event.message ch k p data offset :: msgEvents es
  | Event.missing _ :: es => msgEvents es

/-- `FramedEvents c rest done todo evs`: `evs` are the message-handler calls for
the packets `done`, in order, made while the chunk `c` of a stream of frames is
processed; `rest` is the stream after `c` and `todo` are the packets after `done`.
The call for a packet carries its channel, kind and payload, the chunk `c`, and an
offset `o` inside `c` such that `c[o:]` followed by `rest` is exactly the frames of
the packets after it: `o` is the index just past the last byte of its frame. When
the payload is not longer than `o`, it is `c[o - len : o]`. -/
def FramedEvents (c rest : List Nat) : List Packet → List Packet → List Event → Prop
  | [], _, evs => evs = []
  | m :: done, todo, evs =>
    ∃ o evs', evs = Event.message m.ch m.k (some m.d) c o :: evs' ∧ o ≤ c.length ∧
      c.drop o ++ rest = stream (done ++ todo) ∧
      (m.d.length ≤ o → (c.take o).drop (o - m.d.length) = m.d) ∧
      FramedEvents c rest done todo evs'

/-! ## Facts about the varint of the specification -/

theorem uvarint_lt {x : Nat} (h : x < 128) : uvarint x = [x] := by
  rw [uvarint]; simp [h]

theorem uvarint_ge {x : Nat} (h : 128 ≤ x) :
    uvarint x = (x % 128 + 128) :: uvarint (x / 128) := by
  rw [uvarint]; simp [Nat.not_lt.mpr h]

theorem uvarint_length_pos (x : Nat) : 0 < (uvarint x).length := by
  by_cases h : x < 128
  · simp [uvarint_lt h]
  · simp [uvarint_ge (Nat.le_of_not_lt h)]

theorem uvarint_ne_nil (x : Nat) : uvarint x ≠ [] := by
  intro h
  have := uvarint_length_pos x
  simp [h] at this

/-- The encoding of `x` has at most `n + 1` bytes exactly when `x < 128 ^ (n + 1)`. -/
theorem uvarint_length_le_iff (n : Nat) : ∀ x : Nat,
    (uvarint x).length ≤ n + 1 ↔ x < 128 ^ (n + 1) := by
  induction n with
  | zero =>
    intro x
    by_cases h : x < 128
    · simp [uvarint_lt h, h]
    · have hp := uvarint_length_pos (x / 128)
      simp only [uvarint_ge (Nat.le_of_not_lt h), List.length_cons]
      constructor
      · intro h1; omega
      · intro h1; simp at h1; omega
  | succ n ih =>
    intro x
    by_cases h : x < 128
    · have : x < 128 ^ (n + 1 + 1) :=
        lt_of_lt_of_le h (by
          calc 128 = 128 ^ 1 := by norm_num
            _ ≤ 128 ^ (n + 1 + 1) := Nat.pow_le_pow_right (by norm_num) (by omega))
      simp [uvarint_lt h, this]
    · simp only [uvarint_ge (Nat.le_of_not_lt h), List.length_cons]
      rw [Nat.add_le_add_iff_right, ih (x / 128), Nat.div_lt_iff_lt_mul (by norm_num)]
      rw [Nat.pow_succ 128 (n + 1)]

theorem encodingLength_eq_uvarint_length (v : Nat) (hv : v < 2 ^ 64) :
    encodingLength v = (uvarint v).length := by
  have hp := uvarint_length_pos v
  have h0 := uvarint_length_le_iff 0 v
  have h1 := uvarint_length_le_iff 1 v
  have h2 := uvarint_length_le_iff 2 v
  have h3 := uvarint_length_le_iff 3 v
  have h4 := uvarint_length_le_iff 4 v
  have h5 := uvarint_length_le_iff 5 v
  have h6 := uvarint_length_le_iff 6 v
  have h7 := uvarint_length_le_iff 7 v
  have h8 := uvarint_length_le_iff 8 v
  have h9 := uvarint_length_le_iff 9 v
  norm_num at h0 h1 h2 h3 h4 h5 h6 h7 h8 h9 hv
  unfold encodingLength n1 n2 n3 n4 n5 n6 n7 n8 n9
  norm_num
  split_ifs <;> omega

theorem encodingLength_pos (v : Nat) : 0 < encodingLength v := by
  unfold encodingLength
  split_ifs <;> omega

theorem encodingLength_le (v : Nat) : encodingLength v ≤ 10 := by
  unfold encodingLength
  split_ifs <;> omega

/-! ## Bit-level helpers -/

theorem byte_or_128 (x : Nat) : (x % 256) ||| 0x80 = x % 128 + 128 := by
  have hb : x % 256 < 256 := Nat.mod_lt _ (by norm_num)
  have h2 : x % 128 = (x % 256) % 128 := by omega
  rw [h2]
  generalize x % 256 = b at hb
  interval_cases b <;> rfl

theorem or_mod_small (a k : Nat) (hk : k < 256) :
    (a ||| k) % 2 ^ 64 = (a % 2 ^ 64) ||| k := by
  apply Nat.eq_of_testBit_eq
  intro i
  simp only [Nat.testBit_mod_two_pow, Nat.testBit_or]
  by_cases hi : i < 64
  · simp [hi]
  · have : k.testBit i = false := by
      apply Nat.testBit_lt_two_pow
      calc k < 2 ^ 8 := by norm_num; exact hk
        _ ≤ 2 ^ i := Nat.pow_le_pow_right (by norm_num) (by omega)
    simp [hi, this]

theorem shl4_or (ch k : Nat) (hk : k < 16) : (ch <<< 4) ||| k = ch * 16 + k := by
  rw [Nat.shiftLeft_eq]
  have := Nat.mul_add_lt_is_or (i := 4) (b := k) (by norm_num; exact hk) ch
  norm_num at this
  have e : ch * 2 ^ 4 = 16 * ch := by norm_num; ring
  rw [e, ← this]; ring

/-! ## The encoder writes the varint of the specification -/

theorem copyAt_append (A Z src : List Nat) :
    copyAt (A ++ Z) A.length src
      = A ++ src.take (min Z.length src.length) ++ Z.drop (min Z.length src.length) := by
  unfold copyAt
  simp only [List.length_append, Nat.add_sub_cancel_left, List.take_left']
  rw [List.drop_append_eq_append_drop]
  simp [List.drop_eq_nil_of_le]

theorem copyAt_append_fit (A Z src : List Nat) (h : src.length ≤ Z.length) :
    copyAt (A ++ Z) A.length src = A ++ src ++ Z.drop src.length := by
  rw [copyAt_append, Nat.min_eq_right h, List.take_length]

theorem PutUvarintLoop_spec (base : Nat) : ∀ (fuel x : Nat) (A Z : List Nat) (i : Nat),
    x < 128 ^ (fuel + 1) → base + i = A.length → (uvarint x).length ≤ Z.length →
    PutUvarintLoop base (fuel + 1) (A ++ Z) i x
      = .ok (A ++ uvarint x ++ Z.drop (uvarint x).length, i + (uvarint x).length) := by
  intro fuel
  induction fuel with
  | zero =>
    intro x A Z i hx hi hlen
    have hx' : x < 128 := by simpa using hx
    rw [uvarint_lt hx'] at hlen ⊢
    cases Z with
    | nil => simp at hlen
    | cons z Z =>
      have hm : x % 256 = x := by omega
      simp [PutUvarintLoop, Nat.not_le.mpr hx', hi, hm]
  | succ n ih =>
    intro x A Z i hx hi hlen
    by_cases hx' : x < 128
    · rw [uvarint_lt hx'] at hlen ⊢
      cases Z with
      | nil => simp at hlen
      | cons z Z =>
        have hm : x % 256 = x := by omega
        simp [PutUvarintLoop, Nat.not_le.mpr hx', hi, hm]
    · have hge : 128 ≤ x := Nat.le_of_not_lt hx'
      rw [uvarint_ge hge] at hlen ⊢
      cases Z with
      | nil => simp at hlen
      | cons z Z =>
        have hdiv : x / 128 < 128 ^ (n + 1) := by
          rw [Nat.div_lt_iff_lt_mul (by norm_num)]
          rw [Nat.pow_succ 128 (n + 1)] at hx
          exact hx
        have hlen' : (uvarint (x / 128)).length ≤ Z.length := by simpa using hlen
        have hi' : base + (i + 1) = (A ++ [x % 128 + 128]).length := by simp; omega
        have key := ih (x / 128) (A ++ [x % 128 + 128]) Z (i + 1) hdiv hi' hlen'
        rw [PutUvarintLoop]
        have hcond : x ≥ 0x80 := hge
        rw [if_pos hcond]
        have hin : base + i < (A ++ z :: Z).length := by simp; omega
        rw [if_pos hin, hi, List.set_append_right _ _ (le_refl _), Nat.sub_self]
        simp only [List.set_cons_zero]
        rw [byte_or_128, Nat.shiftRight_eq_div_pow]
        have e1 : A ++ (x % 128 + 128) :: Z = (A ++ [x % 128 + 128]) ++ Z := by simp
        have e2 : x / 2 ^ 7 = x / 128 := by norm_num
        rw [e1, e2, key]
        simp [Nat.add_assoc, Nat.add_comm 1]

theorem PutUvarint_spec (A Z : List Nat) (x : Nat) (hx : x < 2 ^ 64)
    (hlen : (uvarint x).length ≤ Z.length) :
    PutUvarint (A ++ Z) A.length x
      = .ok (A ++ uvarint x ++ Z.drop (uvarint x).length, (uvarint x).length) := by
  unfold PutUvarint
  have h1 : ¬ A.length > (A ++ Z).length := by simp
  rw [if_neg h1]
  have hx' : x < 128 ^ (9 + 1) := lt_of_lt_of_le hx (by norm_num)
  have := PutUvarintLoop_spec A.length 9 x A Z 0 hx' (by simp) hlen
  simpa using this

theorem Send_eq_frameBytes (ch k : Nat) (d : List Nat) (hk : k < 256)
    (hd : d.length < 2 ^ 63) :
    Send ch k d = .ok (frameBytes (((ch <<< 4) % 2 ^ 64) ||| k) d) := by
  have hh : ((ch <<< 4) % 2 ^ 64) ||| k < 2 ^ 64 :=
    Nat.or_lt_two_pow (Nat.mod_lt _ (by norm_num)) (lt_trans hk (by norm_num))
  generalize hhdef : ((ch <<< 4) % 2 ^ 64) ||| k = h at hh
  have hel := encodingLength_le h
  have hL : d.length + encodingLength h < 2 ^ 64 := by
    have : (2 : Nat) ^ 63 + 10 < 2 ^ 64 := by norm_num
    omega
  have hel2 := encodingLength_le (d.length + encodingLength h)
  have hN : encodingLength (d.length + encodingLength h) + (d.length + encodingLength h)
      < 2 ^ 64 := by
    have : (2 : Nat) ^ 63 + 20 < 2 ^ 64 := by norm_num
    omega
  have e1 := encodingLength_eq_uvarint_length h hh
  have e2 := encodingLength_eq_uvarint_length _ hL
  unfold Send frameBytes
  simp only [hhdef, Nat.mod_eq_of_lt hL, Nat.mod_eq_of_lt hN]
  generalize hLdef : d.length + encodingLength h = L at *
  have s1 := PutUvarint_spec [] (List.replicate (encodingLength L + L) 0) L hL
    (by simp; omega)
  simp only [List.nil_append, List.length_nil] at s1
  simp only [bind, Except.bind, s1]
  have s2 := PutUvarint_spec (uvarint L)
    (List.drop (uvarint L).length (List.replicate (encodingLength L + L) 0)) h hh
    (by simp; omega)
  rw [s2]
  simp only []
  have hfit : ¬ ((uvarint L).length + (uvarint h).length >
      (uvarint L ++ uvarint h ++ List.drop (uvarint h).length
        (List.drop (uvarint L).length (List.replicate (encodingLength L + L) 0))).length) := by
    simp
  rw [if_neg hfit]
  have := copyAt_append_fit (uvarint L ++ uvarint h)
    (List.drop (uvarint h).length
        (List.drop (uvarint L).length (List.replicate (encodingLength L + L) 0))) d
    (by simp; omega)
  simp only [List.length_append] at this
  rw [this]
  have hz : List.drop d.length (List.drop (uvarint h).length
        (List.drop (uvarint L).length (List.replicate (encodingLength L + L) 0))) = [] := by
    apply List.drop_eq_nil_of_le
    simp; omega
  rw [hz]; simp

/-! ## The varint loop of the decoder -/

@[simp] theorem contStep_state (s : SMC) (b : Nat) : (contStep s b).state = s.state := rfl
@[simp] theorem contStep_header (s : SMC) (b : Nat) : (contStep s b).header = s.header := rfl
@[simp] theorem contStep_message (s : SMC) (b : Nat) : (contStep s b).message = s.message := rfl
@[simp] theorem contStep_destroyed (s : SMC) (b : Nat) :
    (contStep s b).destroyed = s.destroyed := rfl
@[simp] theorem contStep_receiving (s : SMC) (b : Nat) :
    (contStep s b).receiving = s.receiving := rfl
@[simp] theorem contStep_length (s : SMC) (b : Nat) : (contStep s b).length = s.length := rfl
@[simp] theorem contStep_err (s : SMC) (b : Nat) : (contStep s b).err = s.err := rfl
@[simp] theorem contStep_onmissing (s : SMC) (b : Nat) :
    (contStep s b).onmissing = s.onmissing := rfl
@[simp] theorem contStep_onmessage (s : SMC) (b : Nat) :
    (contStep s b).onmessage = s.onmessage := rfl
@[simp] theorem contStep_calls (s : SMC) (b : Nat) : (contStep s b).calls = s.calls := rfl

theorem and_127 (b : Nat) : b &&& 127 = b % 128 := by
  have := Nat.and_pow_two_sub_one_eq_mod b 7
  norm_num at this
  exact this

/-- The fields of the decoder after a run of continuation bytes. -/
theorem foldl_contStep_frame (cont : List Nat) : ∀ s : SMC,
    (cont.foldl contStep s).state = s.state ∧
    (cont.foldl contStep s).header = s.header ∧
    (cont.foldl contStep s).message = s.message ∧
    (cont.foldl contStep s).destroyed = s.destroyed ∧
    (cont.foldl contStep s).receiving = s.receiving ∧
    (cont.foldl contStep s).length = s.length ∧
    (cont.foldl contStep s).err = s.err ∧
    (cont.foldl contStep s).onmissing = s.onmissing ∧
    (cont.foldl contStep s).onmessage = s.onmessage ∧
    (cont.foldl contStep s).calls = s.calls ∧
    (cont.foldl contStep s).consumed = s.consumed + cont.length := by
  induction cont with
  | nil => intro s; simp
  | cons b bs ih =>
    intro s
    have := ih (contStep s b)
    simp only [List.foldl_cons, List.length_cons]
    simp only [contStep_state, contStep_header, contStep_message, contStep_destroyed,
      contStep_receiving, contStep_length, contStep_err, contStep_onmissing,
      contStep_onmessage, contStep_calls] at this
    refine ⟨this.1, this.2.1, this.2.2.1, this.2.2.2.1, this.2.2.2.2.1, this.2.2.2.2.2.1,
      this.2.2.2.2.2.2.1, this.2.2.2.2.2.2.2.1, this.2.2.2.2.2.2.2.2.1,
      this.2.2.2.2.2.2.2.2.2.1, ?_⟩
    rw [this.2.2.2.2.2.2.2.2.2.2]
    simp only [contStep]
    push_cast
    ring

theorem foldl_contStep_factor (cont : List Nat) : ∀ s : SMC, s.factor < 2 ^ 64 →
    (cont.foldl contStep s).factor = (s.factor * 128 ^ cont.length) % 2 ^ 64 := by
  induction cont with
  | nil =>
    intro s hs
    simp only [List.foldl_nil, List.length_nil, pow_zero, mul_one]
    exact (Nat.mod_eq_of_lt hs).symm
  | cons b bs ih =>
    intro s _
    simp only [List.foldl_cons, List.length_cons]
    rw [ih _ (by simp only [contStep]; exact Nat.mod_lt _ (by norm_num))]
    simp only [contStep]
    rw [Nat.mod_mul_mod, Nat.pow_succ]
    congr 1
    ring

theorem foldl_contStep_varint (cont : List Nat) : ∀ s : SMC, s.varint < 2 ^ 64 →
    (cont.foldl contStep s).varint = (s.varint + s.factor * leval cont) % 2 ^ 64 := by
  induction cont with
  | nil =>
    intro s hs
    simp only [List.foldl_nil, leval, mul_zero, add_zero]
    exact (Nat.mod_eq_of_lt hs).symm
  | cons b bs ih =>
    intro s _
    simp only [List.foldl_cons]
    rw [ih _ (by simp only [contStep]; exact Nat.mod_lt _ (by norm_num))]
    simp only [contStep, and_127, leval]
    have h1 : (s.varint + (b % 128 * s.factor) % 2 ^ 64) % 2 ^ 64
        ≡ s.varint + b % 128 * s.factor [MOD 2 ^ 64] :=
      (Nat.mod_modEq _ _).trans (Nat.ModEq.add_left _ (Nat.mod_modEq _ _))
    have h2 : (s.factor * 128) % 2 ^ 64 * leval bs ≡ s.factor * 128 * leval bs [MOD 2 ^ 64] :=
      (Nat.mod_modEq _ _).mul_right _
    have h3 := h1.add h2
    have e : s.varint + b % 128 * s.factor + s.factor * 128 * leval bs
        = s.varint + s.factor * (b % 128 + 128 * leval bs) := by ring
    rw [e] at h3
    exact h3

theorem readVarintLoop_cont (data : List Nat) (cont : List Nat) :
    ∀ (rest : List Nat) (s : SMC) (offset : Nat), (∀ b ∈ cont, 128 ≤ b) →
    readVarintLoop data (cont ++ rest) s offset
      = readVarintLoop data rest (cont.foldl contStep s) (offset + cont.length) := by
  induction cont with
  | nil => intro rest s offset _; simp
  | cons b bs ih =>
    intro rest s offset hb
    have hb0 : ¬ b < 128 := Nat.not_lt.mpr (hb b (by simp))
    have hbs : ∀ c ∈ bs, 128 ≤ c := fun c hc => hb c (by simp [hc])
    have := ih rest (contStep s b) (offset + 1) hbs
    rw [List.cons_append, readVarintLoop]
    simp only [hb0, if_false, List.foldl_cons, List.length_cons]
    simp only [contStep] at this ⊢
    rw [this]
    congr 1
    omega

theorem readVarintLoop_term (data : List Nat) (t : Nat) (rest : List Nat) (s : SMC)
    (offset : Nat) (ht : t < 128) :
    readVarintLoop data (t :: rest) s offset
      = if (next (termStep s t) data (offset + 1)).2
        then ((next (termStep s t) data (offset + 1)).1, offset + 1)
        else ((next (termStep s t) data (offset + 1)).1, data.length) := by
  simp only [readVarintLoop, ht, if_true, termStep]

theorem readVarintLoop_nil (data : List Nat) (s : SMC) (offset : Nat) :
    readVarintLoop data [] s offset
      = (if s.consumed ≥ 9 then destroy s (some Err.ErrInvalidVarint) else s, data.length) := by
  simp only [readVarintLoop]

/-! ## Structure of the varint of the specification -/

theorem wrapInt_id (x : Int) (h1 : -2 ^ 63 ≤ x) (h2 : x < 2 ^ 63) : wrapInt x = x := by
  unfold wrapInt
  omega

theorem toInt_small (v : Nat) (h : v < 2 ^ 63) : toInt v = (v : Int) := by
  unfold toInt wrapInt
  simp only [Int.ofNat_eq_coe]
  omega

theorem uvarint_drop (j : Nat) : ∀ w : Nat, j < (uvarint w).length →
    (uvarint w).drop j = uvarint (w / 128 ^ j) := by
  induction j with
  | zero => intro w _; simp
  | succ j ih =>
    intro w hj
    by_cases hw : w < 128
    · rw [uvarint_lt hw] at hj; simp at hj
    · have hge : 128 ≤ w := Nat.le_of_not_lt hw
      rw [uvarint_ge hge] at hj ⊢
      simp only [List.length_cons, Nat.add_lt_add_iff_right] at hj
      rw [List.drop_succ_cons, ih _ hj, Nat.div_div_eq_div_mul, Nat.pow_succ, Nat.mul_comm]

theorem uvarint_take_cont (j : Nat) : ∀ w : Nat, j < (uvarint w).length →
    ∀ b ∈ (uvarint w).take j, 128 ≤ b := by
  induction j with
  | zero => intro w _ b hb; simp at hb
  | succ j ih =>
    intro w hj b hb
    by_cases hw : w < 128
    · rw [uvarint_lt hw] at hj; simp at hj
    · have hge : 128 ≤ w := Nat.le_of_not_lt hw
      rw [uvarint_ge hge] at hj hb
      simp only [List.length_cons, Nat.add_lt_add_iff_right] at hj
      rw [List.take_succ_cons, List.mem_cons] at hb
      rcases hb with hb | hb
      · omega
      · exact ih _ hj b hb

theorem uvarint_take_leval (j : Nat) : ∀ w : Nat, j < (uvarint w).length →
    leval ((uvarint w).take j) = w % 128 ^ j := by
  induction j with
  | zero => intro w _; simp [leval, Nat.mod_one]
  | succ j ih =>
    intro w hj
    by_cases hw : w < 128
    · rw [uvarint_lt hw] at hj; simp at hj
    · have hge : 128 ≤ w := Nat.le_of_not_lt hw
      rw [uvarint_ge hge] at hj ⊢
      simp only [List.length_cons, Nat.add_lt_add_iff_right] at hj
      rw [List.take_succ_cons, leval, ih _ hj, Nat.pow_succ, Nat.mul_comm (128 ^ j) 128,
        Nat.mod_mul]
      omega

/-- The last byte of an encoding is a terminator and the bytes before it are
continuation bytes. -/
theorem uvarint_split (w : Nat) :
    uvarint w = (uvarint w).take ((uvarint w).length - 1)
      ++ [w / 128 ^ ((uvarint w).length - 1)] ∧
    w / 128 ^ ((uvarint w).length - 1) < 128 := by
  have hp := uvarint_length_pos w
  have hj : (uvarint w).length - 1 < (uvarint w).length := by omega
  have hd := uvarint_drop _ w hj
  have hlen : ((uvarint w).drop ((uvarint w).length - 1)).length = 1 := by
    rw [List.length_drop]; omega
  rw [hd] at hlen
  have hlt : w / 128 ^ ((uvarint w).length - 1) < 128 := by
    by_contra hc
    rw [uvarint_ge (Nat.le_of_not_lt hc)] at hlen
    have := uvarint_length_pos (w / 128 ^ ((uvarint w).length - 1) / 128)
    simp only [List.length_cons] at hlen
    omega
  refine ⟨?_, hlt⟩
  rw [uvarint_lt hlt] at hd
  rw [← hd, List.take_append_drop]

theorem leval_append (a b : List Nat) :
    leval (a ++ b) = leval a + 128 ^ a.length * leval b := by
  induction a with
  | nil => simp [leval]
  | cons x xs ih =>
    have e : (x :: xs) ++ b = x :: (xs ++ b) := rfl
    rw [e, leval, leval, ih, List.length_cons, Nat.pow_succ]
    ring

theorem uvarint_length_le_nine (v : Nat) (hv : v < 2 ^ 63) : (uvarint v).length ≤ 9 := by
  have := (uvarint_length_le_iff 8 v).mpr (by norm_num; norm_num at hv; exact hv)
  omega

theorem leval_uvarint (w : Nat) : leval (uvarint w) = w := by
  induction w using Nat.strong_induction_on with
  | _ w ih =>
    by_cases hw : w < 128
    · rw [uvarint_lt hw]; simp only [leval]; omega
    · have hge : 128 ≤ w := Nat.le_of_not_lt hw
      rw [uvarint_ge hge, leval, ih (w / 128) (by omega)]
      omega

theorem pow128_lt (n : Nat) (hn : n ≤ 8) : 128 ^ n < 2 ^ 64 := by
  calc 128 ^ n ≤ 128 ^ 8 := Nat.pow_le_pow_right (by norm_num) hn
    _ < 2 ^ 64 := by norm_num

/-- A chunk that ends inside a varint leaves the decoder further into it. -/
theorem readVarintLoop_partial (data cr a : List Nat) (s : SMC) (off v j : Nat)
    (hv : v < 2 ^ 63) (h : VarAt s v j) (hsplit : (uvarint v).drop j = cr ++ a)
    (ha : a ≠ []) :
    readVarintLoop data cr s off = (cr.foldl contStep s, data.length) ∧
    VarAt (cr.foldl contStep s) v (j + cr.length) ∧
    a = (uvarint v).drop (j + cr.length) := by
  obtain ⟨hj, hvar, hfac, hcons⟩ := h
  have h9 := uvarint_length_le_nine v hv
  have hlen : (uvarint v).length - j = cr.length + a.length := by
    have := congrArg List.length hsplit
    simpa using this
  have hapos : 0 < a.length := List.length_pos.mpr ha
  have hjn : j + cr.length < (uvarint v).length := by omega
  have htake : (uvarint v).take (j + cr.length) = (uvarint v).take j ++ cr := by
    rw [List.take_add, hsplit, List.take_left' rfl]
  have hcont : ∀ b ∈ cr, 128 ≤ b := by
    intro b hb
    apply uvarint_take_cont _ v hjn b
    rw [htake]; simp [hb]
  have hfr := foldl_contStep_frame cr s
  have hjlen : ((uvarint v).take j).length = j := by
    rw [List.length_take]; omega
  have hval : v % 128 ^ j + 128 ^ j * leval cr = v % 128 ^ (j + cr.length) := by
    rw [← uvarint_take_leval _ v hjn, htake, leval_append, uvarint_take_leval _ v hj, hjlen]
  refine ⟨?_, ⟨hjn, ?_, ?_, ?_⟩, ?_⟩
  · have := readVarintLoop_cont data cr [] s off hcont
    rw [List.append_nil] at this
    rw [this, readVarintLoop_nil]
    have hc : ¬ (cr.foldl contStep s).consumed ≥ 9 := by
      rw [hfr.2.2.2.2.2.2.2.2.2.2, hcons]; omega
    rw [if_neg hc]
  · have hvlt : s.varint < 2 ^ 64 := by
      rw [hvar]; exact lt_of_le_of_lt (Nat.mod_le _ _) (lt_trans hv (by norm_num))
    rw [foldl_contStep_varint cr s hvlt, hvar, hfac, hval]
    apply Nat.mod_eq_of_lt
    exact lt_of_le_of_lt (Nat.mod_le _ _) (lt_trans hv (by norm_num))
  · rw [foldl_contStep_factor cr s (by rw [hfac]; exact pow128_lt j (by omega)), hfac,
      ← Nat.pow_add]
    exact Nat.mod_eq_of_lt (pow128_lt _ (by omega))
  · rw [hfr.2.2.2.2.2.2.2.2.2.2, hcons]; push_cast; ring
  · rw [← List.drop_drop, hsplit, List.drop_left' rfl]

/-- A chunk that holds the rest of a varint reaches `next` with the whole
value in the accumulator. -/
theorem readVarintLoop_complete (data cr : List Nat) (s : SMC) (off v j : Nat)
    (hv : v < 2 ^ 63) (h : VarAt s v j) :
    readVarintLoop data ((uvarint v).drop j ++ cr) s off
      = (let s1 : SMC := { s with varint := v, factor := 128 ^ ((uvarint v).length - 1),
                                  consumed := ((uvarint v).length : Int) }
         let r := next s1 data (off + ((uvarint v).length - j))
         if r.2 then (r.1, off + ((uvarint v).length - j)) else (r.1, data.length)) := by
  obtain ⟨hj, hvar, hfac, hcons⟩ := h
  have h9 := uvarint_length_le_nine v hv
  have hd := uvarint_drop j v hj
  have hn : (uvarint (v / 128 ^ j)).length = (uvarint v).length - j := by
    rw [← hd, List.length_drop]
  obtain ⟨hsp, ht⟩ := uvarint_split (v / 128 ^ j)
  generalize hw : v / 128 ^ j = w at hd hn hsp ht
  generalize hcdef : (uvarint w).take ((uvarint w).length - 1) = cont at hsp
  generalize htdef : w / 128 ^ ((uvarint w).length - 1) = t at hsp ht
  have hclen : cont.length = (uvarint v).length - j - 1 := by
    rw [← hcdef, List.length_take, hn]; omega
  have hcont : ∀ b ∈ cont, 128 ≤ b := by
    intro b hb
    rw [← hcdef] at hb
    exact uvarint_take_cont _ w (by rw [hn]; omega) b hb
  have hfr := foldl_contStep_frame cont s
  have hvlt : s.varint < 2 ^ 64 := by
    rw [hvar]; exact lt_of_le_of_lt (Nat.mod_le _ _) (lt_trans hv (by norm_num))
  have hflt : s.factor < 2 ^ 64 := by rw [hfac]; exact pow128_lt j (by omega)
  have hfv := foldl_contStep_varint cont s hvlt
  have hff := foldl_contStep_factor cont s hflt
  have hfactor : (cont.foldl contStep s).factor = 128 ^ ((uvarint v).length - 1) := by
    rw [hff, hfac, ← Nat.pow_add, hclen]
    have e : j + ((uvarint v).length - j - 1) = (uvarint v).length - 1 := by omega
    rw [e]
    exact Nat.mod_eq_of_lt (pow128_lt _ (by omega))
  have hs1 : termStep (cont.foldl contStep s) t
      = { s with varint := v, factor := 128 ^ ((uvarint v).length - 1),
                 consumed := ((uvarint v).length : Int) } := by
    apply SMC.ext <;> simp only [termStep, hfr]
    · exact hfactor
    · have hv2 := foldl_contStep_varint (cont ++ [t]) s hvlt
      have hl : leval (cont ++ [t]) = w := by rw [← hsp, leval_uvarint]
      rw [hl, hvar, hfac, ← hw, Nat.mod_add_div, List.foldl_append] at hv2
      simp only [List.foldl_cons, List.foldl_nil, contStep] at hv2
      rw [hv2]
      exact Nat.mod_eq_of_lt (lt_trans hv (by norm_num))
    · rw [hcons, hclen]; omega
  rw [hd, hsp, List.append_assoc, readVarintLoop_cont data cont _ s off hcont]
  rw [List.singleton_append, readVarintLoop_term _ _ _ _ _ ht, hs1]
  have eoff : off + cont.length + 1 = off + ((uvarint v).length - j) := by omega
  simp only [eoff]

/-! ## Decoding a stream of frames -/

theorem messagesOf_append (a b : List Event) :
    messagesOf (a ++ b) = messagesOf a ++ messagesOf b := by
  induction a with
  | nil => simp [messagesOf]
  | cons e es ih =>
    cases e with
    | missing n => simpa [messagesOf] using ih
    | message ch k p dd o => simpa [messagesOf] using ih

theorem VarAt_zero (s : SMC) (v w : Nat) (h : VarAt s v 0) : VarAt s w 0 := by
  obtain ⟨_, h2, h3, h4⟩ := h
  exact ⟨uvarint_length_pos w, by simpa [Nat.mod_one] using h2, h3, h4⟩

theorem Packet.hdr_lt (m : Packet) (h : m.valid) : m.hdr < 2 ^ 63 := by
  obtain ⟨h1, h2, _⟩ := h
  unfold Packet.hdr
  norm_num at h1 ⊢
  omega

theorem Packet.outer_lt (m : Packet) (h : m.valid) : m.outer < 2 ^ 63 := by
  obtain ⟨_, _, h3⟩ := h
  have := encodingLength_le m.hdr
  unfold Packet.outer
  norm_num
  omega

theorem Packet.outer_pos (m : Packet) : 0 < m.outer := by
  have := encodingLength_pos m.hdr
  unfold Packet.outer
  omega

theorem Inv_start (s : SMC) (ms : List Packet) (hl : Live s) (h0 : s.state = 0)
    (hm : s.message = none) (hf : VarAt s 0 0) : Inv s (stream ms) ms := by
  cases ms with
  | nil => exact Inv.idle s _ hl h0 hm hf rfl
  | cons m ms =>
    refine Inv.len s _ m ms 0 hl h0 hm (VarAt_zero s 0 _ hf) ?_
    simp [stream, frameBytes, Packet.outer]

theorem split_cases (cr rest U T : List Nat) (h : cr ++ rest = U ++ T) :
    (∃ a, a ≠ [] ∧ U = cr ++ a ∧ rest = a ++ T) ∨ (∃ c, cr = U ++ c ∧ T = c ++ rest) := by
  rcases List.append_eq_append_iff.mp h with ⟨a, h1, h2⟩ | ⟨c, h1, h2⟩
  · by_cases ha : a = []
    · right
      refine ⟨[], ?_, ?_⟩
      · simp [h1, ha]
      · simp [h2, ha]
    · left; exact ⟨a, ha, h1, h2⟩
  · right; exact ⟨c, h1, h2⟩

theorem next_state0 (s : SMC) (data : List Nat) (off : Nat) (h0 : s.state = 0)
    (hne : toInt s.varint ≠ 0) :
    next s data off
      = ({ s with state := 1, factor := 1, length := toInt s.varint, consumed := 0,
                  varint := 0 }, true) := by
  unfold next
  rw [h0]
  simp only [hne, if_false]

theorem next_state2 (s : SMC) (data : List Nat) (off : Nat) (h2 : s.state = 2)
    (hl : Live s) :
    next s data off
      = ({ s with state := 0, message := none,
                  calls := s.calls ++ [Event.message (s.header >>> 4)
                    ((s.header &&& 0b1111) % 256) s.message data off] }, true) := by
  unfold next
  rw [h2]
  simp only [hl.1, hl.2, if_true, Bool.not_false]

/-- The header completes with a remaining length inside the limit. -/
theorem next_state1 (s : SMC) (data : List Nat) (off : Nat) (h1 : s.state = 1)
    (hlo : 0 ≤ wrapInt (s.length - s.consumed))
    (hhi : wrapInt (s.length - s.consumed) ≤ defaultMaxSize) :
    ∃ s2, next s data off = (s2, true) ∧ s2.state = 2 ∧ s2.factor = 1 ∧ s2.varint = 0 ∧
      s2.consumed = 0 ∧ s2.header = s.varint ∧ s2.length = wrapInt (s.length - s.consumed) ∧
      s2.message = s.message ∧ s2.destroyed = s.destroyed ∧ s2.receiving = s.receiving ∧
      s2.err = s.err ∧ s2.onmissing = s.onmissing ∧ s2.onmessage = s.onmessage ∧
      messagesOf s2.calls = messagesOf s.calls := by
  unfold next
  rw [h1]
  have hc : ¬ (wrapInt (s.length - s.consumed) < 0 ∨
      wrapInt (s.length - s.consumed) > defaultMaxSize) := by
    intro h; rcases h with h | h <;> omega
  simp only [hc, if_false]
  split_ifs <;> simp [messagesOf_append, messagesOf]

/-! ## The four paths of `readMessage` -/

theorem readMessage_borrow (s : SMC) (d : List Nat) (off : Nat) (hm : s.message = none)
    (h0 : 0 ≤ s.length) (hfree : (d.length : Int) - (off : Int) ≥ s.length) :
    readMessage s d off = .ok (finishWith s ((d.drop off).take s.length.toNat) d off) := by
  unfold readMessage finishWith
  have hn : ¬ s.length < 0 := by omega
  simp only [hfree, if_true, hm, hn, if_false, bind, Except.bind]
  split_ifs <;> rfl

theorem readMessage_finish (s : SMC) (d : List Nat) (off : Nat) (buf : List Nat)
    (hm : s.message = some buf) (h0 : 0 ≤ s.length) (hb : s.length ≤ (buf.length : Int))
    (hfree : (d.length : Int) - (off : Int) ≥ s.length) :
    readMessage s d off
      = .ok (finishWith s (copyAt buf ((buf.length : Int) - s.length).toNat (d.drop off))
          d off) := by
  unfold readMessage copyTail finishWith
  have hn : ¬ ((buf.length : Int) - s.length < 0 ∨
      (buf.length : Int) - s.length > buf.length) := by
    omega
  simp only [hfree, if_true, hm, hn, if_false, bind, Except.bind, Except.map]
  split_ifs <;> rfl

theorem readMessage_alloc (s : SMC) (d : List Nat) (off : Nat) (hm : s.message = none)
    (hfree : (d.length : Int) - (off : Int) < s.length) (hoff : off ≤ d.length) :
    readMessage s d off
      = .ok ({ s with message := some (copyAt (List.replicate s.length.toNat 0) 0 (d.drop off)),
                      length := wrapInt (s.length - ((d.length : Int) - (off : Int))) },
             d.length) := by
  unfold readMessage copyTail
  have hf : ¬ ((d.length : Int) - (off : Int) ≥ s.length) := by omega
  have hn : ¬ s.length < 0 := by omega
  have hlen : ((List.replicate s.length.toNat 0).length : Int) - s.length = 0 := by
    rw [List.length_replicate, Int.toNat_of_nonneg (by omega)]; omega
  simp only [hf, if_false, hm, hn, bind, Except.bind, hlen]
  simp

theorem readMessage_more (s : SMC) (d : List Nat) (off : Nat) (buf : List Nat)
    (hm : s.message = some buf) (h0 : 0 ≤ s.length) (hb : s.length ≤ (buf.length : Int))
    (hfree : (d.length : Int) - (off : Int) < s.length) :
    readMessage s d off
      = .ok ({ s with
                message := some (copyAt buf ((buf.length : Int) - s.length).toNat (d.drop off)),
                length := wrapInt (s.length - ((d.length : Int) - (off : Int))) },
             d.length) := by
  unfold readMessage copyTail
  have hf : ¬ ((d.length : Int) - (off : Int) ≥ s.length) := by omega
  have hn : ¬ ((buf.length : Int) - s.length < 0 ∨
      (buf.length : Int) - s.length > buf.length) := by
    omega
  simp only [hf, if_false, hm, hn, bind, Except.bind]

theorem copyAt_fit (dst src : List Nat) (pos : Nat) (h : pos + src.length ≤ dst.length) :
    copyAt dst pos src = dst.take pos ++ src ++ dst.drop (pos + src.length) := by
  unfold copyAt
  have : min (dst.length - pos) src.length = src.length := by omega
  simp only [this, List.take_length]

theorem copyAt_tail (dst src : List Nat) (pos : Nat) (h1 : pos ≤ dst.length)
    (h2 : dst.length - pos ≤ src.length) :
    copyAt dst pos src = dst.take pos ++ src.take (dst.length - pos) := by
  unfold copyAt
  have : min (dst.length - pos) src.length = dst.length - pos := by omega
  simp only [this]
  have e : pos + (dst.length - pos) = dst.length := by omega
  rw [e, List.drop_length, List.append_nil]

theorem Packet.hdr_decode (m : Packet) (hk : m.k ≤ 15) :
    m.hdr >>> 4 = m.ch ∧ (m.hdr &&& 0b1111) % 256 = m.k := by
  have h := Nat.and_pow_two_sub_one_eq_mod m.hdr 4
  norm_num at h
  rw [Nat.shiftRight_eq_div_pow, h]
  unfold Packet.hdr
  constructor <;> omega

/-! ## One pass of the `Recv` loop on a stream of frames -/

theorem drop_add_of_split (d U c : List Nat) (off : Nat) (h : d.drop off = U ++ c) :
    d.drop (off + U.length) = c := by
  rw [← List.drop_drop, h, List.drop_left' rfl]

theorem length_of_split (d U c : List Nat) (off : Nat) (h : d.drop off = U ++ c)
    (hU : U ≠ []) : off + U.length ≤ d.length ∧ off < off + U.length := by
  have := congrArg List.length h
  rw [List.length_drop, List.length_append] at this
  have hp : 0 < U.length := List.length_pos.mpr hU
  omega

theorem step_len (d : List Nat) (s : SMC) (off : Nat) (rest : List Nat) (m : Packet)
    (ms : List Packet) (j : Nat) (hval : m.valid) (hoff : off < d.length)
    (hl : Live s) (h0 : s.state = 0) (hm : s.message = none) (hv : VarAt s m.outer j)
    (hrest : d.drop off ++ rest
      = (uvarint m.outer).drop j ++ (uvarint m.hdr ++ (m.d ++ stream ms))) :
    ∃ s' off', readVarint s d off = (s', off') ∧ Inv s' (d.drop off' ++ rest) (m :: ms) ∧
      off' ≤ d.length ∧ passes d s' off' < passes d s off ∧
      messagesOf s'.calls = messagesOf s.calls ∧ s'.receiving = s.receiving ∧
      s'.onmissing = s.onmissing ∧ s'.err = s.err := by
  have hol := m.outer_lt hval
  unfold readVarint
  rcases split_cases _ _ _ _ hrest with ⟨a, ha, hU, hr⟩ | ⟨c, hc, hT⟩
  · obtain ⟨e1, e2, e3⟩ :=
      readVarintLoop_partial d (d.drop off) a s off m.outer j hol hv hU ha
    obtain ⟨f1, f2, f3, f4, f5, f6, f7, f8, f9, f10, f11⟩ :=
      foldl_contStep_frame (d.drop off) s
    refine ⟨_, _, e1, ?_, le_refl _, ?_, by rw [f10], f5, f8, f7⟩
    · refine Inv.len _ _ m ms (j + (d.drop off).length) ⟨by rw [f4]; exact hl.1,
        by rw [f9]; exact hl.2⟩ (by rw [f1]; exact h0) (by rw [f3]; exact hm) e2 ?_
      rw [List.drop_length, List.nil_append, hr, e3]
    · unfold passes
      rw [f1, h0]
      simp only [Nat.sub_self]
      omega
  · have hUne : (uvarint m.outer).drop j ≠ [] := by
      intro h
      have e1 := congrArg List.length h
      rw [List.length_drop, List.length_nil] at e1
      have e2 := hv.1
      omega
    obtain ⟨hle, hlt⟩ := length_of_split d _ c off hc hUne
    have hdrop := drop_add_of_split d _ c off hc
    rw [List.length_drop] at hle hlt hdrop
    rw [hc, readVarintLoop_complete d c s off m.outer j hol hv]
    have hne : toInt m.outer ≠ 0 := by
      rw [toInt_small _ hol]
      have := m.outer_pos
      omega
    have key := next_state0 { s with varint := m.outer,
                                     factor := 128 ^ ((uvarint m.outer).length - 1),
                                     consumed := ((uvarint m.outer).length : Int) } d
      (off + ((uvarint m.outer).length - j)) h0 hne
    simp only []
    rw [key]
    simp only [if_true]
    refine ⟨_, _, rfl, ?_, hle, ?_, rfl, rfl, rfl, rfl⟩
    · refine Inv.head _ _ m ms 0 hl rfl hm (toInt_small _ hol) ?_ ?_
      · exact ⟨uvarint_length_pos _, by simp [Nat.mod_one], rfl, rfl⟩
      · rw [hdrop, ← hT]; simp
    · unfold passes
      have e1 : ¬ ((1 : Nat) = 2) := by decide
      have e0 : ¬ ((0 : Nat) = 2) := by decide
      simp only [h0, if_neg e1, if_neg e0]
      omega

theorem step_head (d : List Nat) (s : SMC) (off : Nat) (rest : List Nat) (m : Packet)
    (ms : List Packet) (j : Nat) (hval : m.valid) (hoff : off < d.length)
    (hl : Live s) (h1 : s.state = 1) (hm : s.message = none)
    (hlen : s.length = (m.outer : Int)) (hv : VarAt s m.hdr j)
    (hrest : d.drop off ++ rest = (uvarint m.hdr).drop j ++ (m.d ++ stream ms)) :
    ∃ s' off', readVarint s d off = (s', off') ∧ Inv s' (d.drop off' ++ rest) (m :: ms) ∧
      off' ≤ d.length ∧ passes d s' off' < passes d s off ∧
      messagesOf s'.calls = messagesOf s.calls ∧ s'.receiving = s.receiving ∧
      s'.onmissing = s.onmissing ∧ s'.err = s.err := by
  have hhl := m.hdr_lt hval
  unfold readVarint
  rcases split_cases _ _ _ _ hrest with ⟨a, ha, hU, hr⟩ | ⟨c, hc, hT⟩
  · obtain ⟨e1, e2, e3⟩ :=
      readVarintLoop_partial d (d.drop off) a s off m.hdr j hhl hv hU ha
    obtain ⟨f1, f2, f3, f4, f5, f6, f7, f8, f9, f10, f11⟩ :=
      foldl_contStep_frame (d.drop off) s
    refine ⟨_, _, e1, ?_, le_refl _, ?_, by rw [f10], f5, f8, f7⟩
    · refine Inv.head _ _ m ms (j + (d.drop off).length) ⟨by rw [f4]; exact hl.1,
        by rw [f9]; exact hl.2⟩ (by rw [f1]; exact h1) (by rw [f3]; exact hm)
        (by rw [f6]; exact hlen) e2 ?_
      rw [List.drop_length, List.nil_append, hr, e3]
    · unfold passes
      rw [f1, h1]
      simp only [Nat.sub_self]
      omega
  · have hUne : (uvarint m.hdr).drop j ≠ [] := by
      intro h
      have e1 := congrArg List.length h
      rw [List.length_drop, List.length_nil] at e1
      have e2 := hv.1
      omega
    obtain ⟨hle, hlt⟩ := length_of_split d _ c off hc hUne
    have hdrop := drop_add_of_split d _ c off hc
    rw [List.length_drop] at hle hlt hdrop
    rw [hc, readVarintLoop_complete d c s off m.hdr j hhl hv]
    have hel := encodingLength_eq_uvarint_length m.hdr (lt_trans hhl (by norm_num))
    have hrem : wrapInt ((m.outer : Int) - ((uvarint m.hdr).length : Int))
        = (m.d.length : Int) := by
      rw [← hel]
      unfold Packet.outer
      push_cast
      have h3 := hval.2.2
      unfold wrapInt
      omega
    have h3 := hval.2.2
    obtain ⟨s2, g0, g1, g2, g3, g4, g5, g6, g7, g8, g9, g10, g11, g12, g13⟩ :=
      next_state1 { s with varint := m.hdr, factor := 128 ^ ((uvarint m.hdr).length - 1),
                           consumed := ((uvarint m.hdr).length : Int) } d
        (off + ((uvarint m.hdr).length - j)) h1
        (by simp only [hlen, hrem]; omega)
        (by simp only [hlen, hrem]; unfold defaultMaxSize; omega)
    simp only [hlen, hrem] at g6
    simp only [] at g5 g7 g8 g9 g10 g11 g12 g13
    simp only []
    rw [g0]
    simp only [if_true]
    refine ⟨_, _, rfl, ?_, hle, ?_, g13, g9, g11, g10⟩
    · refine Inv.body _ _ m ms 0 ⟨by rw [g8]; exact hl.1, by rw [g12]; exact hl.2⟩ g1
        ⟨uvarint_length_pos _, by simp [g3], g2, by simp [g4]⟩ g5 (by simp [g6]) (by omega)
        (Or.inl ⟨rfl, by rw [g7]; exact hm⟩) ?_
      rw [hdrop, ← hT]; simp
    · unfold passes
      rw [if_pos g1, if_neg (by rw [h1]; decide)]
      omega

theorem copyAt_fit_length (dst src : List Nat) (pos : Nat) (h : pos + src.length ≤ dst.length) :
    (copyAt dst pos src).length = dst.length := by
  rw [copyAt_fit dst src pos h]
  simp only [List.length_append, List.length_take, List.length_drop]
  omega

theorem copyAt_fit_take (dst src : List Nat) (pos : Nat) (h : pos + src.length ≤ dst.length) :
    (copyAt dst pos src).take (pos + src.length) = dst.take pos ++ src := by
  rw [copyAt_fit dst src pos h]
  apply List.take_left'
  simp only [List.length_append, List.length_take]
  omega

theorem take_add_of_split (D cr a : List Nat) (g : Nat) (h : D.drop g = cr ++ a) :
    D.take (g + cr.length) = D.take g ++ cr ∧ D.drop (g + cr.length) = a := by
  constructor
  · rw [List.take_add, h, List.take_left' rfl]
  · rw [← List.drop_drop, h, List.drop_left' rfl]

theorem finishWith_live (s : SMC) (m : Packet) (d : List Nat) (off : Nat) (hl : Live s)
    (h2 : s.state = 2) (hh : s.header = m.hdr) (hk : m.k ≤ 15) :
    finishWith s m.d d off
      = ({ s with state := 0, message := none,
                  calls := s.calls ++
                    [Event.message m.ch m.k (some m.d) d (off + s.length.toNat)] },
         off + s.length.toNat) := by
  unfold finishWith
  have key := next_state2 { s with message := some m.d } d (off + s.length.toNat) h2 hl
  simp only [] at key ⊢
  rw [key]
  obtain ⟨e1, e2⟩ := m.hdr_decode hk
  simp only [if_true, hh, e1, e2]

theorem stream_ne_nil (m : Packet) (ms : List Packet) : stream (m :: ms) ≠ [] := by
  have := uvarint_ne_nil (m.d.length + encodingLength m.hdr)
  simp [stream, frameBytes, this]

theorem step_body (d : List Nat) (s : SMC) (off : Nat) (rest : List Nat) (m : Packet)
    (ms : List Packet) (g : Nat) (hval : m.valid) (hoff : off ≤ d.length)
    (hnz : off < d.length ∨ s.length = 0)
    (hl : Live s) (h2 : s.state = 2) (hf : VarAt s 0 0) (hh : s.header = m.hdr)
    (hlen : s.length = (m.d.length : Int) - (g : Int)) (hg : g ≤ m.d.length)
    (hb : BufAt s m.d g) (hrest : d.drop off ++ rest = m.d.drop g ++ stream ms) :
    ∃ s' off' done todo, readMessage s d off = .ok (s', off') ∧ m :: ms = done ++ todo ∧
      Inv s' (d.drop off' ++ rest) todo ∧
      off' ≤ d.length ∧ (off < d.length → passes d s' off' < passes d s off) ∧
      messagesOf s'.calls = messagesOf s.calls ++ done.map Packet.seen ∧
      s'.receiving = s.receiving ∧ s'.onmissing = s.onmissing ∧ s'.err = s.err ∧
      (s.length = 0 → s'.state = 0) ∧ off ≤ off' := by
  have hmax := hval.2.2
  have hdl : ((d.drop off).length : Int) = (d.length : Int) - (off : Int) := by
    rw [List.length_drop]; omega
  rcases split_cases _ _ _ _ hrest with ⟨a, ha, hU, hr⟩ | ⟨c, hc, hT⟩
  · -- the chunk ends inside the payload
    have hapos : 0 < a.length := List.length_pos.mpr ha
    have hUl := congrArg List.length hU
    rw [List.length_drop, List.length_append] at hUl
    have hlt : off < d.length := by
      rcases hnz with h | h
      · exact h
      · omega
    have hcl : (d.drop off).length = d.length - off := List.length_drop _ _
    have hfree : (d.length : Int) - (off : Int) < s.length := by omega
    obtain ⟨t1, t2⟩ := take_add_of_split m.d (d.drop off) a g hU
    have hnewlen : wrapInt (s.length - ((d.length : Int) - (off : Int)))
        = (m.d.length : Int) - ((g + (d.drop off).length : Nat) : Int) := by
      unfold wrapInt
      push_cast
      omega
    rcases hb with ⟨hg0, hmn⟩ | ⟨hgpos, hglt, buf, hmb, hbl, hbt⟩
    · subst hg0
      have htn : s.length.toNat = m.d.length := by omega
      have hfit : 0 + (d.drop off).length ≤ (List.replicate m.d.length 0).length := by
        rw [List.length_replicate]; omega
      refine ⟨_, _, [], m :: ms, readMessage_alloc s d off hmn hfree hoff, rfl, ?_, le_refl _,
        ?_, by simp, rfl, rfl, rfl, ?_, hoff⟩
      · refine Inv.body _ _ m ms (0 + (d.drop off).length) hl h2 hf hh hnewlen (by omega)
          (Or.inr ⟨by omega, by omega, _, rfl, ?_, ?_⟩) ?_
        · rw [htn, copyAt_fit_length _ _ _ hfit, List.length_replicate]
        · rw [htn, copyAt_fit_take _ _ _ hfit, t1]; simp
        · rw [List.drop_length, List.nil_append, hr, t2]
      · intro _
        unfold passes
        simp only [h2, if_true]
        omega
      · intro h0; omega
    · have hfit : g + (d.drop off).length ≤ buf.length := by omega
      have hpos : ((buf.length : Int) - s.length).toNat = g := by omega
      refine ⟨_, _, [], m :: ms,
        readMessage_more s d off buf hmb (by omega) (by omega) hfree, rfl, ?_, le_refl _,
        ?_, by simp, rfl, rfl, rfl, ?_, hoff⟩
      · refine Inv.body _ _ m ms (g + (d.drop off).length) hl h2 hf hh hnewlen (by omega)
          (Or.inr ⟨by omega, by omega, _, rfl, ?_, ?_⟩) ?_
        · rw [hpos, copyAt_fit_length _ _ _ hfit, hbl]
        · rw [hpos, copyAt_fit_take _ _ _ hfit, t1, hbt]
        · rw [List.drop_length, List.nil_append, hr, t2]
      · intro _
        unfold passes
        simp only [h2, if_true]
        omega
      · intro h0; omega
  · -- the chunk holds the rest of the payload
    have hcl := congrArg List.length hc
    rw [List.length_drop, List.length_append, List.length_drop] at hcl
    have hfree : (d.length : Int) - (off : Int) ≥ s.length := by omega
    have htn : s.length.toNat = m.d.length - g := by omega
    have hdrop := drop_add_of_split d _ c off hc
    rw [List.length_drop] at hdrop
    have hfin := finishWith_live s m d off hl h2 hh hval.2.1
    have hmsg : readMessage s d off = .ok (finishWith s m.d d off) := by
      rcases hb with ⟨hg0, hmn⟩ | ⟨hgpos, hglt, buf, hmb, hbl, hbt⟩
      · subst hg0
        rw [readMessage_borrow s d off hmn (by omega) hfree, htn, hc]
        simp
      · rw [readMessage_finish s d off buf hmb (by omega) (by omega) hfree]
        have hpos : ((buf.length : Int) - s.length).toNat = g := by omega
        rw [hpos, copyAt_tail buf (d.drop off) g (by omega) (by rw [List.length_drop]; omega),
          hbt, hc, hbl]
        have e : List.take (m.d.length - g) (List.drop g m.d ++ c) = List.drop g m.d := by
          apply List.take_left'
          rw [List.length_drop]
        rw [e, List.take_append_drop]
    rw [hmsg, hfin, htn]
    refine ⟨_, _, [m], ms, rfl, rfl, ?_, by omega, ?_, ?_, rfl, rfl, rfl, fun _ => rfl,
      by omega⟩
    · rw [hdrop, ← hT]
      exact Inv_start _ ms hl rfl rfl hf
    · intro _
      unfold passes
      have e0 : ¬ ((0 : Nat) = 2) := by decide
      simp only [h2, if_true, if_neg e0]
      omega
    · simp [messagesOf_append, messagesOf, Packet.seen]

/-! ## The `Recv` loop, `Recv` and `feed` on a stream of frames -/

theorem recvLoop_stream (d : List Nat) : ∀ (fuel : Nat) (s : SMC) (off : Nat)
    (ms : List Packet) (rest : List Nat),
    (∀ m ∈ ms, m.valid) → Inv s (d.drop off ++ rest) ms → off ≤ d.length →
    passes d s off < fuel →
    ∃ s' done todo, recvLoop d fuel s off = .ok s' ∧ ms = done ++ todo ∧ Inv s' rest todo ∧
      messagesOf s'.calls = messagesOf s.calls ++ done.map Packet.seen ∧
      s'.receiving = s.receiving ∧ s'.onmissing = s.onmissing ∧ s'.err = s.err := by
  intro fuel
  induction fuel with
  | zero => intro s off ms rest _ _ _ hp; omega
  | succ fuel ih =>
    intro s off ms rest hval hinv hoff hp
    by_cases hlt : off < d.length
    · rw [recvLoop]
      simp only [hlt, if_true]
      rcases hinv with ⟨hl, h0, hm, hf, hr⟩ | ⟨m, ms', j, hl, h0, hm, hv, hr⟩ |
        ⟨m, ms', j, hl, h1, hm, hlen, hv, hr⟩ |
        ⟨m, ms', g, hl, h2, hf, hh, hlen, hg, hb, hr⟩
      · have := congrArg List.length hr
        rw [List.length_append, List.length_drop] at this
        simp at this
        omega
      · obtain ⟨s1, off1, e1, e2, e3, e4, e5, e6, e7, e8⟩ :=
          step_len d s off rest m ms' j (hval m (by simp)) hlt hl h0 hm hv hr
        have hne : ¬ s.state = 2 := by rw [h0]; decide
        simp only [hne, if_false, e1]
        obtain ⟨s', done, todo, r1, r2, r3, r4, r5, r6, r7⟩ :=
          ih s1 off1 (m :: ms') rest hval e2 e3 (by omega)
        exact ⟨s', done, todo, r1, r2, r3, by rw [r4, e5], by rw [r5, e6], by rw [r6, e7],
          by rw [r7, e8]⟩
      · obtain ⟨s1, off1, e1, e2, e3, e4, e5, e6, e7, e8⟩ :=
          step_head d s off rest m ms' j (hval m (by simp)) hlt hl h1 hm hlen hv hr
        have hne : ¬ s.state = 2 := by rw [h1]; decide
        simp only [hne, if_false, e1]
        obtain ⟨s', done, todo, r1, r2, r3, r4, r5, r6, r7⟩ :=
          ih s1 off1 (m :: ms') rest hval e2 e3 (by omega)
        exact ⟨s', done, todo, r1, r2, r3, by rw [r4, e5], by rw [r5, e6], by rw [r6, e7],
          by rw [r7, e8]⟩
      · obtain ⟨s1, off1, done1, todo1, e1, e2, e3, e4, e5, e6, e7, e8, e9, _, _⟩ :=
          step_body d s off rest m ms' g (hval m (by simp)) hoff (Or.inl hlt) hl h2 hf hh hlen
            hg hb hr
        simp only [h2, if_true, e1, bind, Except.bind]
        have hval1 : ∀ x ∈ todo1, x.valid := by
          intro x hx
          apply hval
          rw [e2]
          simp [hx]
        have e5' := e5 hlt
        obtain ⟨s', done, todo, r1, r2, r3, r4, r5, r6, r7⟩ :=
          ih s1 off1 todo1 rest hval1 e3 e4 (by omega)
        refine ⟨s', done1 ++ done, todo, r1, ?_, r3, ?_, by rw [r5, e7], by rw [r6, e8],
          by rw [r7, e9]⟩
        · rw [e2, r2, List.append_assoc]
        · rw [r4, e6, List.map_append, List.append_assoc]
    · have hnil : d.drop off = [] := List.drop_eq_nil_of_le (by omega)
      rw [hnil, List.nil_append] at hinv
      rw [recvLoop]
      simp only [hlt, if_false]
      exact ⟨s, [], ms, rfl, rfl, hinv, by simp, rfl, rfl, rfl⟩

theorem Inv_receiving (s : SMC) (rest : List Nat) (ms : List Packet) (b : Bool)
    (h : Inv s rest ms) : Inv { s with receiving := b } rest ms := by
  rcases h with ⟨hl, h0, hm, hf, hr⟩ | ⟨m, ms', j, hl, h0, hm, hv, hr⟩ |
    ⟨m, ms', j, hl, h1, hm, hlen, hv, hr⟩ |
    ⟨m, ms', g, hl, h2, hf, hh, hlen, hg, hb, hr⟩
  · exact Inv.idle _ _ hl h0 hm hf hr
  · exact Inv.len _ _ m ms' j hl h0 hm hv hr
  · exact Inv.head _ _ m ms' j hl h1 hm hlen hv hr
  · exact Inv.body _ _ m ms' g hl h2 hf hh hlen hg hb hr

theorem Inv_live (s : SMC) (rest : List Nat) (ms : List Packet) (h : Inv s rest ms) :
    Live s := by
  rcases h with ⟨hl, h0, hm, hf, hr⟩ | ⟨m, ms', j, hl, h0, hm, hv, hr⟩ |
    ⟨m, ms', j, hl, h1, hm, hlen, hv, hr⟩ |
    ⟨m, ms', g, hl, h2, hf, hh, hlen, hg, hb, hr⟩ <;> exact hl

/-- At the end of the stream nothing is pending. -/
theorem Inv_nil (s : SMC) (ms : List Packet) (h : Inv s [] ms)
    (hp : ¬ (s.state = 2 ∧ s.length = 0)) : ms = [] := by
  rcases h with ⟨hl, h0, hm, hf, hr⟩ | ⟨m, ms', j, hl, h0, hm, hv, hr⟩ |
    ⟨m, ms', j, hl, h1, hm, hlen, hv, hr⟩ |
    ⟨m, ms', g, hl, h2, hf, hh, hlen, hg, hb, hr⟩
  · rfl
  · exfalso
    have e := congrArg List.length hr
    have := hv.1
    simp only [List.length_nil, List.length_append, List.length_drop] at e
    omega
  · exfalso
    have e := congrArg List.length hr
    have := hv.1
    simp only [List.length_nil, List.length_append, List.length_drop] at e
    omega
  · exfalso
    have e := congrArg List.length hr
    simp only [List.length_nil, List.length_append, List.length_drop] at e
    apply hp
    exact ⟨h2, by omega⟩

theorem Recv_stream (s : SMC) (d : List Nat) (ms : List Packet) (rest : List Nat)
    (hval : ∀ m ∈ ms, m.valid) (hinv : Inv s (d ++ rest) ms) (hrec : s.receiving = false)
    (hp : ¬ (s.state = 2 ∧ s.length = 0)) :
    ∃ s' done todo, Recv s d = .ok (s', true) ∧ ms = done ++ todo ∧ Inv s' rest todo ∧
      ¬ (s'.state = 2 ∧ s'.length = 0) ∧
      messagesOf s'.calls = messagesOf s.calls ++ done.map Packet.seen ∧
      s'.receiving = false ∧ s'.onmissing = s.onmissing ∧ s'.err = s.err := by
  unfold Recv
  by_cases hd : d.length = 0
  · have hnil : d = [] := List.length_eq_zero.mp hd
    subst hnil
    have hl := Inv_live _ _ _ hinv
    simp only [List.length_nil, if_true, hl.1, Bool.not_false]
    exact ⟨s, [], ms, rfl, rfl, by simpa using hinv, hp, by simp, hrec, rfl, rfl⟩
  · simp only [hd, if_false, hrec, Bool.false_eq_true]
    have hinv1 : Inv { s with receiving := true } (d.drop 0 ++ rest) ms := by
      rw [List.drop_zero]; exact Inv_receiving s _ ms true hinv
    obtain ⟨s1, done, todo, r1, r2, r3, r4, r5, r6, r7⟩ :=
      recvLoop_stream d (2 * d.length + 2) { s with receiving := true } 0 ms rest hval hinv1
        (Nat.zero_le _) (by unfold passes; split_ifs <;> omega)
    simp only [r1, bind, Except.bind, recvEnd]
    have hval2 : ∀ x ∈ todo, x.valid := by
      intro x hx
      apply hval
      rw [r2]
      simp [hx]
    by_cases hpend : s1.state = 2 ∧ s1.length = 0
    · simp only [hpend, and_self, if_true]
      rcases r3 with ⟨hl, h0, hm, hf, hr⟩ | ⟨m, ms', j, hl, h0, hm, hv, hr⟩ |
        ⟨m, ms', j, hl, h1, hm, hlen, hv, hr⟩ |
        ⟨m, ms', g, hl, h2, hf, hh, hlen, hg, hb, hr⟩
      · rw [h0] at hpend; exact absurd hpend.1 (by decide)
      · rw [h0] at hpend; exact absurd hpend.1 (by decide)
      · rw [h1] at hpend; exact absurd hpend.1 (by decide)
      · have hr' : d.drop d.length ++ rest = m.d.drop g ++ stream ms' := by
          rw [List.drop_length, List.nil_append]; exact hr
        obtain ⟨s2, off2, done2, todo2, e1, e2, e3, e4, e5, e6, e7, e8, e9, e10, e11⟩ :=
          step_body d s1 d.length rest m ms' g (hval2 m (by simp)) (le_refl _)
            (Or.inr hpend.2) hl h2 hf hh hlen hg hb hr'
        have hfin : Inv s2 rest todo2 := by
          have h3 : off2 = d.length := by omega
          rw [h3, List.drop_length, List.nil_append] at e3
          exact e3
        simp only [e1, Except.map]
        have hl2 := Inv_live _ _ _ hfin
        refine ⟨_, done ++ done2, todo2, ?_, ?_, Inv_receiving s2 _ _ false hfin, ?_, ?_, rfl,
          by simp only [e8, r6], by simp only [e9, r7]⟩
        · simp only [hl2.1, Bool.not_false]
        · rw [r2, e2, List.append_assoc]
        · simp only [e10 hpend.2]
          intro h; exact absurd h.1 (by decide)
        · simp only [e6, r4, List.map_append, List.append_assoc]
    · simp only [hpend, if_false]
      have hl1 := Inv_live _ _ _ r3
      refine ⟨_, done, todo, ?_, r2, Inv_receiving s1 _ _ false r3, hpend, r4, rfl, r6, r7⟩
      simp only [hl1.1, Bool.not_false]

theorem feed_stream : ∀ (chunks : List (List Nat)) (s : SMC) (ms : List Packet)
    (rest : List Nat), (∀ m ∈ ms, m.valid) → Inv s (chunks.flatten ++ rest) ms →
    s.receiving = false → ¬ (s.state = 2 ∧ s.length = 0) →
    ∃ s' done todo, feed s chunks = .ok (s', List.replicate chunks.length true) ∧
      ms = done ++ todo ∧ Inv s' rest todo ∧ ¬ (s'.state = 2 ∧ s'.length = 0) ∧
      messagesOf s'.calls = messagesOf s.calls ++ done.map Packet.seen ∧
      s'.receiving = false ∧ s'.onmissing = s.onmissing ∧ s'.err = s.err := by
  intro chunks
  induction chunks with
  | nil =>
    intro s ms rest _ hinv hrec hp
    exact ⟨s, [], ms, rfl, rfl, by simpa using hinv, hp, by simp, hrec, rfl, rfl⟩
  | cons c cs ih =>
    intro s ms rest hval hinv hrec hp
    rw [List.flatten_cons, List.append_assoc] at hinv
    obtain ⟨s1, done1, todo1, e1, e2, e3, e4, e5, e6, e7, e8⟩ :=
      Recv_stream s c ms (cs.flatten ++ rest) hval hinv hrec hp
    have hval1 : ∀ x ∈ todo1, x.valid := by
      intro x hx
      apply hval
      rw [e2]
      simp [hx]
    obtain ⟨s2, done2, todo2, r1, r2, r3, r4, r5, r6, r7, r8⟩ :=
      ih s1 todo1 rest hval1 e3 e6 e4
    refine ⟨s2, done1 ++ done2, todo2, ?_, ?_, r3, r4, ?_, r6, by rw [r7, e7],
      by rw [r8, e8]⟩
    · simp only [feed, e1, r1, bind, Except.bind, List.length_cons, List.replicate_succ]
    · rw [e2, r2, List.append_assoc]
    · rw [r5, e5, List.map_append, List.append_assoc]

theorem Send_valid (m : Packet) (h : m.valid) :
    Send m.ch m.k m.d = .ok (frameBytes m.hdr m.d) := by
  obtain ⟨h1, h2, h3⟩ := h
  have hs := Send_eq_frameBytes m.ch m.k m.d (by omega)
    (lt_of_le_of_lt h3 (by norm_num))
  have e1 : (m.ch <<< 4) % 2 ^ 64 = m.ch <<< 4 := by
    apply Nat.mod_eq_of_lt
    rw [Nat.shiftLeft_eq]
    norm_num at h1 ⊢
    omega
  rw [e1, shl4_or m.ch m.k (by omega)] at hs
  exact hs

theorem sendAll_valid (ms : List Packet) (h : ∀ m ∈ ms, m.valid) :
    sendAll ms = .ok (stream ms) := by
  induction ms with
  | nil => rfl
  | cons m ms ih =>
    have h1 := Send_valid m (h m (by simp))
    have h2 := ih (fun x hx => h x (by simp [hx]))
    simp only [sendAll, h1, h2, bind, Except.bind, stream]

theorem NewSMC_inv (wm : Bool) (ms : List Packet) : Inv (NewSMC wm true) (stream ms) ms := by
  apply Inv_start
  · exact ⟨rfl, rfl⟩
  · rfl
  · rfl
  · exact ⟨uvarint_length_pos 0, rfl, rfl, rfl⟩

/-- Feeding the frames of valid packets, cut into chunks anywhere, delivers the
packets in order and keeps the decoder live. -/
theorem feed_frames (ms : List Packet) (chunks : List (List Nat)) (wm : Bool)
    (hval : ∀ m ∈ ms, m.valid) (hcat : chunks.flatten = stream ms) :
    ∃ s', feed (NewSMC wm true) chunks = .ok (s', List.replicate chunks.length true) ∧
      messagesOf s'.calls = ms.map Packet.seen ∧ s'.destroyed = false ∧ s'.err = none := by
  have hinv : Inv (NewSMC wm true) (chunks.flatten ++ []) ms := by
    rw [List.append_nil, hcat]; exact NewSMC_inv wm ms
  obtain ⟨s', done, todo, e1, e2, e3, e4, e5, e6, e7, e8⟩ :=
    feed_stream chunks (NewSMC wm true) ms [] hval hinv rfl (by simp [NewSMC])
  have ht := Inv_nil s' todo e3 e4
  subst ht
  rw [List.append_nil] at e2
  subst e2
  refine ⟨s', e1, ?_, (Inv_live _ _ _ e3).1, by rw [e8]; rfl⟩
  rw [e5]
  simp [NewSMC, messagesOf]

theorem leval_lt (bs : List Nat) : leval bs < 128 ^ bs.length := by
  induction bs with
  | nil => simp [leval]
  | cons b bs ih =>
    simp only [leval, List.length_cons, Nat.pow_succ]
    have := Nat.mod_lt b (show 0 < 128 by norm_num)
    omega

theorem encodingLength_cases (v : Nat) :
    (v < 128 ∧ encodingLength v = 1) ∨
    (128 ≤ v ∧ v < 16384 ∧ encodingLength v = 2) ∨
    (16384 ≤ v ∧ v < 2097152 ∧ encodingLength v = 3) ∨
    (2097152 ≤ v ∧ v < 268435456 ∧ encodingLength v = 4) ∨
    (268435456 ≤ v ∧ v < 34359738368 ∧ encodingLength v = 5) ∨
    (34359738368 ≤ v ∧ v < 4398046511104 ∧ encodingLength v = 6) ∨
    (4398046511104 ≤ v ∧ v < 562949953421312 ∧ encodingLength v = 7) ∨
    (562949953421312 ≤ v ∧ v < 72057594037927936 ∧ encodingLength v = 8) ∨
    (72057594037927936 ≤ v ∧ v < 9223372036854775808 ∧ encodingLength v = 9) ∨
    (9223372036854775808 ≤ v ∧ encodingLength v = 10) := by
  unfold encodingLength n1 n2 n3 n4 n5 n6 n7 n8 n9
  norm_num
  split_ifs <;> omega

/-! ## The destroyed flag is never reset -/

theorem next_destroyed (s : SMC) (data : List Nat) (off : Nat) (h : s.destroyed = true) :
    (next s data off).1.destroyed = true := by
  unfold next
  split
  · simp only []; split_ifs <;> exact h
  · simp only [destroy]; split_ifs <;> first | exact h | rfl
  · simp only []; split_ifs <;> exact h
  · exact h

theorem readVarintLoop_destroyed (data : List Nat) : ∀ (bs : List Nat) (s : SMC) (off : Nat),
    s.destroyed = true → (readVarintLoop data bs s off).1.destroyed = true := by
  intro bs
  induction bs with
  | nil =>
    intro s off h
    rw [readVarintLoop_nil]
    simp only [destroy]
    split_ifs <;> first | exact h | rfl
  | cons b bs ih =>
    intro s off h
    rw [readVarintLoop]
    simp only []
    split_ifs
    · exact next_destroyed _ _ _ h
    · exact next_destroyed _ _ _ h
    · exact ih _ _ h

theorem readMessage_destroyed (s : SMC) (d : List Nat) (off : Nat) (r : SMC × Nat)
    (hr : readMessage s d off = .ok r) (h : s.destroyed = true) : r.1.destroyed = true := by
  unfold readMessage copyTail at hr
  simp only [bind, Except.bind, Except.map] at hr
  by_cases hf : (d.length : Int) - (off : Int) ≥ s.length
  · simp only [hf, if_true] at hr
    cases hm : s.message with
    | none =>
      simp only [hm] at hr
      by_cases hn : s.length < 0
      · simp only [hn, if_true] at hr
        exact absurd hr (by simp)
      · simp only [hn, if_false] at hr
        split_ifs at hr <;> injection hr with hr <;> rw [← hr] <;>
          exact next_destroyed _ _ _ h
    | some msg =>
      simp only [hm] at hr
      by_cases hp : ((msg.length : Int) - s.length < 0 ∨
          (msg.length : Int) - s.length > (msg.length : Int))
      · simp only [hp, if_true] at hr
        exact absurd hr (by simp)
      · simp only [hp, if_false] at hr
        split_ifs at hr <;> injection hr with hr <;> rw [← hr] <;>
          exact next_destroyed _ _ _ h
  · simp only [hf, if_false] at hr
    cases hm : s.message with
    | none =>
      simp only [hm] at hr
      by_cases hn : s.length < 0
      · simp only [hn, if_true] at hr
        exact absurd hr (by simp)
      · simp only [hn, if_false] at hr
        split_ifs at hr
        injection hr with hr
        rw [← hr]
        exact h
    | some msg =>
      simp only [hm] at hr
      split_ifs at hr
      injection hr with hr
      rw [← hr]
      exact h

theorem recvLoop_destroyed (d : List Nat) : ∀ (fuel : Nat) (s : SMC) (off : Nat) (s' : SMC),
    recvLoop d fuel s off = .ok s' → s.destroyed = true → s'.destroyed = true := by
  intro fuel
  induction fuel with
  | zero => intro s off s' hr; simp [recvLoop] at hr
  | succ fuel ih =>
    intro s off s' hr h
    rw [recvLoop] at hr
    split_ifs at hr with h1 h2
    · simp only [bind, Except.bind] at hr
      split at hr
      · exact absurd hr (by simp)
      · rename_i r hrm
        exact ih _ _ _ hr (readMessage_destroyed s d off r hrm h)
    · exact ih _ _ _ hr (readVarintLoop_destroyed d _ s off h)
    · injection hr with hr; rw [← hr]; exact h

theorem recvEnd_result (s : SMC) (d : List Nat) (s' : SMC) (b : Bool)
    (hr : recvEnd s d = .ok (s', b)) :
    b = !s'.destroyed ∧ (s.destroyed = true → s'.destroyed = true) := by
  unfold recvEnd at hr
  simp only [bind, Except.bind, Except.map] at hr
  split at hr
  · exact absurd hr (by simp)
  · rename_i s1 hs1
    injection hr with hr
    injection hr with hr1 hr2
    subst hr1
    refine ⟨hr2.symm, fun h => ?_⟩
    split_ifs at hs1
    · split at hs1
      · exact absurd hs1 (by simp)
      · rename_i r hrm
        injection hs1 with hs1
        rw [← hs1]
        exact readMessage_destroyed s d _ r hrm h
    · injection hs1 with hs1
      rw [← hs1]
      exact h

/-- `Recv` returns the negation of the destroyed flag it leaves, and never
clears the flag. -/
theorem Recv_result (s : SMC) (d : List Nat) (s' : SMC) (b : Bool)
    (hr : Recv s d = .ok (s', b)) :
    b = !s'.destroyed ∧ (s.destroyed = true → s'.destroyed = true) := by
  unfold Recv at hr
  simp only [bind, Except.bind] at hr
  split_ifs at hr
  · injection hr with hr
    injection hr with hr1 hr2
    subst hr1
    exact ⟨hr2.symm, fun h => h⟩
  · split at hr
    · exact absurd hr (by simp)
    · rename_i s1 hs1
      obtain ⟨e1, e2⟩ := recvEnd_result s1 d s' b hr
      exact ⟨e1, fun h => e2 (recvLoop_destroyed d _ _ 0 s1 hs1 h)⟩

theorem Op.run_destroyed (op : Op) (s s' : SMC) (rs : List Bool)
    (hr : op.run s = .ok (s', rs)) (h : s.destroyed = true) :
    s'.destroyed = true ∧ ∀ b ∈ rs, b = false := by
  cases op with
  | recv d =>
    simp only [Op.run, Except.map] at hr
    split at hr
    · exact absurd hr (by simp)
    · rename_i r hrr
      injection hr with hr
      injection hr with hr1 hr2
      obtain ⟨e1, e2⟩ := Recv_result s d r.1 r.2 hrr
      subst hr1 hr2
      refine ⟨e2 h, ?_⟩
      intro b hb
      rw [List.mem_singleton] at hb
      rw [hb, e1, e2 h]
      rfl
  | error =>
    simp only [Op.run, Error] at hr
    injection hr with hr
    injection hr with hr1 hr2
    subst hr1 hr2
    exact ⟨h, by simp⟩
  | send ch k d =>
    simp only [Op.run, Except.map] at hr
    split at hr
    · exact absurd hr (by simp)
    · injection hr with hr
      injection hr with hr1 hr2
      subst hr1 hr2
      exact ⟨h, by simp⟩
  | sendBatch items =>
    simp only [Op.run, Except.map] at hr
    split at hr
    · exact absurd hr (by simp)
    · injection hr with hr
      injection hr with hr1 hr2
      subst hr1 hr2
      exact ⟨h, by simp⟩

theorem runOps_destroyed : ∀ (ops : List Op) (s s' : SMC) (rs : List Bool),
    runOps s ops = .ok (s', rs) → s.destroyed = true →
    s'.destroyed = true ∧ ∀ b ∈ rs, b = false := by
  intro ops
  induction ops with
  | nil =>
    intro s s' rs hr h
    simp only [runOps] at hr
    injection hr with hr
    injection hr with hr1 hr2
    subst hr1 hr2
    exact ⟨h, by simp⟩
  | cons op ops ih =>
    intro s s' rs hr h
    simp only [runOps, bind, Except.bind] at hr
    split at hr
    · exact absurd hr (by simp)
    · rename_i r1 hr1
      split at hr
      · exact absurd hr (by simp)
      · rename_i r2 hr2
        injection hr with hr
        injection hr with e1 e2
        obtain ⟨a1, a2⟩ := Op.run_destroyed op s r1.1 r1.2 hr1 h
        obtain ⟨b1, b2⟩ := ih r1.1 r2.1 r2.2 hr2 a1
        subst e1 e2
        refine ⟨b1, ?_⟩
        intro b hb
        rw [List.mem_append] at hb
        rcases hb with hb | hb
        · exact a2 b hb
        · exact b2 b hb

/-! ## Completion of a header varint -/

/-- The header completes with a remaining length outside the limit. -/
theorem next_state1_limit (s : SMC) (data : List Nat) (off : Nat) (h1 : s.state = 1)
    (hbad : wrapInt (s.length - s.consumed) < 0 ∨
      wrapInt (s.length - s.consumed) > defaultMaxSize) :
    next s data off
      = ({ s with state := 2, factor := 1, header := s.varint,
                  length := wrapInt (s.length - s.consumed), consumed := 0, varint := 0,
                  err := some Err.ErrSizeLimit, destroyed := true }, false) := by
  unfold next
  rw [h1]
  simp only [hbad, if_true, destroy, Option.isSome_some]

theorem wrapInt_limit (L n : Int) (hL1 : -2 ^ 63 ≤ L) (hL2 : L < 2 ^ 63) (hn0 : 0 ≤ n)
    (hn : n < 2 ^ 62) :
    (wrapInt (L - n) < 0 ∨ wrapInt (L - n) > defaultMaxSize) ↔ (L - n < 0 ∨ L - n > 8388608) := by
  unfold wrapInt defaultMaxSize
  omega

theorem wrapInt_inside (L n : Int) (h : ¬ (L - n < 0 ∨ L - n > 8388608)) :
    wrapInt (L - n) = L - n := by
  unfold wrapInt
  omega

/-- Reading a header varint that ends inside the chunk: the decoder reaches
`next` in state 1 with `consumed` counting all the bytes of the varint. -/
theorem readVarint_header (s : SMC) (d : List Nat) (off : Nat) (pre : List Nat) (t : Nat)
    (rest : List Nat) (hd : d.drop off = pre ++ t :: rest) (hpre : ∀ b ∈ pre, 128 ≤ b)
    (ht : t < 128) :
    readVarint s d off
      = (if (next (termStep (pre.foldl contStep s) t) d (off + pre.length + 1)).2
         then ((next (termStep (pre.foldl contStep s) t) d (off + pre.length + 1)).1,
               off + pre.length + 1)
         else ((next (termStep (pre.foldl contStep s) t) d (off + pre.length + 1)).1,
               d.length)) ∧
    (termStep (pre.foldl contStep s) t).state = s.state ∧
    (termStep (pre.foldl contStep s) t).length = s.length ∧
    (termStep (pre.foldl contStep s) t).consumed = s.consumed + pre.length + 1 ∧
    (termStep (pre.foldl contStep s) t).destroyed = s.destroyed ∧
    (termStep (pre.foldl contStep s) t).calls = s.calls ∧
    (termStep (pre.foldl contStep s) t).err = s.err ∧
    (termStep (pre.foldl contStep s) t).receiving = s.receiving := by
  obtain ⟨f1, f2, f3, f4, f5, f6, f7, f8, f9, f10, f11⟩ := foldl_contStep_frame pre s
  refine ⟨?_, f1, f6, ?_, f4, f10, f7, f5⟩
  · unfold readVarint
    rw [hd, readVarintLoop_cont d pre _ s off hpre, readVarintLoop_term _ _ _ _ _ ht]
  · simp only [termStep]
    rw [f11]

/-! ## The loop of `Recv` never runs out of fuel -/

/-- The two ways `readMessage` returns: through `next` with the whole payload, or
at the end of the chunk with the payload still incomplete. -/
theorem readMessage_cases (s : SMC) (d : List Nat) (off : Nat) (r : SMC × Nat)
    (hr : readMessage s d off = .ok r) :
    ((d.length : Int) - (off : Int) ≥ s.length ∧ 0 ≤ s.length ∧
      ∃ msg, r = finishWith s msg d off) ∨
    ((d.length : Int) - (off : Int) < s.length ∧
      ∃ msg, r = ({ s with message := some msg,
                           length := wrapInt (s.length - ((d.length : Int) - (off : Int))) },
                  d.length)) := by
  have hr0 := hr
  unfold readMessage copyTail at hr
  simp only [bind, Except.bind, Except.map] at hr
  by_cases hf : (d.length : Int) - (off : Int) ≥ s.length
  · left
    simp only [hf, if_true] at hr
    cases hm : s.message with
    | none =>
      simp only [hm] at hr
      by_cases hn : s.length < 0
      · simp only [hn, if_true] at hr
        exact absurd hr (by simp)
      · rw [readMessage_borrow s d off hm (by omega) hf] at hr0
        injection hr0 with hr0
        exact ⟨hf, by omega, _, hr0.symm⟩
    | some msg =>
      simp only [hm] at hr
      by_cases hp : ((msg.length : Int) - s.length < 0 ∨
          (msg.length : Int) - s.length > (msg.length : Int))
      · simp only [hp, if_true] at hr
        exact absurd hr (by simp)
      · rw [readMessage_finish s d off msg hm (by omega) (by omega) hf] at hr0
        injection hr0 with hr0
        exact ⟨hf, by omega, _, hr0.symm⟩
  · right
    simp only [hf, if_false] at hr
    refine ⟨by omega, ?_⟩
    cases hm : s.message with
    | none =>
      simp only [hm] at hr
      by_cases hn : s.length < 0
      · simp only [hn, if_true] at hr
        exact absurd hr (by simp)
      · simp only [hn, if_false] at hr
        split_ifs at hr
        injection hr with hr
        exact ⟨_, hr.symm⟩
    | some msg =>
      simp only [hm] at hr
      split_ifs at hr
      injection hr with hr
      exact ⟨_, hr.symm⟩

theorem readMessage_no_fuel (s : SMC) (d : List Nat) (off : Nat) :
    readMessage s d off ≠ .error Fault.fuel := by
  intro hr
  unfold readMessage copyTail at hr
  simp only [bind, Except.bind, Except.map] at hr
  by_cases hf : (d.length : Int) - (off : Int) ≥ s.length
  · simp only [hf, if_true] at hr
    cases hm : s.message with
    | none =>
      simp only [hm] at hr
      by_cases hn : s.length < 0
      · simp only [hn, if_true] at hr
        exact absurd hr (by simp)
      · simp only [hn, if_false] at hr
        split_ifs at hr
    | some msg =>
      simp only [hm] at hr
      by_cases hp : ((msg.length : Int) - s.length < 0 ∨
          (msg.length : Int) - s.length > (msg.length : Int))
      · simp only [hp, if_true] at hr
        exact absurd hr (by simp)
      · simp only [hp, if_false] at hr
        split_ifs at hr
  · simp only [hf, if_false] at hr
    cases hm : s.message with
    | none =>
      simp only [hm] at hr
      by_cases hn : s.length < 0
      · simp only [hn, if_true] at hr
        exact absurd hr (by simp)
      · simp only [hn, if_false] at hr
        split_ifs at hr
        exact absurd hr (by simp)
    | some msg =>
      simp only [hm] at hr
      split_ifs at hr
      exact absurd hr (by simp)

theorem finishWith_state2 (s : SMC) (msg d : List Nat) (off : Nat) (h2 : s.state = 2) :
    (finishWith s msg d off).1.state = 0 ∧
    ((finishWith s msg d off).2 = off + s.length.toNat ∨
      (finishWith s msg d off).2 = d.length) := by
  unfold finishWith next
  simp only [h2]
  split_ifs <;> simp

theorem next_state_le (s : SMC) (data : List Nat) (off : Nat) :
    (next s data off).2 = true → (next s data off).1.state ≤ 2 := by
  unfold next
  split
  · simp only []; split_ifs <;> simp
  · simp only []; split_ifs <;> simp [destroy]
  · simp only []; split_ifs <;> simp
  · simp

theorem readVarintLoop_offset (d : List Nat) : ∀ (bs : List Nat) (s : SMC) (off : Nat),
    off + bs.length = d.length → bs ≠ [] →
    off < (readVarintLoop d bs s off).2 ∧ (readVarintLoop d bs s off).2 ≤ d.length := by
  intro bs
  induction bs with
  | nil => intro s off _ h; exact absurd rfl h
  | cons b bs ih =>
    intro s off hlen _
    rw [List.length_cons] at hlen
    rw [readVarintLoop]
    simp only []
    split_ifs with h1 h2
    · simp only []; omega
    · simp only []; omega
    · cases bs with
      | nil =>
        rw [readVarintLoop_nil]
        simp only [List.length_nil] at hlen
        simp only []
        omega
      | cons c cs =>
        have := ih { s with
            varint := (s.varint + ((b &&& 127) * s.factor) % 2 ^ 64) % 2 ^ 64,
            consumed := s.consumed + 1, factor := (s.factor * 128) % 2 ^ 64 } (off + 1)
          (by omega) (by simp)
        omega

theorem recvLoop_fuel (d : List Nat) : ∀ (fuel : Nat) (s : SMC) (off : Nat),
    off ≤ d.length → passes d s off < fuel → recvLoop d fuel s off ≠ .error Fault.fuel := by
  intro fuel
  induction fuel with
  | zero => intro s off _ hp; omega
  | succ fuel ih =>
    intro s off hoff hp
    rw [recvLoop]
    split_ifs with h1 h2
    · simp only [bind, Except.bind]
      split
      · rename_i e he
        intro hc
        injection hc with hc
        rw [hc] at he
        exact readMessage_no_fuel s d off he
      · rename_i r hr
        have hfree : ((d.length - off : Nat) : Int) = (d.length : Int) - (off : Int) := by omega
        rcases readMessage_cases s d off r hr with ⟨c1, c2, msg, c3⟩ | ⟨c1, msg, c3⟩
        · obtain ⟨f1, f2⟩ := finishWith_state2 s msg d off h2
          rw [← c3] at f1 f2
          apply ih
          · rcases f2 with f2 | f2 <;> omega
          · unfold passes at hp ⊢
            have e0 : ¬ ((0 : Nat) = 2) := by decide
            rw [if_pos h2] at hp
            rw [f1, if_neg e0]
            rcases f2 with f2 | f2 <;> omega
        · apply ih
          · rw [c3]
          · unfold passes at hp ⊢
            rw [if_pos h2] at hp
            rw [c3]
            simp only [h2, if_true]
            omega
    · have hlen : off + (d.drop off).length = d.length := by
        rw [List.length_drop]; omega
      have hne : d.drop off ≠ [] := by
        intro h
        rw [h] at hlen
        simp at hlen
        omega
      obtain ⟨o1, o2⟩ := readVarintLoop_offset d (d.drop off) s off hlen hne
      apply ih
      · exact o2
      · unfold passes at hp ⊢
        rw [if_neg h2] at hp
        unfold readVarint
        split_ifs <;> omega
    · simp

/-- `Recv` never ends for lack of fuel: the model of its loop is total. -/
theorem Recv_no_fuel (s : SMC) (d : List Nat) : Recv s d ≠ .error Fault.fuel := by
  unfold Recv
  simp only [bind, Except.bind]
  split_ifs
  · simp
  · simp
  · split
    · rename_i e he
      intro hc
      injection hc with hc
      rw [hc] at he
      exact recvLoop_fuel d _ _ 0 (Nat.zero_le _) (by unfold passes; split_ifs <;> omega) he
    · rename_i s1 _
      unfold recvEnd
      simp only [bind, Except.bind, Except.map]
      split_ifs
      · split
        · rename_i e he
          split at he
          · rename_i e2 he2
            injection he with he
            intro hc
            injection hc with hc
            rw [he, hc] at he2
            exact readMessage_no_fuel _ _ _ he2
          · exact absurd he (by simp)
        · simp
      · simp

/-! ## The claims -/

/-- C1: single-chunk round trip. For every channel `ch < 2^59`, kind `k ≤ 15` and
payload `d` of at most 8 MiB, `Send ch k d` returns some bytes, and `Recv` of these
bytes on a fresh decoder with a message handler returns `true` after exactly one
message-handler call, with channel `ch`, kind `k` and payload `d`. -/
theorem single_chunk_round_trip (ch k : Nat) (d : List Nat) (wm : Bool)
    (hch : ch < 2 ^ 59) (hk : k ≤ 15) (hd : d.length ≤ 8388608) :
    ∃ bytes s', Send ch k d = .ok bytes ∧ Recv (NewSMC wm true) bytes = .ok (s', true) ∧
      messagesOf s'.calls = [(ch, k, some d)] := by
  have hval : ∀ m ∈ [Packet.mk ch k d], m.valid := by
    intro m hm
    rw [List.mem_singleton] at hm
    subst hm
    exact ⟨hch, hk, hd⟩
  have hsend := Send_valid (Packet.mk ch k d) (hval _ (by simp))
  have hinv : Inv (NewSMC wm true) (frameBytes (Packet.mk ch k d).hdr d ++ [])
      [Packet.mk ch k d] := by
    have := NewSMC_inv wm [Packet.mk ch k d]
    simpa [stream] using this
  obtain ⟨s', done, todo, e1, e2, e3, e4, e5, _, _, _⟩ :=
    Recv_stream (NewSMC wm true) _ _ [] hval hinv rfl (by simp [NewSMC])
  have ht := Inv_nil s' todo e3 e4
  subst ht
  rw [List.append_nil] at e2
  subst e2
  refine ⟨_, s', hsend, e1, ?_⟩
  rw [e5]
  simp [NewSMC, messagesOf, Packet.seen]

theorem single_chunk_round_trip_witness :
    ∃ bytes s', Send 0 1 [104, 105] = .ok bytes ∧
      Recv (NewSMC false true) bytes = .ok (s', true) ∧
      messagesOf s'.calls = [(0, 1, some [104, 105])] :=
  single_chunk_round_trip 0 1 [104, 105] false (by decide) (by decide) (by decide)

/-- C2: chunked round trip. For every channel `ch < 2^59`, kind `k ≤ 15`, payload
`d` of at most 8 MiB and every list of chunks whose concatenation is the result of
`Send ch k d`, feeding the chunks in order to a fresh decoder with a message
handler makes every `Recv` return `true` and calls the message handler exactly
once, with channel `ch`, kind `k` and payload `d`. -/
theorem chunked_round_trip (ch k : Nat) (d : List Nat) (chunks : List (List Nat)) (wm : Bool)
    (hch : ch < 2 ^ 59) (hk : k ≤ 15) (hd : d.length ≤ 8388608)
    (hcat : Send ch k d = .ok chunks.flatten) :
    ∃ s', feed (NewSMC wm true) chunks = .ok (s', List.replicate chunks.length true) ∧
      messagesOf s'.calls = [(ch, k, some d)] := by
  have hval : ∀ m ∈ [Packet.mk ch k d], m.valid := by
    intro m hm
    rw [List.mem_singleton] at hm
    subst hm
    exact ⟨hch, hk, hd⟩
  have hsend := Send_valid (Packet.mk ch k d) (hval _ (by simp))
  have hb : chunks.flatten = stream [Packet.mk ch k d] := by
    have h := hsend
    simp only [] at h
    rw [hcat] at h
    injection h with h
    rw [h]
    simp [stream]
  obtain ⟨s', e1, e2, _, _⟩ := feed_frames [Packet.mk ch k d] chunks wm hval hb
  exact ⟨s', e1, by simpa [Packet.seen] using e2⟩

theorem chunked_round_trip_witness :
    ∃ s', feed (NewSMC false true) [[3], [1], [104], [105]]
        = .ok (s', List.replicate [[3], [1], [104], [105]].length true) ∧
      messagesOf s'.calls = [(0, 1, some [104, 105])] :=
  chunked_round_trip 0 1 [104, 105] [[3], [1], [104], [105]] false (by decide) (by decide)
    (by decide) (by rfl)

/-- C3: a stream of messages decodes in order. For every list of packets within
the bounds (`ch < 2^59`, `k ≤ 15`, payload of at most 8 MiB) and every list of
chunks whose concatenation is the concatenation of their `Send` results (chunk
boundaries anywhere), feeding the chunks in order to one fresh decoder makes every
`Recv` return `true` and calls the message handler once per packet, the i-th call
carrying the i-th packet. -/
theorem stream_round_trip (ms : List Packet) (chunks : List (List Nat)) (wm : Bool)
    (hval : ∀ m ∈ ms, m.ch < 2 ^ 59 ∧ m.k ≤ 15 ∧ m.d.length ≤ 8388608)
    (hcat : sendAll ms = .ok chunks.flatten) :
    ∃ s', feed (NewSMC wm true) chunks = .ok (s', List.replicate chunks.length true) ∧
      messagesOf s'.calls = ms.map (fun m => (m.ch, m.k, some m.d)) := by
  have hsend := sendAll_valid ms hval
  have hb : chunks.flatten = stream ms := by
    rw [hcat] at hsend
    injection hsend
  obtain ⟨s', e1, e2, _, _⟩ := feed_frames ms chunks wm hval hb
  exact ⟨s', e1, e2⟩

theorem stream_round_trip_witness :
    ∃ s', feed (NewSMC false true) [[3, 1], [104, 105, 5, 163], [5, 104, 101], [121]]
        = .ok (s', List.replicate
            [[3, 1], [104, 105, 5, 163], [5, 104, 101], [121]].length true) ∧
      messagesOf s'.calls
        = [Packet.mk 0 1 [104, 105], Packet.mk 42 3 [104, 101, 121]].map
            (fun m => (m.ch, m.k, some m.d)) :=
  stream_round_trip [Packet.mk 0 1 [104, 105], Packet.mk 42 3 [104, 101, 121]]
    [[3, 1], [104, 105, 5, 163], [5, 104, 101], [121]] false (by decide) (by rfl)

/-- C5: wire format of `Send`. For every `uint64` channel, `uint8` kind and payload
`d`, with `h = ((ch << 4) | k) mod 2^64` and `L = len(d) + encodingLength(h)`,
`Send` returns exactly `uvarint L ++ uvarint h ++ d`, without a panic, and these
are exactly the `encodingLength(L) + L` bytes of the allocated buffer. -/
theorem send_wire_format (ch k : Nat) (d : List Nat) (hch : ch < 2 ^ 64) (hk : k < 256)
    (hd : d.length < 2 ^ 63) :
    Send ch k d
      = .ok (uvarint (d.length + encodingLength (((ch <<< 4) ||| k) % 2 ^ 64))
          ++ uvarint (((ch <<< 4) ||| k) % 2 ^ 64) ++ d) ∧
    (uvarint (d.length + encodingLength (((ch <<< 4) ||| k) % 2 ^ 64))
          ++ uvarint (((ch <<< 4) ||| k) % 2 ^ 64) ++ d).length
      = encodingLength (d.length + encodingLength (((ch <<< 4) ||| k) % 2 ^ 64))
        + (d.length + encodingLength (((ch <<< 4) ||| k) % 2 ^ 64)) := by
  have _ := hch
  rw [or_mod_small _ k hk]
  have hh : ((ch <<< 4) % 2 ^ 64) ||| k < 2 ^ 64 :=
    Nat.or_lt_two_pow (Nat.mod_lt _ (by norm_num)) (lt_trans hk (by norm_num))
  have hel := encodingLength_le (((ch <<< 4) % 2 ^ 64) ||| k)
  have hL : d.length + encodingLength (((ch <<< 4) % 2 ^ 64) ||| k) < 2 ^ 64 := by
    have : (2 : Nat) ^ 63 + 10 < 2 ^ 64 := by norm_num
    omega
  refine ⟨Send_eq_frameBytes ch k d hk hd, ?_⟩
  rw [encodingLength_eq_uvarint_length _ hL]
  simp only [List.length_append]
  rw [← encodingLength_eq_uvarint_length _ hh]
  omega

theorem send_wire_format_witness :
    Send 42 3 [104, 101, 121]
      = .ok (uvarint ([104, 101, 121].length + encodingLength (((42 <<< 4) ||| 3) % 2 ^ 64))
          ++ uvarint (((42 <<< 4) ||| 3) % 2 ^ 64) ++ [104, 101, 121]) ∧
    (uvarint ([104, 101, 121].length + encodingLength (((42 <<< 4) ||| 3) % 2 ^ 64))
          ++ uvarint (((42 <<< 4) ||| 3) % 2 ^ 64) ++ [104, 101, 121]).length
      = encodingLength ([104, 101, 121].length + encodingLength (((42 <<< 4) ||| 3) % 2 ^ 64))
        + ([104, 101, 121].length + encodingLength (((42 <<< 4) ||| 3) % 2 ^ 64)) :=
  send_wire_format 42 3 [104, 101, 121] (by decide) (by decide) (by decide)

/-- C6: `encodingLength` is the minimal varint length. For every `uint64` `v`,
`encodingLength v` is the number of bytes of the base-128 varint of `v`, which is
what `binary.PutUvarint` writes and no varint of `v` is shorter; it is 1 below
`2^7`, `n` between `2^(7(n-1))` and `2^(7n)` for `n = 2..9`, and 10 from `2^63`. -/
theorem encodingLength_minimal (v : Nat) (hv : v < 2 ^ 64) :
    encodingLength v = (uvarint v).length ∧
    (∀ buf : List Nat, 10 ≤ buf.length →
      ∃ buf', PutUvarint buf 0 v = .ok (buf', encodingLength v)) ∧
    (∀ bs : List Nat, bs ≠ [] → leval bs = v → encodingLength v ≤ bs.length) ∧
    (v < 2 ^ 7 → encodingLength v = 1) ∧
    (∀ n, 2 ≤ n → n ≤ 9 → 2 ^ (7 * (n - 1)) ≤ v → v < 2 ^ (7 * n) → encodingLength v = n) ∧
    (2 ^ 63 ≤ v → encodingLength v = 10) := by
  have hlen := encodingLength_eq_uvarint_length v hv
  have hle := encodingLength_le v
  refine ⟨hlen, ?_, ?_, ?_, ?_, ?_⟩
  · intro buf hbuf
    have := PutUvarint_spec [] buf v hv (by rw [← hlen]; omega)
    simp only [List.nil_append, List.length_nil] at this
    rw [hlen]
    exact ⟨_, this⟩
  · intro bs hne hval
    have hlt := leval_lt bs
    rw [hval] at hlt
    rw [hlen]
    have hpos : 0 < bs.length := List.length_pos.mpr hne
    have := (uvarint_length_le_iff (bs.length - 1) v).mpr (by
      have e : bs.length - 1 + 1 = bs.length := by omega
      rw [e]; exact hlt)
    omega
  · intro h
    have hc := encodingLength_cases v
    norm_num at h
    omega
  · intro n h2 h9
    have hc := encodingLength_cases v
    have hn : n = 2 ∨ n = 3 ∨ n = 4 ∨ n = 5 ∨ n = 6 ∨ n = 7 ∨ n = 8 ∨ n = 9 := by omega
    rcases hn with rfl | rfl | rfl | rfl | rfl | rfl | rfl | rfl <;> intro hlo hhi <;>
      norm_num at hlo hhi <;> omega
  · intro h
    have hc := encodingLength_cases v
    norm_num at h
    omega

theorem encodingLength_minimal_witness :
    encodingLength (2 ^ 63) = (uvarint (2 ^ 63)).length ∧
    (∀ buf : List Nat, 10 ≤ buf.length →
      ∃ buf', PutUvarint buf 0 (2 ^ 63) = .ok (buf', encodingLength (2 ^ 63))) ∧
    (∀ bs : List Nat, bs ≠ [] → leval bs = 2 ^ 63 → encodingLength (2 ^ 63) ≤ bs.length) ∧
    (2 ^ 63 < 2 ^ 7 → encodingLength (2 ^ 63) = 1) ∧
    (∀ n, 2 ≤ n → n ≤ 9 → 2 ^ (7 * (n - 1)) ≤ 2 ^ 63 → 2 ^ 63 < 2 ^ (7 * n) →
      encodingLength (2 ^ 63) = n) ∧
    (2 ^ 63 ≤ 2 ^ 63 → encodingLength (2 ^ 63) = 10) :=
  encodingLength_minimal (2 ^ 63) (by decide)

/-- C4: batch encoding against concatenated single encodings, at the input
where they differ. For one message with `ID = 0`, `Channel = 0` and a payload of
17 bytes, `SendBatch` allocates `16 + encodingLength(17) = 17` bytes, writes the two
varints and 15 payload bytes, and panics on `payload[0:19]`, whereas `Send` returns
the 19 bytes of the frame. -/
theorem sendBatch_short_buffer :
    SendBatch [Message.mk 0 0 (List.replicate 17 97)] = .error Fault.panic ∧
    batchLength [Message.mk 0 0 (List.replicate 17 97)] 0 = 17 ∧
    Send 0 0 (List.replicate 17 97) = .ok ([18, 0] ++ List.replicate 17 97) :=
  ⟨rfl, rfl, rfl⟩

/-- C8: a varint with more than nine continuation bytes, at the input where the
decoder accepts it. Ten continuation bytes and a terminator in one chunk leave a
fresh decoder live, `Recv` returns `true` and no error is stored; the same bytes
cut after the ninth byte destroy the decoder with `ErrInvalidVarint`. -/
theorem long_varint_in_one_chunk :
    (∃ s', Recv (NewSMC false true) (List.replicate 10 128 ++ [0]) = .ok (s', true) ∧
      s'.destroyed = false ∧ (Error s').2 = none) ∧
    (∃ s', feed (NewSMC false true) [List.replicate 9 128, [128, 0]]
        = .ok (s', [false, false]) ∧
      s'.destroyed = true ∧ (Error s').2 = some Err.ErrInvalidVarint) :=
  ⟨⟨_, rfl, rfl, rfl⟩, ⟨_, rfl, rfl, rfl⟩⟩

/-- C9: `Recv` on a destroyed decoder, at the inputs where it is not a no-op.
After `ErrSizeLimit` with a negative remaining length the next non-empty `Recv`
panics; after `ErrInvalidVarint` a later `Recv` changes the decoder, stores the
error again once it was read, and can call the message handler. -/
theorem recv_after_destroy_not_inert :
    (∃ s1, Recv (NewSMC false true) [1, 128, 0] = .ok (s1, false) ∧
      (Error s1).2 = some Err.ErrSizeLimit ∧
      Recv (Error s1).1 [0] = .error Fault.panic) ∧
    (∃ s1 s2, Recv (NewSMC false true) (List.replicate 9 128) = .ok (s1, false) ∧
      (Error s1).2 = some Err.ErrInvalidVarint ∧
      Recv (Error s1).1 [128] = .ok (s2, false) ∧
      s2.consumed = 10 ∧ s1.consumed = 9 ∧ s2.factor = 0 ∧ s1.factor = 2 ^ 63 ∧
      (Error s2).2 = some Err.ErrInvalidVarint) ∧
    (∃ s1 s2, Recv (NewSMC false true) (List.replicate 9 128) = .ok (s1, false) ∧
      Recv s1 [128, 0, 2, 0, 65] = .ok (s2, false) ∧
      messagesOf s2.calls = [(0, 0, some [65])]) :=
  ⟨⟨_, rfl, rfl, rfl⟩, ⟨_, _, rfl, rfl, rfl, rfl, rfl, rfl, rfl, rfl⟩, ⟨_, _, rfl, rfl, rfl⟩⟩

/-- C10: destruction is permanent. Once a `Recv` call has returned `false`, the
decoder is destroyed, it stays destroyed through every later sequence of `Recv`,
`Error`, `Send` and `SendBatch` calls that return, and every `Recv` among them
returns `false`. -/
theorem destruction_permanent (s : SMC) (d : List Nat) (s1 : SMC) (ops : List Op)
    (s2 : SMC) (rs : List Bool)
    (h1 : Recv s d = .ok (s1, false)) (h2 : runOps s1 ops = .ok (s2, rs)) :
    s1.destroyed = true ∧ s2.destroyed = true ∧ ∀ b ∈ rs, b = false := by
  obtain ⟨e1, _⟩ := Recv_result s d s1 false h1
  have hd : s1.destroyed = true := by
    cases hx : s1.destroyed with
    | true => rfl
    | false => rw [hx] at e1; exact absurd e1 (by decide)
  obtain ⟨a1, a2⟩ := runOps_destroyed ops s1 s2 rs h2 hd
  exact ⟨hd, a1, a2⟩

theorem destruction_permanent_witness :
    ∃ s1 s2 rs, Recv (NewSMC false true) (List.replicate 9 128) = .ok (s1, false) ∧
      runOps s1 [Op.error, Op.recv [128], Op.send 0 1 [104], Op.sendBatch [], Op.recv []]
        = .ok (s2, rs) ∧ rs.length = 2 ∧
      s1.destroyed = true ∧ s2.destroyed = true ∧ ∀ b ∈ rs, b = false :=
  ⟨{ state := 0, factor := 2 ^ 63, varint := 0, header := 0, message := none,
     destroyed := true, receiving := false, length := 0, consumed := 9,
     err := some Err.ErrInvalidVarint, onmissing := false, onmessage := true, calls := [] },
   { state := 0, factor := 0, varint := 0, header := 0, message := none,
     destroyed := true, receiving := false, length := 0, consumed := 10,
     err := some Err.ErrInvalidVarint, onmissing := false, onmessage := true, calls := [] },
   [false, false], rfl, rfl, rfl,
   destruction_permanent (NewSMC false true) (List.replicate 9 128) _
     [Op.error, Op.recv [128], Op.send 0 1 [104], Op.sendBatch [], Op.recv []] _ _ rfl rfl⟩

/-- C7: size-limit error, exactly when. A live decoder in state 1 with stored
outer length `L = s.length` reads a header varint that ends inside the chunk `d`
(continuation bytes `pre`, terminator `t`, from offset `off`), `n` bytes in all
with those of earlier chunks. It is destroyed if and only if `L - n < 0` or
`L - n > 8388608`. In that case the error is `ErrSizeLimit`, no handler is called,
the rest of the chunk is skipped, the rest of the `Recv` call returns `false`
without a handler call and `Error()` then returns `ErrSizeLimit`. Otherwise the
decoder stays live in state 2 with remaining length `L - n`. -/
theorem size_limit_exactly_when (s : SMC) (d : List Nat) (off : Nat) (pre : List Nat)
    (t : Nat) (rest : List Nat) (fuel : Nat)
    (h1 : s.state = 1) (hlive : s.destroyed = false)
    (hd : d.drop off = pre ++ t :: rest) (hpre : ∀ b ∈ pre, 128 ≤ b) (ht : t < 128)
    (hc : 0 ≤ s.consumed) (hn : s.consumed + pre.length + 1 < 2 ^ 62)
    (hL1 : -2 ^ 63 ≤ s.length) (hL2 : s.length < 2 ^ 63) :
    ((readVarint s d off).1.destroyed = true ↔
      (s.length - (s.consumed + pre.length + 1) < 0 ∨
        s.length - (s.consumed + pre.length + 1) > 8388608)) ∧
    ((s.length - (s.consumed + pre.length + 1) < 0 ∨
        s.length - (s.consumed + pre.length + 1) > 8388608) →
      (readVarint s d off).1.err = some Err.ErrSizeLimit ∧
      (readVarint s d off).1.calls = s.calls ∧
      (readVarint s d off).2 = d.length ∧
      ∃ s', (recvLoop d (fuel + 2) s off >>= fun x => recvEnd x d) = .ok (s', false) ∧
        s'.calls = s.calls ∧ s'.destroyed = true ∧
        (Error s').2 = some Err.ErrSizeLimit) ∧
    (¬ (s.length - (s.consumed + pre.length + 1) < 0 ∨
        s.length - (s.consumed + pre.length + 1) > 8388608) →
      (readVarint s d off).1.destroyed = false ∧
      (readVarint s d off).1.state = 2 ∧
      (readVarint s d off).1.length = s.length - (s.consumed + pre.length + 1) ∧
      (readVarint s d off).2 = off + pre.length + 1) := by
  obtain ⟨hrv, g1, g2, g3, g4, g5, g6, g7⟩ := readVarint_header s d off pre t rest hd hpre ht
  generalize hs1 : termStep (pre.foldl contStep s) t = s1 at hrv g1 g2 g3 g4 g5 g6 g7
  have hs1st : s1.state = 1 := by rw [g1, h1]
  have hn0 : (0 : Int) ≤ s.consumed + pre.length + 1 := by omega
  have hiff := wrapInt_limit s.length (s.consumed + pre.length + 1) hL1 hL2 hn0 hn
  have hlen : (d.drop off).length = pre.length + rest.length + 1 := by
    rw [hd]; simp; omega
  rw [List.length_drop] at hlen
  have hoff : off < d.length := by omega
  by_cases hbad : (s.length - (s.consumed + pre.length + 1) < 0 ∨
      s.length - (s.consumed + pre.length + 1) > 8388608)
  · have hbad' : wrapInt (s1.length - s1.consumed) < 0 ∨
        wrapInt (s1.length - s1.consumed) > defaultMaxSize := by
      rw [g2, g3]; exact hiff.mpr hbad
    have hnext := next_state1_limit s1 d (off + pre.length + 1) hs1st hbad'
    rw [hnext] at hrv
    simp only [Bool.false_eq_true, if_false] at hrv
    have hne : wrapInt (s1.length - s1.consumed) ≠ 0 := by
      unfold defaultMaxSize at hbad'
      omega
    refine ⟨?_, ?_, ?_⟩
    · rw [hrv]; simp only [true_iff]; exact hbad
    · intro _
      rw [hrv]
      refine ⟨rfl, g5, rfl, ?_⟩
      have hne2 : ¬ s.state = 2 := by rw [h1]; decide
      have hlt : ¬ d.length < d.length := lt_irrefl _
      refine ⟨{ state := 2, factor := 1, varint := 0, header := s1.varint,
                message := s1.message, destroyed := true, receiving := false,
                length := wrapInt (s1.length - s1.consumed), consumed := 0,
                err := some Err.ErrSizeLimit, onmissing := s1.onmissing,
                onmessage := s1.onmessage, calls := s1.calls }, ?_, ?_, ?_, ?_⟩
      · rw [recvLoop]
        simp only [hoff, if_true, hne2, if_false, hrv]
        rw [recvLoop]
        simp only [hlt, if_false, bind, Except.bind, recvEnd, true_and, hne, Bool.not_true]
      · exact g5
      · rfl
      · rfl
    · intro h; exact absurd hbad h
  · have hin := wrapInt_inside s.length (s.consumed + pre.length + 1) hbad
    have hlo : 0 ≤ wrapInt (s1.length - s1.consumed) := by
      rw [g2, g3, hin]; omega
    have hhi : wrapInt (s1.length - s1.consumed) ≤ defaultMaxSize := by
      rw [g2, g3, hin]; unfold defaultMaxSize; omega
    obtain ⟨s2, e0, e1, e2, e3, e4, e5, e6, e7, e8, _, _, _, _, _⟩ :=
      next_state1 s1 d (off + pre.length + 1) hs1st hlo hhi
    rw [e0] at hrv
    simp only [if_true] at hrv
    have hd2 : s2.destroyed = false := by rw [e8, g4, hlive]
    refine ⟨?_, ?_, ?_⟩
    · rw [hrv]
      simp only [hd2, Bool.false_eq_true, false_iff]
      exact hbad
    · intro h; exact absurd h hbad
    · intro _
      rw [hrv]
      refine ⟨hd2, e1, ?_, rfl⟩
      simp only [e6, g2, g3, hin]

theorem size_limit_exactly_when_witness :
    ((readVarint { NewSMC false true with state := 1, length := 1 } [128, 0, 7] 0).1.destroyed
        = true ↔
      ((1 : Int) - (0 + ([128] : List Nat).length + 1) < 0 ∨
        (1 : Int) - (0 + ([128] : List Nat).length + 1) > 8388608)) ∧
    (((1 : Int) - (0 + ([128] : List Nat).length + 1) < 0 ∨
        (1 : Int) - (0 + ([128] : List Nat).length + 1) > 8388608) →
      (readVarint { NewSMC false true with state := 1, length := 1 } [128, 0, 7] 0).1.err
        = some Err.ErrSizeLimit ∧
      (readVarint { NewSMC false true with state := 1, length := 1 } [128, 0, 7] 0).1.calls
        = [] ∧
      (readVarint { NewSMC false true with state := 1, length := 1 } [128, 0, 7] 0).2
        = [128, 0, 7].length ∧
      ∃ s', (recvLoop [128, 0, 7] (0 + 2) { NewSMC false true with state := 1, length := 1 } 0
            >>= fun x => recvEnd x [128, 0, 7]) = .ok (s', false) ∧
        s'.calls = [] ∧ s'.destroyed = true ∧
        (Error s').2 = some Err.ErrSizeLimit) ∧
    (¬ ((1 : Int) - (0 + ([128] : List Nat).length + 1) < 0 ∨
        (1 : Int) - (0 + ([128] : List Nat).length + 1) > 8388608) →
      (readVarint { NewSMC false true with state := 1, length := 1 } [128, 0, 7] 0).1.destroyed
        = false ∧
      (readVarint { NewSMC false true with state := 1, length := 1 } [128, 0, 7] 0).1.state
        = 2 ∧
      (readVarint { NewSMC false true with state := 1, length := 1 } [128, 0, 7] 0).1.length
        = (1 : Int) - (0 + ([128] : List Nat).length + 1) ∧
      (readVarint { NewSMC false true with state := 1, length := 1 } [128, 0, 7] 0).2
        = 0 + ([128] : List Nat).length + 1) :=
  size_limit_exactly_when { NewSMC false true with state := 1, length := 1 } [128, 0, 7] 0
    [128] 0 [7] 0 rfl rfl rfl (by decide) (by decide) (by decide) (by decide) (by decide)
    (by decide)

/-! ## Handlers, the receiving flag and single passes of the loop -/

theorem missingOf_append (a b : List Event) :
    missingOf (a ++ b) = missingOf a ++ missingOf b := by
  induction a with
  | nil => simp [missingOf]
  | cons e es ih =>
    cases e with
    | missing n => simpa [missingOf] using ih
    | message ch k p dd o => simpa [missingOf] using ih

/-- The calls made by `next` when a header completes inside the size limit. -/
theorem next_state1_calls (s : SMC) (data : List Nat) (off : Nat) (h1 : s.state = 1)
    (hlo : 0 ≤ wrapInt (s.length - s.consumed))
    (hhi : wrapInt (s.length - s.consumed) ≤ defaultMaxSize) :
    (next s data off).2 = true ∧
    (next s data off).1.calls = s.calls ++
      (if s.onmissing = true ∧
          wrapInt (s.length - s.consumed) > (data.length : Int) - (off : Int)
       then [Event.missing (wrapInt (s.length - s.consumed)
              - ((data.length : Int) - (off : Int)))]
       else []) := by
  unfold next
  rw [h1]
  have hc : ¬ (wrapInt (s.length - s.consumed) < 0 ∨
      wrapInt (s.length - s.consumed) > defaultMaxSize) := by
    intro h; rcases h with h | h <;> omega
  simp only [hc, if_false]
  by_cases hm : s.onmissing = true
  · by_cases hx : wrapInt (s.length - s.consumed) > (data.length : Int) - (off : Int)
    · simp [hm, hx]
    · simp [hm, hx]
  · simp [hm]

/-- Outside state 1 `next` does not call the missing handler. -/
theorem next_missing_other (s : SMC) (data : List Nat) (off : Nat) (h1 : s.state ≠ 1) :
    missingOf (next s data off).1.calls = missingOf s.calls := by
  unfold next
  split
  · simp only []; split_ifs <;> rfl
  · rename_i h; exact absurd h h1
  · simp only []; split_ifs <;> simp [missingOf_append, missingOf]
  · rfl

/-- One call of `next` calls the missing handler at most once. -/
theorem next_missing_le (s : SMC) (data : List Nat) (off : Nat) :
    ∃ l, missingOf (next s data off).1.calls = missingOf s.calls ++ l ∧ l.length ≤ 1 := by
  by_cases h1 : s.state = 1
  · by_cases hbad : wrapInt (s.length - s.consumed) < 0 ∨
        wrapInt (s.length - s.consumed) > defaultMaxSize
    · rw [next_state1_limit s data off h1 hbad]
      exact ⟨[], by simp, by simp⟩
    · obtain ⟨_, e2⟩ := next_state1_calls s data off h1 (by omega) (by omega)
      rw [e2, missingOf_append]
      refine ⟨_, rfl, ?_⟩
      split_ifs <;> simp [missingOf]
  · exact ⟨[], by simp [next_missing_other s data off h1], by simp⟩

theorem readVarintLoop_missing_other (d : List Nat) : ∀ (bs : List Nat) (s : SMC) (off : Nat),
    s.state ≠ 1 → missingOf (readVarintLoop d bs s off).1.calls = missingOf s.calls := by
  intro bs
  induction bs with
  | nil =>
    intro s off _
    rw [readVarintLoop_nil]
    simp only [destroy]
    split_ifs <;> rfl
  | cons b bs ih =>
    intro s off h1
    rw [readVarintLoop]
    simp only []
    split_ifs
    · exact next_missing_other _ _ _ h1
    · exact next_missing_other _ _ _ h1
    · exact ih _ _ h1

theorem readVarintLoop_missing_le (d : List Nat) : ∀ (bs : List Nat) (s : SMC) (off : Nat),
    ∃ l, missingOf (readVarintLoop d bs s off).1.calls = missingOf s.calls ++ l ∧
      l.length ≤ 1 := by
  intro bs
  induction bs with
  | nil =>
    intro s off
    rw [readVarintLoop_nil]
    simp only [destroy]
    split_ifs <;> exact ⟨[], by simp, by simp⟩
  | cons b bs ih =>
    intro s off
    rw [readVarintLoop]
    simp only []
    split_ifs
    · exact next_missing_le _ _ _
    · exact next_missing_le _ _ _
    · exact ih _ _

theorem readMessage_missing_other (s : SMC) (d : List Nat) (off : Nat) (r : SMC × Nat)
    (h1 : s.state ≠ 1) (hr : readMessage s d off = .ok r) :
    missingOf r.1.calls = missingOf s.calls := by
  rcases readMessage_cases s d off r hr with ⟨_, _, msg, c3⟩ | ⟨_, msg, c3⟩
  · rw [c3]
    unfold finishWith
    simp only []
    split_ifs <;> exact next_missing_other { s with message := some msg } _ _ h1
  · rw [c3]



theorem termStep_foldl_eq (s : SMC) (pre : List Nat) (t : Nat) (hv : s.varint < 2 ^ 64)
    (hf : s.factor < 2 ^ 64) :
    termStep (pre.foldl contStep s) t
      = { s with varint := (s.varint + s.factor * leval (pre ++ [t])) % 2 ^ 64,
                 factor := (s.factor * 128 ^ pre.length) % 2 ^ 64,
                 consumed := s.consumed + pre.length + 1 } := by
  obtain ⟨f1, f2, f3, f4, f5, f6, f7, f8, f9, f10, f11⟩ := foldl_contStep_frame pre s
  have hv2 := foldl_contStep_varint (pre ++ [t]) s hv
  rw [List.foldl_append] at hv2
  simp only [List.foldl_cons, List.foldl_nil, contStep] at hv2
  apply SMC.ext <;> simp only [termStep]
  · exact f1
  · exact foldl_contStep_factor pre s hf
  · exact hv2
  · exact f2
  · exact f3
  · exact f4
  · exact f5
  · exact f6
  · rw [f11]
  · exact f7
  · exact f8
  · exact f9
  · exact f10

theorem next_state1_eq (s : SMC) (data : List Nat) (off : Nat) (h1 : s.state = 1)
    (hlo : 0 ≤ wrapInt (s.length - s.consumed))
    (hhi : wrapInt (s.length - s.consumed) ≤ defaultMaxSize) :
    next s data off
      = ({ s with state := 2, factor := 1, header := s.varint,
                  length := wrapInt (s.length - s.consumed), consumed := 0, varint := 0,
                  calls := s.calls ++
                    (if s.onmissing = true ∧
                        wrapInt (s.length - s.consumed) > (data.length : Int) - (off : Int)
                     then [Event.missing (wrapInt (s.length - s.consumed)
                            - ((data.length : Int) - (off : Int)))]
                     else []) }, true) := by
  unfold next
  rw [h1]
  have hc : ¬ (wrapInt (s.length - s.consumed) < 0 ∨
      wrapInt (s.length - s.consumed) > defaultMaxSize) := by
    intro h; rcases h with h | h <;> omega
  simp only [hc, if_false]
  by_cases hm : s.onmissing = true
  · by_cases hx : wrapInt (s.length - s.consumed) > (data.length : Int) - (off : Int)
    · simp [hm, hx]
    · simp [hm, hx]
  · simp [hm]

theorem recvLoop_varint_step (d : List Nat) (fuel : Nat) (s : SMC) (off : Nat)
    (h : off < d.length) (h2 : s.state ≠ 2) :
    recvLoop d (fuel + 1) s off
      = recvLoop d fuel (readVarint s d off).1 (readVarint s d off).2 := by
  rw [recvLoop]
  simp only [h, if_true, h2, if_false]

theorem recvLoop_message_step (d : List Nat) (fuel : Nat) (s : SMC) (off : Nat)
    (h : off < d.length) (h2 : s.state = 2) :
    recvLoop d (fuel + 1) s off
      = readMessage s d off >>= fun r => recvLoop d fuel r.1 r.2 := by
  rw [recvLoop]
  simp only [h, if_true, h2]

theorem recvLoop_exit (d : List Nat) (fuel : Nat) (s : SMC) (off : Nat)
    (h : ¬ off < d.length) : recvLoop d (fuel + 1) s off = .ok s := by
  rw [recvLoop]
  simp only [h, if_false]

theorem recvEnd_not_pending (s : SMC) (d : List Nat) (s' : SMC) (b : Bool)
    (hr : recvEnd s d = .ok (s', b)) : ¬ (s'.state = 2 ∧ s'.length = 0) := by
  unfold recvEnd at hr
  simp only [bind, Except.bind, Except.map] at hr
  split at hr
  · exact absurd hr (by simp)
  · rename_i s1 hs1
    injection hr with hr
    injection hr with hr1 _
    rw [← hr1]
    simp only []
    split_ifs at hs1 with hp
    · split at hs1
      · exact absurd hs1 (by simp)
      · rename_i r hrm
        injection hs1 with hs1
        rw [← hs1]
        rcases readMessage_cases s d d.length r hrm with ⟨_, _, msg, c3⟩ | ⟨c1, _, _⟩
        · have := (finishWith_state2 s msg d d.length hp.1).1
          rw [← c3] at this
          rw [this]
          intro h; exact absurd h.1 (by decide)
        · rw [hp.2] at c1
          omega
    · injection hs1 with hs1
      rw [← hs1]
      exact hp

theorem Recv_not_pending (s : SMC) (d : List Nat) (s' : SMC) (b : Bool)
    (hr : Recv s d = .ok (s', b)) (h : d ≠ [] ∨ ¬ (s.state = 2 ∧ s.length = 0)) :
    ¬ (s'.state = 2 ∧ s'.length = 0) := by
  unfold Recv at hr
  simp only [bind, Except.bind] at hr
  split_ifs at hr with h1 h2
  · injection hr with hr
    injection hr with hr1 _
    rw [← hr1]
    rcases h with h | h
    · exact absurd (List.length_eq_zero.mp h1) h
    · exact h
  · split at hr
    · exact absurd hr (by simp)
    · exact recvEnd_not_pending _ d s' b hr

theorem feed_not_pending : ∀ (chunks : List (List Nat)) (s s' : SMC) (rs : List Bool),
    feed s chunks = .ok (s', rs) → ¬ (s.state = 2 ∧ s.length = 0) →
    ¬ (s'.state = 2 ∧ s'.length = 0) := by
  intro chunks
  induction chunks with
  | nil =>
    intro s s' rs hr h
    simp only [feed] at hr
    injection hr with hr
    injection hr with hr1 _
    rw [← hr1]; exact h
  | cons c cs ih =>
    intro s s' rs hr h
    simp only [feed, bind, Except.bind] at hr
    split at hr
    · exact absurd hr (by simp)
    · rename_i r1 hr1
      split at hr
      · exact absurd hr (by simp)
      · rename_i r2 hr2
        injection hr with hr
        injection hr with e1 _
        rw [← e1]
        exact ih r1.1 r2.1 r2.2 hr2 (Recv_not_pending s c r1.1 r1.2 hr1 (Or.inr h))


/-- The length varint completes with a non-zero value: state 1. -/
theorem readVarint_length_eq (s : SMC) (d : List Nat) (off : Nat) (pre : List Nat) (t : Nat)
    (rest : List Nat) (hd : d.drop off = pre ++ t :: rest) (hpre : ∀ b ∈ pre, 128 ≤ b)
    (ht : t < 128) (h0 : s.state = 0) (hv : s.varint < 2 ^ 64) (hf : s.factor < 2 ^ 64)
    (hne : toInt ((s.varint + s.factor * leval (pre ++ [t])) % 2 ^ 64) ≠ 0) :
    readVarint s d off
      = ({ s with state := 1, factor := 1,
                  length := toInt ((s.varint + s.factor * leval (pre ++ [t])) % 2 ^ 64),
                  consumed := 0, varint := 0 }, off + pre.length + 1) := by
  obtain ⟨hrv, _⟩ := readVarint_header s d off pre t rest hd hpre ht
  rw [termStep_foldl_eq s pre t hv hf] at hrv
  have hnx := next_state0
    { s with varint := (s.varint + s.factor * leval (pre ++ [t])) % 2 ^ 64,
             factor := (s.factor * 128 ^ pre.length) % 2 ^ 64,
             consumed := s.consumed + pre.length + 1 } d (off + pre.length + 1) h0 hne
  rw [hnx] at hrv
  simp only [if_true] at hrv
  exact hrv

/-- The length varint completes with the value zero: the decoder is back at the
start of a length varint. -/
theorem readVarint_zero_eq (s : SMC) (d : List Nat) (off : Nat) (pre : List Nat) (t : Nat)
    (rest : List Nat) (hd : d.drop off = pre ++ t :: rest) (hpre : ∀ b ∈ pre, 128 ≤ b)
    (ht : t < 128) (h0 : s.state = 0) (hv : s.varint < 2 ^ 64) (hf : s.factor < 2 ^ 64)
    (hz : toInt ((s.varint + s.factor * leval (pre ++ [t])) % 2 ^ 64) = 0) :
    readVarint s d off
      = ({ s with state := 0, factor := 1, length := 0, consumed := 0, varint := 0 },
         off + pre.length + 1) := by
  obtain ⟨hrv, _⟩ := readVarint_header s d off pre t rest hd hpre ht
  rw [termStep_foldl_eq s pre t hv hf] at hrv
  have hnx : next
      { s with varint := (s.varint + s.factor * leval (pre ++ [t])) % 2 ^ 64,
               factor := (s.factor * 128 ^ pre.length) % 2 ^ 64,
               consumed := s.consumed + pre.length + 1 } d (off + pre.length + 1)
      = ({ s with state := 0, factor := 1, length := 0, consumed := 0, varint := 0 },
         true) := by
    unfold next
    simp only [h0, hz, if_true]
  rw [hnx] at hrv
  simp only [if_true] at hrv
  exact hrv

/-- The header varint completes with a remaining length inside the limit:
state 2, and the missing handler is called when the chunk holds less. -/
theorem readVarint_header_eq (s : SMC) (d : List Nat) (off : Nat) (pre : List Nat) (t : Nat)
    (rest : List Nat) (hd : d.drop off = pre ++ t :: rest) (hpre : ∀ b ∈ pre, 128 ≤ b)
    (ht : t < 128) (h1 : s.state = 1) (hv : s.varint < 2 ^ 64) (hf : s.factor < 2 ^ 64)
    (hlo : 0 ≤ s.length - (s.consumed + pre.length + 1))
    (hhi : s.length - (s.consumed + pre.length + 1) ≤ 8388608) :
    readVarint s d off
      = ({ s with state := 2, factor := 1,
                  header := (s.varint + s.factor * leval (pre ++ [t])) % 2 ^ 64,
                  length := s.length - (s.consumed + pre.length + 1),
                  consumed := 0, varint := 0,
                  calls := s.calls ++
                    (if s.onmissing = true ∧ s.length - (s.consumed + pre.length + 1)
                          > (d.length : Int) - ((off + pre.length + 1 : Nat) : Int)
                     then [Event.missing (s.length - (s.consumed + pre.length + 1)
                            - ((d.length : Int) - ((off + pre.length + 1 : Nat) : Int)))]
                     else []) }, off + pre.length + 1) := by
  obtain ⟨hrv, _⟩ := readVarint_header s d off pre t rest hd hpre ht
  rw [termStep_foldl_eq s pre t hv hf] at hrv
  have hw := wrapInt_inside s.length (s.consumed + pre.length + 1) (by omega)
  have hnx := next_state1_eq
    { s with varint := (s.varint + s.factor * leval (pre ++ [t])) % 2 ^ 64,
             factor := (s.factor * 128 ^ pre.length) % 2 ^ 64,
             consumed := s.consumed + pre.length + 1 } d (off + pre.length + 1) h1
    (by simp only [hw]; exact hlo) (by simp only [hw]; unfold defaultMaxSize; omega)
  simp only [hw] at hnx
  rw [hnx] at hrv
  simp only [if_true] at hrv
  exact hrv

/-- A live decoder in state 2 whose remaining payload lies in the chunk and
has not been buffered: the payload is a view of the chunk and the message
handler is called with it. -/
theorem readMessage_borrow_eq (s : SMC) (d : List Nat) (off : Nat) (hl : Live s)
    (h2 : s.state = 2) (hm : s.message = none) (h0 : 0 ≤ s.length)
    (hfree : (d.length : Int) - (off : Int) ≥ s.length) :
    readMessage s d off
      = .ok ({ s with state := 0, message := none,
                      calls := s.calls ++
                        [Event.message (s.header >>> 4) ((s.header &&& 0b1111) % 256)
                          (some ((d.drop off).take s.length.toNat)) d
                          (off + s.length.toNat)] }, off + s.length.toNat) := by
  rw [readMessage_borrow s d off hm h0 hfree]
  unfold finishWith
  have := next_state2 { s with message := some ((d.drop off).take s.length.toNat) } d
    (off + s.length.toNat) h2 hl
  simp only [] at this ⊢
  rw [this]
  simp only [if_true]

/-- A header varint that ends exactly at the end of the chunk with nothing left
of the frame: the message is delivered in the same `Recv` call. -/
theorem Recv_empty_payload_at_end (s : SMC) (pre : List Nat) (t : Nat) (h1 : s.state = 1)
    (hl : Live s) (hm : s.message = none) (hrec : s.receiving = false)
    (hpre : ∀ b ∈ pre, 128 ≤ b) (ht : t < 128) (hv : s.varint < 2 ^ 64)
    (hf : s.factor < 2 ^ 64) (hR : s.length - (s.consumed + pre.length + 1) = 0) :
    ∃ s', Recv s (pre ++ [t]) = .ok (s', true) ∧ s'.state = 0 ∧
      s'.calls = s.calls ++
        [Event.message (((s.varint + s.factor * leval (pre ++ [t])) % 2 ^ 64) >>> 4)
          ((((s.varint + s.factor * leval (pre ++ [t])) % 2 ^ 64) &&& 0b1111) % 256)
          (some []) (pre ++ [t]) (pre ++ [t]).length] := by
  have hlen : (pre ++ [t]).length = pre.length + 1 := by simp
  have hne : ¬ (pre ++ [t]).length = 0 := by rw [hlen]; omega
  have hrv := readVarint_header_eq { s with receiving := true } (pre ++ [t]) 0 pre t []
    (by simp) hpre ht h1 hv hf (by simp only [hR]; exact le_refl _)
    (by simp only [hR]; decide)
  simp only [hR] at hrv
  have hcond : ¬ (s.onmissing = true ∧
      (0 : Int) > ((pre ++ [t]).length : Int) - ((0 + pre.length + 1 : Nat) : Int)) := by
    rw [hlen]; push_cast; intro h; omega
  rw [if_neg hcond, List.append_nil] at hrv
  unfold Recv
  simp only [hne, if_false, hrec, Bool.false_eq_true]
  have hfuel : 2 * (pre ++ [t]).length + 2 = (2 * pre.length + 2) + 1 + 1 := by
    rw [hlen]; omega
  rw [hfuel, recvLoop_varint_step _ _ _ 0 (by rw [hlen]; omega) (by rw [h1]; decide)]
  generalize readVarint { s with receiving := true } (pre ++ [t]) 0 = rC at hrv
  have c1 : rC.1.state = 2 := by rw [hrv]
  have c2 : rC.1.length = 0 := by rw [hrv]
  have c3 : rC.1.message = none := by rw [hrv]; exact hm
  have c4 : Live rC.1 := by rw [hrv]; exact hl
  have c5 : rC.1.calls = s.calls := by rw [hrv]
  have c6 : rC.1.header = (s.varint + s.factor * leval (pre ++ [t])) % 2 ^ 64 := by rw [hrv]
  have c7 : rC.2 = pre.length + 1 := by rw [hrv]; simp
  rw [recvLoop_exit _ _ _ _ (by rw [hlen, c7]; omega)]
  simp only [bind, Except.bind, recvEnd, c1, c2, and_self, if_true]
  rw [readMessage_borrow_eq rC.1 _ _ c4 c1 c3 (by rw [c2]) (by rw [c2]; simp)]
  simp only [Except.map, c4.1, Bool.not_false, c2, Int.toNat_zero, Nat.add_zero,
    List.take_zero, c5, c6]
  exact ⟨_, rfl, rfl, rfl⟩

/-! ## More claims -/

/-- C11: `Error()` is single-shot and touches only the stored error. For every
decoder state it returns the stored error and sets it to `nil`, so an `Error()`
right after it returns `nil`; every other field, the destroyed flag included, is
unchanged. -/
theorem error_single_shot (s : SMC) :
    (Error s).2 = s.err ∧ (Error s).1.err = none ∧ (Error (Error s).1).2 = none ∧
    (Error s).1 = { s with err := none } ∧
    (Error s).1.state = s.state ∧ (Error s).1.factor = s.factor ∧
    (Error s).1.varint = s.varint ∧ (Error s).1.header = s.header ∧
    (Error s).1.message = s.message ∧ (Error s).1.destroyed = s.destroyed ∧
    (Error s).1.receiving = s.receiving ∧ (Error s).1.length = s.length ∧
    (Error s).1.consumed = s.consumed ∧ (Error s).1.onmissing = s.onmissing ∧
    (Error s).1.onmessage = s.onmessage ∧ (Error s).1.calls = s.calls :=
  ⟨rfl, rfl, rfl, rfl, rfl, rfl, rfl, rfl, rfl, rfl, rfl, rfl, rfl, rfl, rfl, rfl⟩

theorem recvEnd_receiving (s : SMC) (d : List Nat) (s' : SMC) (b : Bool)
    (hr : recvEnd s d = .ok (s', b)) : s'.receiving = false := by
  unfold recvEnd at hr
  simp only [bind, Except.bind, Except.map] at hr
  split at hr
  · exact absurd hr (by simp)
  · injection hr with hr
    injection hr with hr1 hr2
    rw [← hr1]

/-- C17, as stated, fails for an empty chunk: `Recv` on a decoder whose receiving
flag is set returns normally on the empty chunk and leaves the flag set. -/
theorem recv_empty_keeps_receiving :
    ¬ (∀ (s : SMC) (d : List Nat) (s' : SMC) (b : Bool),
        Recv s d = .ok (s', b) → s'.receiving = false) := by
  intro h
  have := h { NewSMC false true with receiving := true } []
    { NewSMC false true with receiving := true } true rfl
  exact absurd this (by decide)

/-- C12: missing-bytes hint value. When a decoder with a missing handler completes
a header varint (continuation bytes `pre`, terminator `t`, read from offset `off`
of chunk `d`) with remaining payload length `R = s.length - n`, `0 ≤ R ≤ 8388608`,
the handler is called if and only if `R > len(d) - o`, `o` the index just past the
header, and then once with `R - (len(d) - o)`. Outside state 1 neither `readVarint`
nor `readMessage` calls it, and one `readVarint` calls it at most once. -/
theorem missing_hint_value (s : SMC) (d : List Nat) (off : Nat) (pre : List Nat) (t : Nat)
    (rest : List Nat) (h1 : s.state = 1) (hm : s.onmissing = true)
    (hd : d.drop off = pre ++ t :: rest) (hpre : ∀ b ∈ pre, 128 ≤ b) (ht : t < 128)
    (hR0 : 0 ≤ s.length - (s.consumed + pre.length + 1))
    (hR1 : s.length - (s.consumed + pre.length + 1) ≤ 8388608) :
    (readVarint s d off).1.calls = s.calls ++
      (if s.length - (s.consumed + pre.length + 1)
          > (d.length : Int) - ((off + pre.length + 1 : Nat) : Int)
       then [Event.missing (s.length - (s.consumed + pre.length + 1)
              - ((d.length : Int) - ((off + pre.length + 1 : Nat) : Int)))]
       else []) ∧
    (∀ (s0 : SMC) (c : List Nat) (o : Nat), s0.state ≠ 1 →
      missingOf (readVarint s0 c o).1.calls = missingOf s0.calls) ∧
    (∀ (s0 : SMC) (c : List Nat) (o : Nat) (r : SMC × Nat), s0.state ≠ 1 →
      readMessage s0 c o = .ok r → missingOf r.1.calls = missingOf s0.calls) ∧
    (∀ (s0 : SMC) (c : List Nat) (o : Nat),
      ∃ l, missingOf (readVarint s0 c o).1.calls = missingOf s0.calls ++ l ∧ l.length ≤ 1) := by
  refine ⟨?_, ?_, ?_, ?_⟩
  · obtain ⟨hrv, g1, g2, g3, _, g5, _, _⟩ :=
      readVarint_header s d off pre t rest hd hpre ht
    have g8 : (termStep (pre.foldl contStep s) t).onmissing = s.onmissing :=
      (foldl_contStep_frame pre s).2.2.2.2.2.2.2.1
    generalize termStep (pre.foldl contStep s) t = s1 at hrv g1 g2 g3 g5 g8
    have hin := wrapInt_inside s.length (s.consumed + pre.length + 1) (by omega)
    have hlo : 0 ≤ wrapInt (s1.length - s1.consumed) := by rw [g2, g3, hin]; exact hR0
    have hhi : wrapInt (s1.length - s1.consumed) ≤ defaultMaxSize := by
      rw [g2, g3, hin]; unfold defaultMaxSize; omega
    obtain ⟨e1, e2⟩ := next_state1_calls s1 d (off + pre.length + 1) (by rw [g1, h1]) hlo hhi
    rw [hrv, e1]
    simp only [if_true]
    rw [e2, g5, g8, g2, g3, hin]
    simp only [hm, true_and]
  · intro s0 c o h
    exact readVarintLoop_missing_other c _ s0 o h
  · intro s0 c o r h hr
    exact readMessage_missing_other s0 c o r h hr
  · intro s0 c o
    exact readVarintLoop_missing_le c _ s0 o

theorem missing_hint_value_witness :
    ∃ s1 s2, Recv (NewSMC true true) [11, 1, 97, 97] = .ok (s1, true) ∧
      Recv s1 [97, 97, 97, 97, 97, 97, 97, 97] = .ok (s2, true) ∧
      missingOf s2.calls = [8] ∧
      (readVarint { NewSMC true true with state := 1, length := 11 } [11, 1, 97, 97] 1).1.calls
        = [] ++ [Event.missing 8] :=
  ⟨_, _, rfl, rfl, rfl,
    (missing_hint_value { NewSMC true true with state := 1, length := 11 } [11, 1, 97, 97] 1
      [] 1 [97, 97] rfl rfl rfl (by decide) (by decide) (by decide) (by decide)).1⟩

/-- C13, as stated, fails: for a 10-byte payload on channel 0 with kind 1 the
first chunk holding exactly the two varints is `[11, 1]`, and after it the
missing handler has not been called with 8. -/
theorem hint_after_bare_header_not_eight :
    Send 0 1 (List.replicate 10 97) = .ok ([11, 1] ++ List.replicate 10 97) ∧
    ¬ (∃ s', Recv (NewSMC true true) [11, 1] = .ok (s', true) ∧ missingOf s'.calls = [8]) := by
  refine ⟨rfl, ?_⟩
  rintro ⟨s', h1, h2⟩
  have h3 : Recv (NewSMC true true) [11, 1] = .ok (_, true) := rfl
  rw [h3] at h1
  injection h1 with h1
  injection h1 with h1 _
  rw [← h1] at h2
  exact absurd h2 (by decide)

/-- C13, amended: for a 10-byte payload on channel 0 with kind 1, `Send` returns
`[11, 1] ++ d`, and a fresh decoder with a missing handler fed the first chunk
`[11, 1]` (the two varints, no payload byte) calls the missing handler once, with
value 10, and waits for 10 payload bytes. -/
theorem hint_after_bare_header (d : List Nat) (wm : Bool) (hd : d.length = 10) :
    Send 0 1 d = .ok ([11, 1] ++ d) ∧
    ∃ s', Recv (NewSMC true wm) [11, 1] = .ok (s', true) ∧ missingOf s'.calls = [10] ∧
      s'.state = 2 ∧ s'.length = 10 := by
  constructor
  · have h := Send_eq_frameBytes 0 1 d (by decide) (by rw [hd]; norm_num)
    rw [h]
    have e1 : ((0 <<< 4) % 2 ^ 64) ||| 1 = 1 := by decide
    have e2 : encodingLength 1 = 1 := by decide
    unfold frameBytes
    rw [e1, e2, hd, uvarint_lt (by norm_num : 10 + 1 < 128), uvarint_lt (by norm_num : 1 < 128)]
    rfl
  · cases wm <;> exact ⟨_, rfl, rfl, rfl, rfl⟩

theorem hint_after_bare_header_witness :
    Send 0 1 (List.replicate 10 97) = .ok ([11, 1] ++ List.replicate 10 97) ∧
    ∃ s', Recv (NewSMC true true) [11, 1] = .ok (s', true) ∧ missingOf s'.calls = [10] ∧
      s'.state = 2 ∧ s'.length = 10 :=
  hint_after_bare_header (List.replicate 10 97) true (by decide)

/-- C15: no completed message is left pending. After every `Recv` call that
returns, on a non-empty chunk or on a decoder that was not pending before, the
decoder is not in state 2 with remaining length 0; so it never is after feeding
chunks to a fresh decoder. In particular, when a header varint ends exactly at the
end of a chunk and leaves an empty payload, that same `Recv` call invokes the
message handler, with an empty payload. -/
theorem no_pending_message (s : SMC) (d : List Nat) (s' : SMC) (b : Bool)
    (hr : Recv s d = .ok (s', b)) (h : d ≠ [] ∨ ¬ (s.state = 2 ∧ s.length = 0)) :
    ¬ (s'.state = 2 ∧ s'.length = 0) ∧
    (∀ (chunks : List (List Nat)) (wa wb : Bool) (sf : SMC) (rs : List Bool),
      feed (NewSMC wa wb) chunks = .ok (sf, rs) → ¬ (sf.state = 2 ∧ sf.length = 0)) ∧
    (∀ (s0 : SMC) (pre : List Nat) (t : Nat), s0.state = 1 → Live s0 → s0.message = none →
      s0.receiving = false → (∀ x ∈ pre, 128 ≤ x) → t < 128 → s0.varint < 2 ^ 64 →
      s0.factor < 2 ^ 64 → s0.length - (s0.consumed + pre.length + 1) = 0 →
      ∃ s1, Recv s0 (pre ++ [t]) = .ok (s1, true) ∧ s1.state = 0 ∧
        s1.calls = s0.calls ++
          [Event.message (((s0.varint + s0.factor * leval (pre ++ [t])) % 2 ^ 64) >>> 4)
            ((((s0.varint + s0.factor * leval (pre ++ [t])) % 2 ^ 64) &&& 0b1111) % 256)
            (some []) (pre ++ [t]) (pre ++ [t]).length]) := by
  refine ⟨Recv_not_pending s d s' b hr h, ?_, ?_⟩
  · intro chunks wa wb sf rs hf
    exact feed_not_pending chunks _ sf rs hf (by simp [NewSMC])
  · intro s0 pre t h1 hl hm hrec hpre ht hv hf hR
    exact Recv_empty_payload_at_end s0 pre t h1 hl hm hrec hpre ht hv hf hR

theorem no_pending_message_witness :
    ∃ s2, Recv { NewSMC false true with state := 1, length := 1 } [0] = .ok (s2, true) ∧
      messagesOf s2.calls = [(0, 0, some [])] ∧ ¬ (s2.state = 2 ∧ s2.length = 0) :=
  ⟨{ NewSMC false true with calls := [Event.message 0 0 (some []) [0] 1] }, rfl, rfl,
    (no_pending_message { NewSMC false true with state := 1, length := 1 } [0]
      { NewSMC false true with calls := [Event.message 0 0 (some []) [0] 1] } true rfl
      (Or.inl (by decide))).1⟩

theorem leval_lt_two_pow (bs : List Nat) (h : bs.length ≤ 9) : leval bs < 2 ^ 63 := by
  calc leval bs < 128 ^ bs.length := leval_lt bs
    _ ≤ 128 ^ 9 := Nat.pow_le_pow_right (by norm_num) h
    _ = 2 ^ 63 := by norm_num

theorem header_fields (h : Nat) : h >>> 4 = h / 16 ∧ (h &&& 0b1111) % 256 = h % 16 := by
  have e := Nat.and_pow_two_sub_one_eq_mod h 4
  norm_num at e
  rw [Nat.shiftRight_eq_div_pow, e]
  constructor
  · norm_num
  · omega

/-- C18: decoder-side frame semantics. For every chunk `V_L ++ V_h ++ p` where
`V_L = preL ++ [tL]` and `V_h = preH ++ [tH]` are terminated varints of at most 9
bytes (minimal or not), of values `L` and `h`, and `p` has exactly
`R = L - len(V_h)` bytes, `R ≤ 8388608`, `Recv` on a fresh decoder with a message
handler returns `true` after exactly one message-handler call, with channel
`h / 16`, kind `h % 16` and payload `p`. -/
theorem frame_semantics (preL : List Nat) (tL : Nat) (preH : List Nat) (tH : Nat)
    (p : List Nat) (wm : Bool)
    (hpL : ∀ b ∈ preL, 128 ≤ b) (htL : tL < 128) (hnL : preL.length + 1 ≤ 9)
    (hpH : ∀ b ∈ preH, 128 ≤ b) (htH : tH < 128) (hnH : preH.length + 1 ≤ 9)
    (hlen : leval (preL ++ [tL]) = preH.length + 1 + p.length)
    (hmax : p.length ≤ 8388608) :
    ∃ s', Recv (NewSMC wm true) (preL ++ [tL] ++ (preH ++ [tH]) ++ p) = .ok (s', true) ∧
      messagesOf s'.calls
        = [(leval (preH ++ [tH]) / 16, leval (preH ++ [tH]) % 16, some p)] := by
  have hL63 : leval (preL ++ [tL]) < 2 ^ 63 := leval_lt_two_pow _ (by simp; omega)
  have hH63 : leval (preH ++ [tH]) < 2 ^ 63 := leval_lt_two_pow _ (by simp; omega)
  have hL64 : leval (preL ++ [tL]) < 2 ^ 64 := lt_trans hL63 (by norm_num)
  have hH64 : leval (preH ++ [tH]) < 2 ^ 64 := lt_trans hH63 (by norm_num)
  generalize hd : preL ++ [tL] ++ (preH ++ [tH]) ++ p = d
  have hdl : d.length = preL.length + 1 + (preH.length + 1) + p.length := by
    rw [← hd]; simp; omega
  have hd0 : d.drop 0 = preL ++ tL :: (preH ++ [tH] ++ p) := by
    rw [← hd]; simp
  have hd1 : d.drop (0 + preL.length + 1) = preH ++ tH :: p := by
    rw [← hd]
    have e : preL ++ [tL] ++ (preH ++ [tH]) ++ p = (preL ++ [tL]) ++ (preH ++ tH :: p) := by
      simp
    rw [e]
    apply List.drop_left'
    simp
  have hd2 : d.drop (0 + preL.length + 1 + preH.length + 1) = p := by
    rw [← hd]
    apply List.drop_left'
    simp
    omega
  have hne : ¬ d.length = 0 := by omega
  obtain ⟨f1, f2⟩ := header_fields (leval (preH ++ [tH]))
  have hrec : (NewSMC wm true).receiving = false := rfl
  unfold Recv
  simp only [hne, if_false, hrec, Bool.false_eq_true]
  generalize hs0 : ({ NewSMC wm true with receiving := true } : SMC) = s0
  have z1 : s0.state = 0 := by rw [← hs0]; rfl
  have z2 : s0.varint = 0 := by rw [← hs0]; rfl
  have z3 : s0.factor = 1 := by rw [← hs0]; rfl
  have z4 : s0.message = none := by rw [← hs0]; rfl
  have z5 : Live s0 := by rw [← hs0]; exact ⟨rfl, rfl⟩
  have z6 : s0.calls = [] := by rw [← hs0]; rfl
  have hfuel : 2 * d.length + 2 = (2 * d.length - 2) + 1 + 1 + 1 + 1 := by omega
  rw [hfuel, recvLoop_varint_step d _ s0 0 (by omega) (by rw [z1]; decide)]
  -- the length varint
  have e1 : (s0.varint + s0.factor * leval (preL ++ [tL])) % 2 ^ 64
      = leval (preL ++ [tL]) := by
    rw [z2, z3, Nat.zero_add, Nat.one_mul]; exact Nat.mod_eq_of_lt hL64
  have e1' : toInt ((s0.varint + s0.factor * leval (preL ++ [tL])) % 2 ^ 64)
      = ((preH.length + 1 + p.length : Nat) : Int) := by
    rw [e1, toInt_small _ hL63, hlen]
  have hrA := readVarint_length_eq s0 d 0 preL tL (preH ++ [tH] ++ p) hd0 hpL htL z1
    (by rw [z2]; norm_num) (by rw [z3]; norm_num) (by rw [e1']; clear e1 e1'; omega)
  rw [e1'] at hrA
  clear e1 e1'
  generalize readVarint s0 d 0 = rA at hrA ⊢
  have a1 : rA.1.state = 1 := by rw [hrA]
  have a2 : rA.1.length = ((preH.length + 1 + p.length : Nat) : Int) := by rw [hrA]
  have a3 : rA.1.varint = 0 := by rw [hrA]
  have a4 : rA.1.factor = 1 := by rw [hrA]
  have a5 : rA.1.consumed = 0 := by rw [hrA]
  have a6 : rA.1.message = none := by rw [hrA]; exact z4
  have a7 : Live rA.1 := by rw [hrA]; exact z5
  have a8 : rA.1.calls = [] := by rw [hrA]; exact z6
  have a9 : rA.2 = 0 + preL.length + 1 := by rw [hrA]
  rw [recvLoop_varint_step d _ rA.1 rA.2 (by rw [a9]; omega) (by rw [a1]; decide)]
  -- the header varint
  have hR : rA.1.length - (rA.1.consumed + preH.length + 1) = (p.length : Int) := by
    rw [a2, a5]; push_cast; ring
  have e2 : (rA.1.varint + rA.1.factor * leval (preH ++ [tH])) % 2 ^ 64
      = leval (preH ++ [tH]) := by
    rw [a3, a4, Nat.zero_add, Nat.one_mul]; exact Nat.mod_eq_of_lt hH64
  have hrB := readVarint_header_eq rA.1 d rA.2 preH tH p (by rw [a9]; exact hd1) hpH htH a1
    (by rw [a3]; norm_num) (by rw [a4]; norm_num) (by rw [hR]; omega) (by rw [hR]; omega)
  rw [hR, e2] at hrB
  clear e2
  generalize readVarint rA.1 d rA.2 = rB at hrB ⊢
  have b1 : rB.1.state = 2 := by rw [hrB]
  have b2 : rB.1.length = (p.length : Int) := by rw [hrB]
  have b3 : rB.1.message = none := by rw [hrB]; exact a6
  have b4 : Live rB.1 := by rw [hrB]; exact a7
  have b5 : messagesOf rB.1.calls = [] := by
    rw [hrB]
    simp only [a8, List.nil_append]
    split_ifs <;> rfl
  have b6 : rB.1.header = leval (preH ++ [tH]) := by rw [hrB]
  have b7 : rB.2 = 0 + preL.length + 1 + preH.length + 1 := by rw [hrB, a9]
  -- the payload
  have hrC := readMessage_borrow_eq rB.1 d rB.2 b4 b1 b3 (by rw [b2]; omega)
    (by rw [b2, b7, hdl]; push_cast; omega)
  have htake : (d.drop rB.2).take rB.1.length.toNat = p := by
    rw [b7, hd2, b2, Int.toNat_ofNat, List.take_length]
  have hoff : rB.2 + rB.1.length.toNat = d.length := by
    rw [b7, b2, Int.toNat_ofNat, hdl]; omega
  rw [htake, b6, f1, f2, hoff] at hrC
  by_cases hp : p.length = 0
  · -- empty payload: the loop is over and the message is emitted after it
    rw [recvLoop_exit d _ rB.1 rB.2 (by rw [b7, hdl]; omega)]
    have hb7 : rB.2 = d.length := by rw [b7, hdl]; omega
    rw [hb7] at hrC
    simp only [bind, Except.bind, recvEnd, b1, b2, hp, Nat.cast_zero, and_self, if_true, hrC,
      Except.map, b4.1, Bool.not_false]
    refine ⟨_, rfl, ?_⟩
    simp only [messagesOf_append, b5, messagesOf, List.nil_append]
  · rw [recvLoop_message_step d _ rB.1 rB.2 (by rw [b7, hdl]; omega) b1, hrC]
    simp only [bind, Except.bind]
    rw [recvLoop_exit d _ _ _ (lt_irrefl _)]
    have hnp : ¬ ((0 : Nat) = 2 ∧ rB.1.length = 0) := fun h => absurd h.1 (by decide)
    simp only [recvEnd, hnp, if_false, bind, Except.bind, b4.1, Bool.not_false]
    refine ⟨_, rfl, ?_⟩
    simp only [messagesOf_append, b5, messagesOf, List.nil_append]


theorem frame_semantics_witness :
    ∃ s', Recv (NewSMC false true) ([131] ++ [0] ++ ([129] ++ [0]) ++ [65]) = .ok (s', true) ∧
      messagesOf s'.calls
        = [(leval ([129] ++ [0]) / 16, leval ([129] ++ [0]) % 16, some [65])] :=
  frame_semantics [131] 0 [129] 0 [65] false (by decide) (by decide) (by decide) (by decide)
    (by decide) (by decide) (by decide) (by decide)

theorem next_calls_in (s : SMC) (c : List Nat) (off : Nat) (hoff : off ≤ c.length) :
    ∃ new, (next s c off).1.calls = s.calls ++ new ∧ ∀ e ∈ new, EventIn c e := by
  by_cases h1 : s.state = 1
  · by_cases hbad : wrapInt (s.length - s.consumed) < 0 ∨
        wrapInt (s.length - s.consumed) > defaultMaxSize
    · rw [next_state1_limit s c off h1 hbad]
      exact ⟨[], by simp, by simp⟩
    · rw [next_state1_eq s c off h1 (by omega) (by omega)]
      refine ⟨_, rfl, ?_⟩
      intro e he
      split_ifs at he
      · rw [List.mem_singleton] at he
        rw [he]
        trivial
      · simp at he
  · unfold next
    split
    · refine ⟨[], ?_, by simp⟩
      simp only []; split_ifs <;> simp
    · rename_i h; exact absurd h h1
    · simp only []
      split_ifs
      · exact ⟨_, rfl, by simp [EventIn, hoff]⟩
      · exact ⟨[], by simp, by simp⟩
    · exact ⟨[], by simp, by simp⟩

theorem next_message_other (s : SMC) (data : List Nat) (off : Nat) (h2 : s.state ≠ 2) :
    messagesOf (next s data off).1.calls = messagesOf s.calls := by
  unfold next
  split
  · simp only []; split_ifs <;> rfl
  · simp only [destroy]
    split_ifs <;> simp [messagesOf_append, messagesOf]
  · rename_i h; exact absurd h h2
  · rfl

theorem readVarintLoop_calls_in (c : List Nat) : ∀ (bs : List Nat) (s : SMC) (off : Nat),
    off + bs.length = c.length →
    ∃ new, (readVarintLoop c bs s off).1.calls = s.calls ++ new ∧ ∀ e ∈ new, EventIn c e := by
  intro bs
  induction bs with
  | nil =>
    intro s off _
    rw [readVarintLoop_nil]
    simp only [destroy]
    refine ⟨[], ?_, by simp⟩
    split_ifs <;> simp
  | cons b bs ih =>
    intro s off hlen
    rw [List.length_cons] at hlen
    rw [readVarintLoop]
    simp only []
    split_ifs
    · exact next_calls_in _ c (off + 1) (by omega)
    · exact next_calls_in _ c (off + 1) (by omega)
    · exact ih _ (off + 1) (by omega)

theorem readVarintLoop_message_other (d : List Nat) : ∀ (bs : List Nat) (s : SMC) (off : Nat),
    s.state ≠ 2 → messagesOf (readVarintLoop d bs s off).1.calls = messagesOf s.calls := by
  intro bs
  induction bs with
  | nil =>
    intro s off _
    rw [readVarintLoop_nil]
    simp only [destroy]
    split_ifs <;> rfl
  | cons b bs ih =>
    intro s off h1
    rw [readVarintLoop]
    simp only []
    split_ifs
    · exact next_message_other _ _ _ h1
    · exact next_message_other _ _ _ h1
    · exact ih _ _ h1

theorem readMessage_calls_in (s : SMC) (c : List Nat) (off : Nat) (r : SMC × Nat)
    (hr : readMessage s c off = .ok r) :
    (∃ new, r.1.calls = s.calls ++ new ∧ ∀ e ∈ new, EventIn c e) ∧ r.2 ≤ c.length := by
  rcases readMessage_cases s c off r hr with ⟨c1, c2, msg, c3⟩ | ⟨_, msg, c3⟩
  · have hle : off + s.length.toNat ≤ c.length := by omega
    rw [c3]
    unfold finishWith
    simp only []
    obtain ⟨new, e1, e2⟩ := next_calls_in { s with message := some msg } c
      (off + s.length.toNat) hle
    split_ifs
    · exact ⟨⟨new, e1, e2⟩, hle⟩
    · exact ⟨⟨new, e1, e2⟩, le_refl _⟩
  · rw [c3]
    exact ⟨⟨[], by simp, by simp⟩, le_refl _⟩

theorem recvLoop_calls_in (c : List Nat) : ∀ (fuel : Nat) (s : SMC) (off : Nat) (s' : SMC),
    off ≤ c.length → recvLoop c fuel s off = .ok s' →
    ∃ new, s'.calls = s.calls ++ new ∧ ∀ e ∈ new, EventIn c e := by
  intro fuel
  induction fuel with
  | zero => intro s off s' _ hr; simp [recvLoop] at hr
  | succ fuel ih =>
    intro s off s' hoff hr
    rw [recvLoop] at hr
    split_ifs at hr with h1 h2
    · simp only [bind, Except.bind] at hr
      split at hr
      · exact absurd hr (by simp)
      · rename_i r hrm
        obtain ⟨⟨n1, e1, e2⟩, e3⟩ := readMessage_calls_in s c off r hrm
        obtain ⟨n2, f1, f2⟩ := ih r.1 r.2 s' e3 hr
        refine ⟨n1 ++ n2, by rw [f1, e1, List.append_assoc], ?_⟩
        intro e he
        rcases List.mem_append.mp he with he | he
        · exact e2 e he
        · exact f2 e he
    · have hlen : off + (c.drop off).length = c.length := by
        rw [List.length_drop]; omega
      have hne : c.drop off ≠ [] := by
        intro h
        rw [h] at hlen
        simp at hlen
        omega
      obtain ⟨_, o2⟩ := readVarintLoop_offset c (c.drop off) s off hlen hne
      obtain ⟨n1, e1, e2⟩ := readVarintLoop_calls_in c (c.drop off) s off hlen
      obtain ⟨n2, f1, f2⟩ := ih _ _ s' o2 hr
      refine ⟨n1 ++ n2, ?_, ?_⟩
      · rw [f1]
        unfold readVarint
        rw [e1, List.append_assoc]
      · intro e he
        rcases List.mem_append.mp he with he | he
        · exact e2 e he
        · exact f2 e he
    · injection hr with hr
      rw [← hr]
      exact ⟨[], by simp, by simp⟩

theorem Recv_calls_in (s : SMC) (c : List Nat) (s' : SMC) (b : Bool)
    (hr : Recv s c = .ok (s', b)) :
    ∃ new, s'.calls = s.calls ++ new ∧ ∀ e ∈ new, EventIn c e := by
  unfold Recv at hr
  simp only [bind, Except.bind] at hr
  split_ifs at hr
  · injection hr with hr
    injection hr with hr1 _
    rw [← hr1]
    exact ⟨[], by simp, by simp⟩
  · split at hr
    · exact absurd hr (by simp)
    · rename_i s1 hs1
      obtain ⟨n1, e1, e2⟩ := recvLoop_calls_in c _ _ 0 s1 (Nat.zero_le _) hs1
      simp only [] at e1
      unfold recvEnd at hr
      simp only [bind, Except.bind, Except.map] at hr
      split at hr
      · exact absurd hr (by simp)
      · rename_i s2 hs2
        injection hr with hr
        injection hr with hr1 _
        rw [← hr1]
        simp only []
        split_ifs at hs2
        · split at hs2
          · exact absurd hs2 (by simp)
          · rename_i r hrm
            injection hs2 with hs2
            obtain ⟨⟨n2, f1, f2⟩, _⟩ := readMessage_calls_in s1 c c.length r hrm
            refine ⟨n1 ++ n2, by rw [← hs2, f1, e1, List.append_assoc], ?_⟩
            intro e he
            rcases List.mem_append.mp he with he | he
            · exact e2 e he
            · exact f2 e he
        · injection hs2 with hs2
          rw [← hs2]
          exact ⟨n1, e1, e2⟩

theorem drop_take_window (c : List Nat) (off n : Nat) :
    (c.take (off + n)).drop off = (c.drop off).take n := by
  rw [List.drop_take, Nat.add_sub_cancel_left]

/-- What `readMessage` passes to the message handler. -/
theorem readMessage_event (s : SMC) (c : List Nat) (off : Nat) (r : SMC × Nat)
    (h2 : s.state = 2) (hon : s.onmessage = true) (hr : readMessage s c off = .ok r) :
    (r.1.calls = s.calls ∧ (c.length : Int) - (off : Int) < s.length ∧ r.2 = c.length) ∨
    (∃ pl, r.1.calls = s.calls ++
        [Event.message (s.header >>> 4) ((s.header &&& 0b1111) % 256) (some pl) c
          (off + s.length.toNat)] ∧
      0 ≤ s.length ∧ off + s.length.toNat ≤ c.length ∧
      pl.drop (pl.length - s.length.toNat) = (c.take (off + s.length.toNat)).drop off ∧
      (s.message = none → pl = (c.take (off + s.length.toNat)).drop off) ∧
      (s.destroyed = false → r.2 = off + s.length.toNat)) := by
  have hfin : ∀ msg : List Nat, (finishWith s msg c off).1.calls = s.calls ++
        [Event.message (s.header >>> 4) ((s.header &&& 0b1111) % 256) (some msg) c
          (off + s.length.toNat)] ∧
      (s.destroyed = false → (finishWith s msg c off).2 = off + s.length.toNat) := by
    intro msg
    unfold finishWith next
    simp only [h2, hon, if_true]
    constructor
    · split_ifs <;> rfl
    · intro hd
      simp only [hd, Bool.not_false, if_true]
  by_cases hf : (c.length : Int) - (off : Int) ≥ s.length
  · right
    cases hm : s.message with
    | none =>
      by_cases hn : s.length < 0
      · exfalso
        unfold readMessage at hr
        simp only [hf, if_true, hm, hn, bind, Except.bind] at hr
        exact absurd hr (by simp)
      · rw [readMessage_borrow s c off hm (by omega) hf] at hr
        injection hr with hr
        obtain ⟨e1, e2⟩ := hfin ((c.drop off).take s.length.toNat)
        rw [hr] at e1 e2
        have hw := drop_take_window c off s.length.toNat
        refine ⟨_, e1, by omega, by omega, ?_, fun _ => hw.symm, e2⟩
        rw [hw]
        have hl : ((c.drop off).take s.length.toNat).length = s.length.toNat := by
          rw [List.length_take, List.length_drop]; omega
        rw [hl, Nat.sub_self, List.drop_zero]
    | some buf =>
      by_cases hp : ((buf.length : Int) - s.length < 0 ∨
          (buf.length : Int) - s.length > (buf.length : Int))
      · exfalso
        unfold readMessage copyTail at hr
        simp only [hf, if_true, hm, hp, bind, Except.bind, Except.map] at hr
        exact absurd hr (by simp)
      · rw [readMessage_finish s c off buf hm (by omega) (by omega) hf] at hr
        injection hr with hr
        obtain ⟨e1, e2⟩ := hfin (copyAt buf ((buf.length : Int) - s.length).toNat (c.drop off))
        rw [hr] at e1 e2
        refine ⟨_, e1, by omega, by omega, ?_, fun h => absurd h (by simp), e2⟩
        have hlow : ((buf.length : Int) - s.length).toNat = buf.length - s.length.toNat := by
          omega
        have hle : s.length.toNat ≤ buf.length := by omega
        rw [hlow, copyAt_tail buf (c.drop off) (buf.length - s.length.toNat) (by omega)
          (by rw [List.length_drop]; omega)]
        have e3 : buf.length - (buf.length - s.length.toNat) = s.length.toNat := by omega
        rw [e3, drop_take_window]
        have hl1 : (buf.take (buf.length - s.length.toNat)).length
            = buf.length - s.length.toNat := by
          rw [List.length_take]; omega
        have hl2 : ((c.drop off).take s.length.toNat).length = s.length.toNat := by
          rw [List.length_take, List.length_drop]; omega
        rw [List.length_append, hl1, hl2]
        have e4 : buf.length - s.length.toNat + s.length.toNat - s.length.toNat
            = (buf.take (buf.length - s.length.toNat)).length := by
          rw [hl1]; omega
        rw [e4, List.drop_left]
  · left
    rcases readMessage_cases s c off r hr with ⟨c1, _, _, _⟩ | ⟨c1, msg, c3⟩
    · exact absurd c1 hf
    · rw [c3]
      exact ⟨rfl, c1, rfl⟩

theorem readVarint_passes (d : List Nat) (s : SMC) (off : Nat) (h2 : s.state ≠ 2)
    (hoff : off < d.length) :
    passes d (readVarint s d off).1 (readVarint s d off).2 < passes d s off ∧
    (readVarint s d off).2 ≤ d.length := by
  have hlen : off + (d.drop off).length = d.length := by
    rw [List.length_drop]; omega
  have hne : d.drop off ≠ [] := by
    intro h
    rw [h] at hlen
    simp at hlen
    omega
  obtain ⟨o1, o2⟩ := readVarintLoop_offset d (d.drop off) s off hlen hne
  refine ⟨?_, o2⟩
  unfold passes readVarint
  rw [if_neg h2]
  split_ifs <;> omega

theorem readMessage_passes (d : List Nat) (s : SMC) (off : Nat) (r : SMC × Nat)
    (h2 : s.state = 2) (hoff : off < d.length) (hr : readMessage s d off = .ok r) :
    passes d r.1 r.2 < passes d s off ∧ r.2 ≤ d.length := by
  rcases readMessage_cases s d off r hr with ⟨c1, c2, msg, c3⟩ | ⟨c1, msg, c3⟩
  · obtain ⟨f1, f2⟩ := finishWith_state2 s msg d off h2
    rw [← c3] at f1 f2
    have e0 : ¬ ((0 : Nat) = 2) := by decide
    unfold passes
    rw [if_pos h2, f1, if_neg e0]
    rcases f2 with f2 | f2 <;> constructor <;> omega
  · rw [c3]
    unfold passes
    simp only [h2, if_true]
    constructor <;> omega

theorem InBounds_message_none (s : SMC) (hb : InBounds s) (h2 : s.state ≠ 2) :
    s.message = none := by
  cases hm : s.message with
  | none => rfl
  | some buf => exact absurd (hb.2.2 buf hm).1 h2

theorem next_state0_fields (s : SMC) (c : List Nat) (off : Nat) (h0 : s.state = 0) :
    (next s c off).2 = true ∧ (next s c off).1.state ≤ 1 ∧
    (next s c off).1.message = s.message ∧ (next s c off).1.destroyed = s.destroyed := by
  unfold next
  rw [h0]
  simp only []
  split_ifs <;> simp

theorem next_state1_fields (s : SMC) (c : List Nat) (off : Nat) (h1 : s.state = 1) :
    ((next s c off).2 = true ∧ (next s c off).1.state = 2 ∧
      0 ≤ (next s c off).1.length ∧ (next s c off).1.length ≤ defaultMaxSize ∧
      (next s c off).1.message = s.message ∧ (next s c off).1.destroyed = s.destroyed) ∨
    ((next s c off).2 = false ∧ (next s c off).1.destroyed = true ∧
      (next s c off).1.length ≠ 0) := by
  by_cases hbad : wrapInt (s.length - s.consumed) < 0 ∨
      wrapInt (s.length - s.consumed) > defaultMaxSize
  · right
    rw [next_state1_limit s c off h1 hbad]
    refine ⟨rfl, rfl, ?_⟩
    dsimp only
    unfold defaultMaxSize at hbad
    omega
  · left
    rw [next_state1_eq s c off h1 (by omega) (by omega)]
    dsimp only
    refine ⟨rfl, rfl, by omega, by omega, rfl, rfl⟩

/-- From a live decoder outside state 2 with no buffer, `next` either keeps the
decoder live and in bounds, or destroys it and reports it, leaving nothing pending. -/
theorem next_inbounds (s : SMC) (c : List Nat) (off : Nat) (h2 : s.state ≠ 2)
    (hle : s.state ≤ 2) (hm : s.message = none) (hl : s.destroyed = false) :
    ((next s c off).2 = true ∧ (next s c off).1.destroyed = false ∧
      InBounds (next s c off).1) ∨
    ((next s c off).2 = false ∧ (next s c off).1.destroyed = true ∧
      ¬ ((next s c off).1.state = 2 ∧ (next s c off).1.length = 0)) := by
  have hst : s.state = 0 ∨ s.state = 1 := by omega
  rcases hst with h0 | h1
  · left
    obtain ⟨e1, e2, e3, e4⟩ := next_state0_fields s c off h0
    refine ⟨e1, by rw [e4]; exact hl, by omega, fun h => by omega, ?_⟩
    intro buf hbuf
    rw [e3, hm] at hbuf
    exact absurd hbuf (by simp)
  · rcases next_state1_fields s c off h1 with ⟨e1, e2, e3, e4, e5, e6⟩ | ⟨e1, e2, e3⟩
    · left
      refine ⟨e1, by rw [e6]; exact hl, by omega, fun _ => ⟨e3, e4⟩, ?_⟩
      intro buf hbuf
      rw [e5, hm] at hbuf
      exact absurd hbuf (by simp)
    · right
      exact ⟨e1, e2, fun h => e3 h.2⟩
theorem readVarintLoop_inbounds (c : List Nat) : ∀ (bs : List Nat) (s : SMC) (off : Nat),
    s.state ≠ 2 → s.state ≤ 2 → s.message = none → s.destroyed = false →
    ((readVarintLoop c bs s off).1.destroyed = false ∧
      InBounds (readVarintLoop c bs s off).1) ∨
    ((readVarintLoop c bs s off).1.destroyed = true ∧
      (readVarintLoop c bs s off).2 = c.length ∧
      ¬ ((readVarintLoop c bs s off).1.state = 2 ∧
          (readVarintLoop c bs s off).1.length = 0)) := by
  intro bs
  induction bs with
  | nil =>
    intro s off h2 hle hm hl
    rw [readVarintLoop_nil]
    by_cases hc : s.consumed ≥ 9
    · right
      simp only [hc, if_true, destroy]
      exact ⟨trivial, trivial, fun h => h2 h.1⟩
    · left
      simp only [hc, if_false]
      refine ⟨hl, hle, fun h => absurd h h2, ?_⟩
      intro buf hbuf
      rw [hm] at hbuf
      exact absurd hbuf (by simp)
  | cons b bs ih =>
    intro s off h2 hle hm hl
    rw [readVarintLoop]
    simp only []
    by_cases hb : b < 128
    · simp only [hb, if_true]
      rcases next_inbounds
          { s with varint := (s.varint + ((b &&& 127) * s.factor) % 2 ^ 64) % 2 ^ 64,
                   consumed := s.consumed + 1 } c (off + 1) h2 hle hm hl
        with ⟨e1, e2, e3⟩ | ⟨e1, e2, e3⟩
      · left
        simp only [e1, if_true]
        exact ⟨e2, e3⟩
      · right
        simp only [e1, Bool.false_eq_true, if_false]
        exact ⟨e2, trivial, e3⟩
    · simp only [hb, if_false]
      exact ih _ (off + 1) h2 hle hm hl

theorem readVarint_inbounds (s : SMC) (c : List Nat) (off : Nat) (h2 : s.state ≠ 2)
    (hb : InBounds s) (hl : s.destroyed = false) :
    ((readVarint s c off).1.destroyed = false ∧ InBounds (readVarint s c off).1) ∨
    ((readVarint s c off).1.destroyed = true ∧ (readVarint s c off).2 = c.length ∧
      ¬ ((readVarint s c off).1.state = 2 ∧ (readVarint s c off).1.length = 0)) :=
  readVarintLoop_inbounds c (c.drop off) s off h2 hb.1 (InBounds_message_none s hb h2) hl

theorem finishWith_fields (s : SMC) (msg d : List Nat) (off : Nat) (h2 : s.state = 2)
    (hl : s.destroyed = false) :
    (finishWith s msg d off).1.state = 0 ∧ (finishWith s msg d off).1.message = none ∧
    (finishWith s msg d off).1.destroyed = false := by
  unfold finishWith next
  simp only [h2]
  split_ifs <;> simp [hl]

theorem finishWith_inbounds (s : SMC) (msg d : List Nat) (off : Nat) (h2 : s.state = 2)
    (hl : s.destroyed = false) :
    (finishWith s msg d off).1.destroyed = false ∧ InBounds (finishWith s msg d off).1 := by
  obtain ⟨e1, e2, e3⟩ := finishWith_fields s msg d off h2 hl
  refine ⟨e3, by omega, fun h => by omega, ?_⟩
  intro buf hbuf
  rw [e2] at hbuf
  exact absurd hbuf (by simp)

/-- From a live, in-bounds decoder in state 2, `readMessage` does not panic and
leaves the decoder live and in bounds. -/
theorem readMessage_inbounds (s : SMC) (c : List Nat) (off : Nat) (h2 : s.state = 2)
    (hb : InBounds s) (hl : s.destroyed = false) (hoff : off ≤ c.length) :
    ∃ r, readMessage s c off = .ok r ∧ r.1.destroyed = false ∧ InBounds r.1 := by
  obtain ⟨b1, b2, b3⟩ := hb
  obtain ⟨l0, l1⟩ := b2 h2
  unfold defaultMaxSize at l1
  by_cases hf : (c.length : Int) - (off : Int) ≥ s.length
  · cases hm : s.message with
    | none =>
      rw [readMessage_borrow s c off hm l0 hf]
      exact ⟨_, rfl, finishWith_inbounds s _ c off h2 hl⟩
    | some buf =>
      obtain ⟨_, p1, p2⟩ := b3 buf hm
      rw [readMessage_finish s c off buf hm l0 p2 hf]
      exact ⟨_, rfl, finishWith_inbounds s _ c off h2 hl⟩
  · have hf' : (c.length : Int) - (off : Int) < s.length := by omega
    have hw : wrapInt (s.length - ((c.length : Int) - (off : Int)))
        = s.length - ((c.length : Int) - (off : Int)) :=
      wrapInt_id _ (by omega) (by omega)
    have hdl : (c.drop off).length = c.length - off := List.length_drop off c
    cases hm : s.message with
    | none =>
      rw [readMessage_alloc s c off hm hf' hoff, hw]
      refine ⟨_, rfl, ?_, ?_, ?_, ?_⟩
      · dsimp only
        exact hl
      · dsimp only
        exact b1
      · intro _
        dsimp only
        unfold defaultMaxSize
        constructor <;> omega
      · intro buf hbuf
        dsimp only at hbuf ⊢
        injection hbuf with hbuf
        have hlen : buf.length = s.length.toNat := by
          rw [← hbuf, copyAt_fit_length _ _ 0
            (by rw [List.length_replicate, hdl]; omega), List.length_replicate]
        refine ⟨h2, by omega, ?_⟩
        rw [hlen]
        omega
    | some buf =>
      obtain ⟨_, p1, p2⟩ := b3 buf hm
      rw [readMessage_more s c off buf hm l0 p2 hf', hw]
      refine ⟨_, rfl, ?_, ?_, ?_, ?_⟩
      · dsimp only
        exact hl
      · dsimp only
        exact b1
      · intro _
        dsimp only
        unfold defaultMaxSize
        constructor <;> omega
      · intro buf2 hbuf
        dsimp only at hbuf ⊢
        injection hbuf with hbuf
        have hlen : buf2.length = buf.length := by
          rw [← hbuf, copyAt_fit_length _ _ _ (by rw [hdl]; omega)]
        refine ⟨h2, by omega, ?_⟩
        rw [hlen]
        omega

/-- The loop of `Recv`, started on a live in-bounds decoder with enough fuel,
returns; its result is live and in bounds, or destroyed with nothing pending. -/
theorem recvLoop_inbounds (c : List Nat) : ∀ (fuel : Nat) (s : SMC) (off : Nat),
    off ≤ c.length → passes c s off < fuel → InBounds s → s.destroyed = false →
    ∃ s', recvLoop c fuel s off = .ok s' ∧
      ((s'.destroyed = false ∧ InBounds s') ∨
       (s'.destroyed = true ∧ ¬ (s'.state = 2 ∧ s'.length = 0))) := by
  intro fuel
  induction fuel with
  | zero => intro s off _ hp; omega
  | succ fuel ih =>
    intro s off hoff hp hb hl
    by_cases h : off < c.length
    · by_cases h2 : s.state = 2
      · obtain ⟨r, hr, r1, r2⟩ := readMessage_inbounds s c off h2 hb hl hoff
        obtain ⟨p1, p2⟩ := readMessage_passes c s off r h2 h hr
        rw [recvLoop_message_step c fuel s off h h2, hr]
        simp only [bind, Except.bind]
        exact ih r.1 r.2 p2 (by omega) r2 r1
      · obtain ⟨p1, p2⟩ := readVarint_passes c s off h2 h
        rw [recvLoop_varint_step c fuel s off h h2]
        rcases readVarint_inbounds s c off h2 hb hl with ⟨e1, e2⟩ | ⟨e1, e2, e3⟩
        · exact ih _ _ p2 (by omega) e2 e1
        · have hp2 : 2 ≤ passes c s off := by
            unfold passes
            omega
          cases fuel with
          | zero => omega
          | succ f =>
            rw [e2, recvLoop_exit c f _ c.length (by omega)]
            exact ⟨_, rfl, Or.inr ⟨e1, e3⟩⟩
    · rw [recvLoop_exit c fuel s off h]
      exact ⟨s, rfl, Or.inl ⟨hl, hb⟩⟩

theorem recvEnd_inbounds (s : SMC) (c : List Nat)
    (h : (s.destroyed = false ∧ InBounds s) ∨
         (s.destroyed = true ∧ ¬ (s.state = 2 ∧ s.length = 0))) :
    ∃ s' b, recvEnd s c = .ok (s', b) ∧ s'.receiving = false ∧
      (s'.destroyed = false → InBounds s') := by
  unfold recvEnd
  by_cases hp : s.state = 2 ∧ s.length = 0
  · rcases h with ⟨hl, hb⟩ | ⟨_, hn⟩
    · obtain ⟨r, hr, r1, r2⟩ := readMessage_inbounds s c c.length hp.1 hb hl (Nat.le_refl _)
      simp only [hp, and_self, if_true, hr, Except.map, bind, Except.bind]
      exact ⟨_, _, rfl, rfl, fun _ => r2⟩
    · exact absurd hp hn
  · simp only [hp, if_false, bind, Except.bind]
    refine ⟨_, _, rfl, rfl, ?_⟩
    intro hd
    rcases h with ⟨_, hb⟩ | ⟨hd2, _⟩
    · exact hb
    · have hd' : s.destroyed = false := hd
      rw [hd2] at hd'
      exact absurd hd' (by simp)

/-- From a live, in-bounds decoder that is not receiving, `Recv` returns normally
on every chunk, and a live result is in bounds again. -/
theorem Recv_inbounds (s : SMC) (c : List Nat) (hb : InBounds s) (hl : s.destroyed = false)
    (hrec : s.receiving = false) :
    ∃ s' b, Recv s c = .ok (s', b) ∧ s'.receiving = false ∧
      (s'.destroyed = false → InBounds s') := by
  unfold Recv
  by_cases h0 : c.length = 0
  · simp only [h0, if_true]
    exact ⟨s, _, rfl, hrec, fun _ => hb⟩
  · have hpass : passes c { s with receiving := true } 0 < 2 * c.length + 2 := by
      unfold passes
      split_ifs <;> omega
    obtain ⟨s1, hs1, hcase⟩ := recvLoop_inbounds c (2 * c.length + 2)
      { s with receiving := true } 0 (Nat.zero_le _) hpass hb hl
    simp only [h0, if_false, hrec, Bool.false_eq_true, hs1, bind, Except.bind]
    exact recvEnd_inbounds s1 c hcase

theorem Recv_receiving (s : SMC) (d : List Nat) (s' : SMC) (b : Bool)
    (hr : Recv s d = .ok (s', b)) (hrec : s.receiving = false) : s'.receiving = false := by
  unfold Recv at hr
  simp only [bind, Except.bind] at hr
  split_ifs at hr with h1 h2
  · injection hr with hr
    injection hr with hr1 hr2
    rw [← hr1]
    exact hrec
  · split at hr
    · exact absurd hr (by simp)
    · exact recvEnd_receiving _ d s' b hr

theorem feed_inbounds : ∀ (chunks : List (List Nat)) (s s' : SMC) (rs : List Bool),
    feed s chunks = .ok (s', rs) → (s.destroyed = false → InBounds s) →
    s.receiving = false →
    s'.receiving = false ∧ (s'.destroyed = false → InBounds s') := by
  intro chunks
  induction chunks with
  | nil =>
    intro s s' rs hr hb hrec
    rw [feed] at hr
    injection hr with hr
    injection hr with hr1 hr2
    rw [← hr1]
    exact ⟨hrec, hb⟩
  | cons c cs ih =>
    intro s s' rs hr hb hrec
    rw [feed] at hr
    simp only [bind, Except.bind] at hr
    split at hr
    · exact absurd hr (by simp)
    · rename_i r1 hr1
      split at hr
      · exact absurd hr (by simp)
      · rename_i r2 hr2
        injection hr with hr
        injection hr with hr3 hr4
        rw [← hr3]
        have hrec1 : r1.1.receiving = false := Recv_receiving s c r1.1 r1.2 hr1 hrec
        refine ih r1.1 r2.1 r2.2 hr2 ?_ hrec1
        intro hl1
        by_cases hl : s.destroyed = false
        · obtain ⟨s1, b1, e1, _, e3⟩ := Recv_inbounds s c (hb hl) hl hrec
          rw [e1] at hr1
          injection hr1 with hr1
          rw [← hr1] at hl1 ⊢
          exact e3 hl1
        · have hd : s.destroyed = true := by
            cases hs : s.destroyed with
            | false => exact absurd hs hl
            | true => rfl
          have := (Recv_result s c r1.1 r1.2 hr1).2 hd
          rw [this] at hl1
          exact absurd hl1 (by simp)

theorem NewSMC_inbounds (wa wb : Bool) : InBounds (NewSMC wa wb) :=
  ⟨Nat.zero_le 2, fun h => absurd h (by simp [NewSMC]),
   fun buf h => absurd h (by simp [NewSMC])⟩

theorem readMessage_alloc_buffer (s : SMC) (c : List Nat) (off : Nat) (hoff : off ≤ c.length)
    (hm : s.message = none)
    (hfree : (c.length : Int) - (off : Int) < s.length) :
    readMessage s c off
      = .ok ({ s with
                message := some (c.drop off ++
                  List.replicate (s.length.toNat - (c.length - off)) 0),
                length := wrapInt (s.length - ((c.length : Int) - (off : Int))) },
             c.length) := by
  rw [readMessage_alloc s c off hm hfree hoff]
  have hdl : (c.drop off).length = c.length - off := List.length_drop off c
  rw [copyAt_fit _ _ 0 (by rw [List.length_replicate, hdl]; omega)]
  simp only [List.take_zero, List.nil_append, Nat.zero_add, List.drop_replicate, hdl]

theorem readMessage_more_buffer (s : SMC) (c : List Nat) (off : Nat) (buf : List Nat)
    (hm : s.message = some buf) (h0 : 0 ≤ s.length) (hb : s.length ≤ (buf.length : Int))
    (hfree : (c.length : Int) - (off : Int) < s.length) (hoff : off ≤ c.length) :
    readMessage s c off
      = .ok ({ s with
                message := some (buf.take (buf.length - s.length.toNat) ++ c.drop off ++
                  buf.drop (buf.length - s.length.toNat + (c.length - off))),
                length := wrapInt (s.length - ((c.length : Int) - (off : Int))) },
             c.length) := by
  rw [readMessage_more s c off buf hm h0 hb hfree]
  have hdl : (c.drop off).length = c.length - off := List.length_drop off c
  have hlow : ((buf.length : Int) - s.length).toNat = buf.length - s.length.toNat := by
    omega
  rw [hlow, copyAt_fit _ _ _ (by rw [hdl]; omega), hdl]

theorem readMessage_finish_buffer (s : SMC) (c : List Nat) (off : Nat) (buf : List Nat)
    (hm : s.message = some buf) (h0 : 0 ≤ s.length) (hb : s.length ≤ (buf.length : Int))
    (hfree : (c.length : Int) - (off : Int) ≥ s.length) :
    readMessage s c off
      = .ok (finishWith s (buf.take (buf.length - s.length.toNat) ++
          (c.drop off).take s.length.toNat) c off) := by
  rw [readMessage_finish s c off buf hm h0 hb hfree]
  have hlow : ((buf.length : Int) - s.length).toNat = buf.length - s.length.toNat := by
    omega
  rw [hlow, copyAt_tail buf (c.drop off) (buf.length - s.length.toNat) (by omega)
    (by rw [List.length_drop]; omega)]
  have e3 : buf.length - (buf.length - s.length.toNat) = s.length.toNat := by omega
  rw [e3]

/-- C20: body accumulation is in bounds on a live decoder. `InBounds` says: the
state is 0, 1 or 2; in state 2 the remaining length is between 0 and 8388608; an
owned buffer exists only in state 2, with 0 < length <= len(message). A fresh
decoder is in bounds, and every live state reached by feeding chunks to it is. From
a live in-bounds decoder `Recv` returns normally on every chunk (no slice or index
goes out of range) and a live result is in bounds again; the same holds for each
pass of its loop (`readMessage` in state 2, `readVarint` otherwise). On a short
chunk `readMessage` allocates the buffer with the full remaining length and the
chunk bytes in front, or, when the buffer exists, keeps its size and its first
`len(message) - length` bytes and writes the chunk bytes right after them; on the
completing chunk the payload is those first bytes followed by the last `length`
bytes taken from the chunk. -/
theorem body_in_bounds (s : SMC) (c : List Nat) (hb : InBounds s)
    (hl : s.destroyed = false) (hrec : s.receiving = false) :
    (∃ s' b, Recv s c = .ok (s', b) ∧ s'.receiving = false ∧
      (s'.destroyed = false → InBounds s')) ∧
    (∀ off, off ≤ c.length → s.state = 2 →
      ∃ r, readMessage s c off = .ok r ∧ r.1.destroyed = false ∧ InBounds r.1) ∧
    (∀ off, s.state ≠ 2 → (readVarint s c off).1.destroyed = false →
      InBounds (readVarint s c off).1) ∧
    (∀ (wa wb : Bool) (chunks : List (List Nat)) (sf : SMC) (rs : List Bool),
      InBounds (NewSMC wa wb) ∧
      (feed (NewSMC wa wb) chunks = .ok (sf, rs) → sf.destroyed = false →
        InBounds sf ∧ sf.receiving = false)) ∧
    (∀ off, off ≤ c.length → s.state = 2 → s.message = none →
      (c.length : Int) - (off : Int) < s.length →
      readMessage s c off
        = .ok ({ s with
                  message := some (c.drop off ++
                    List.replicate (s.length.toNat - (c.length - off)) 0),
                  length := s.length - ((c.length : Int) - (off : Int)) },
               c.length)) ∧
    (∀ off buf, off ≤ c.length → s.state = 2 → s.message = some buf →
      (c.length : Int) - (off : Int) < s.length →
      readMessage s c off
        = .ok ({ s with
                  message := some (buf.take (buf.length - s.length.toNat) ++ c.drop off ++
                    buf.drop (buf.length - s.length.toNat + (c.length - off))),
                  length := s.length - ((c.length : Int) - (off : Int)) },
               c.length)) ∧
    (∀ (off : Nat) (buf : List Nat), s.state = 2 → s.message = some buf →
      (c.length : Int) - (off : Int) ≥ s.length →
      readMessage s c off
        = .ok (finishWith s (buf.take (buf.length - s.length.toNat) ++
            (c.drop off).take s.length.toNat) c off)) := by
  have hw : ∀ off : Nat, off ≤ c.length → s.state = 2 →
      (c.length : Int) - (off : Int) < s.length →
      wrapInt (s.length - ((c.length : Int) - (off : Int)))
        = s.length - ((c.length : Int) - (off : Int)) := by
    intro off hoff h2 hf
    have l1 := (hb.2.1 h2).2
    unfold defaultMaxSize at l1
    exact wrapInt_id _ (by omega) (by omega)
  refine ⟨Recv_inbounds s c hb hl hrec, ?_, ?_, ?_, ?_, ?_, ?_⟩
  · intro off hoff h2
    exact readMessage_inbounds s c off h2 hb hl hoff
  · intro off h2 hlive
    rcases readVarint_inbounds s c off h2 hb hl with ⟨_, e2⟩ | ⟨e1, _, _⟩
    · exact e2
    · rw [e1] at hlive
      exact absurd hlive (by simp)
  · intro wa wb chunks sf rs
    refine ⟨NewSMC_inbounds wa wb, ?_⟩
    intro hf hlive
    obtain ⟨e1, e2⟩ := feed_inbounds chunks (NewSMC wa wb) sf rs hf
      (fun _ => NewSMC_inbounds wa wb) rfl
    exact ⟨e2 hlive, e1⟩
  · intro off hoff h2 hm hf
    rw [readMessage_alloc_buffer s c off hoff hm hf, hw off hoff h2 hf]
  · intro off buf hoff h2 hm hf
    obtain ⟨_, p1, p2⟩ := hb.2.2 buf hm
    rw [readMessage_more_buffer s c off buf hm (by omega) p2 hf hoff, hw off hoff h2 hf]
  · intro off buf h2 hm hf
    obtain ⟨_, p1, p2⟩ := hb.2.2 buf hm
    exact readMessage_finish_buffer s c off buf hm (by omega) p2 hf

theorem body_in_bounds_witness :
    InBounds { state := 2, factor := 1, varint := 0, header := 1, message := some [104, 0, 0],
               destroyed := false, receiving := false, length := 2, consumed := 0,
               err := none, onmissing := false, onmessage := true, calls := [] } ∧
    readMessage { state := 2, factor := 1, varint := 0, header := 1,
                  message := some [104, 0, 0], destroyed := false, receiving := false,
                  length := 2, consumed := 0, err := none, onmissing := false,
                  onmessage := true, calls := [] } [105] 0
      = .ok ({ state := 2, factor := 1, varint := 0, header := 1,
               message := some [104, 105, 0], destroyed := false, receiving := false,
               length := 1, consumed := 0, err := none, onmissing := false,
               onmessage := true, calls := [] }, 1) :=
  have hb : InBounds { state := 2, factor := 1, varint := 0, header := 1,
                       message := some [104, 0, 0], destroyed := false, receiving := false,
                       length := 2, consumed := 0, err := none, onmissing := false,
                       onmessage := true, calls := [] } :=
    ⟨Nat.le_refl 2, fun _ => ⟨by decide, by decide⟩,
     fun buf h => by
       injection h with h
       rw [← h]
       exact ⟨rfl, by decide, by decide⟩⟩
  ⟨hb, (body_in_bounds _ [105] hb rfl rfl).2.2.2.2.2.1 0 [104, 0, 0] (Nat.zero_le _) rfl rfl
    (by decide)⟩

/-- C19: chunk boundaries matter at this input. The bytes `0x80` nine times, then
`0x00 0x02 0x01 0x41`, fed as one chunk leave a fresh decoder live with no stored
error after one message; the same bytes cut after the ninth byte destroy the
decoder with `ErrInvalidVarint` (the message is still delivered). The shorter
input `0x80` nine times, then `0x00`, shows the same without any message. -/
theorem chunk_split_changes_outcome :
    (∃ s1, feed (NewSMC false true) [List.replicate 9 128 ++ [0, 2, 1, 65]]
        = .ok (s1, [true]) ∧
      s1.destroyed = false ∧ s1.err = none ∧ messagesOf s1.calls = [(0, 1, some [65])]) ∧
    (∃ s2, feed (NewSMC false true) [List.replicate 9 128, [0, 2, 1, 65]]
        = .ok (s2, [false, false]) ∧
      s2.destroyed = true ∧ s2.err = some Err.ErrInvalidVarint ∧
      messagesOf s2.calls = [(0, 1, some [65])]) ∧
    (∃ s1, feed (NewSMC false true) [List.replicate 9 128 ++ [0]] = .ok (s1, [true]) ∧
      s1.destroyed = false ∧ s1.err = none) ∧
    (∃ s2, feed (NewSMC false true) [List.replicate 9 128, [0]] = .ok (s2, [false, false]) ∧
      s2.destroyed = true ∧ s2.err = some Err.ErrInvalidVarint) :=
  ⟨⟨_, rfl, rfl, rfl, rfl⟩, ⟨_, rfl, rfl, rfl, rfl⟩, ⟨_, rfl, rfl, rfl⟩, ⟨_, rfl, rfl, rfl⟩⟩

theorem erase_fields (s1 s2 : SMC) (h : erase s1 = erase s2) :
    s1.state = s2.state ∧ s1.factor = s2.factor ∧ s1.varint = s2.varint ∧
    s1.header = s2.header ∧ s1.message = s2.message ∧ s1.destroyed = s2.destroyed ∧
    s1.receiving = s2.receiving ∧ s1.length = s2.length ∧ s1.consumed = s2.consumed ∧
    s1.err = s2.err ∧ s1.onmissing = s2.onmissing ∧ s1.onmessage = s2.onmessage ∧
    s1.calls.map eraseEvent = s2.calls.map eraseEvent := by
  have e1 : (erase s1).state = (erase s2).state := by rw [h]
  have e2 : (erase s1).factor = (erase s2).factor := by rw [h]
  have e3 : (erase s1).varint = (erase s2).varint := by rw [h]
  have e4 : (erase s1).header = (erase s2).header := by rw [h]
  have e5 : (erase s1).message = (erase s2).message := by rw [h]
  have e6 : (erase s1).destroyed = (erase s2).destroyed := by rw [h]
  have e7 : (erase s1).receiving = (erase s2).receiving := by rw [h]
  have e8 : (erase s1).length = (erase s2).length := by rw [h]
  have e9 : (erase s1).consumed = (erase s2).consumed := by rw [h]
  have e10 : (erase s1).err = (erase s2).err := by rw [h]
  have e11 : (erase s1).onmissing = (erase s2).onmissing := by rw [h]
  have e12 : (erase s1).onmessage = (erase s2).onmessage := by rw [h]
  have e13 : (erase s1).calls = (erase s2).calls := by rw [h]
  exact ⟨e1, e2, e3, e4, e5, e6, e7, e8, e9, e10, e11, e12, e13⟩

theorem erase_of_fields (s1 s2 : SMC)
    (h : s1.state = s2.state ∧ s1.factor = s2.factor ∧ s1.varint = s2.varint ∧
    s1.header = s2.header ∧ s1.message = s2.message ∧ s1.destroyed = s2.destroyed ∧
    s1.receiving = s2.receiving ∧ s1.length = s2.length ∧ s1.consumed = s2.consumed ∧
    s1.err = s2.err ∧ s1.onmissing = s2.onmissing ∧ s1.onmessage = s2.onmessage ∧
    s1.calls.map eraseEvent = s2.calls.map eraseEvent) : erase s1 = erase s2 := by
  obtain ⟨a, b, c, d, e, f, g, i, j, k, l, m, n⟩ := h
  exact SMC.ext a b c d e f g i j k l m n

theorem next_shift (s1 s2 : SMC) (x : Nat) (d : List Nat) (off : Nat)
    (h : erase s1 = erase s2) :
    erase (next s1 (x :: d) (off + 1)).1 = erase (next s2 d off).1 ∧
    (next s1 (x :: d) (off + 1)).2 = (next s2 d off).2 := by
  obtain ⟨a, b, c, e, f, g, i, j, k, l, m, n, o⟩ := erase_fields s1 s2 h
  have hfree : (((x :: d).length : Nat) : Int) - ((off + 1 : Nat) : Int)
      = (d.length : Int) - (off : Int) := by
    rw [List.length_cons]
    push_cast
    ring
  unfold next
  rw [a]
  split
  · simp only [c]
    split_ifs <;>
      exact ⟨erase_of_fields _ _ ⟨rfl, rfl, rfl, e, f, g, i, rfl, rfl, l, m, n, o⟩, trivial⟩
  · simp only [c, j, k, m, hfree]
    split_ifs <;>
      (refine ⟨erase_of_fields _ _ ?_, ?_⟩ <;>
        simp [destroy, e, f, g, i, l, m, n, o, eraseEvent])
  · simp only [e, f, g, n]
    split_ifs <;>
      (refine ⟨erase_of_fields _ _ ?_, ?_⟩ <;>
        simp [b, c, e, f, g, i, j, k, l, m, n, o, eraseEvent])
  · exact ⟨h, rfl⟩

theorem readVarintLoop_shift (x : Nat) (d : List Nat) :
    ∀ (bs : List Nat) (s1 s2 : SMC) (off : Nat), erase s1 = erase s2 →
    erase (readVarintLoop (x :: d) bs s1 (off + 1)).1 = erase (readVarintLoop d bs s2 off).1 ∧
    (readVarintLoop (x :: d) bs s1 (off + 1)).2 = (readVarintLoop d bs s2 off).2 + 1 := by
  intro bs
  induction bs with
  | nil =>
    intro s1 s2 off h
    obtain ⟨a, b, c, e, f, g, i, j, k, l, m, n, o⟩ := erase_fields s1 s2 h
    rw [readVarintLoop_nil, readVarintLoop_nil]
    simp only [k]
    split_ifs
    · refine ⟨erase_of_fields _ _ ?_, List.length_cons x d⟩
      simp [destroy, a, b, c, e, f, g, i, j, k, l, m, n, o]
    · exact ⟨h, List.length_cons x d⟩
  | cons y bs ih =>
    intro s1 s2 off h
    obtain ⟨a, b, c, e, f, g, i, j, k, l, m, n, o⟩ := erase_fields s1 s2 h
    rw [readVarintLoop, readVarintLoop]
    simp only []
    by_cases hb : y < 128
    · have hstep : erase { s1 with
            varint := (s1.varint + ((y &&& 127) * s1.factor) % 2 ^ 64) % 2 ^ 64,
            consumed := s1.consumed + 1 }
          = erase { s2 with
            varint := (s2.varint + ((y &&& 127) * s2.factor) % 2 ^ 64) % 2 ^ 64,
            consumed := s2.consumed + 1 } :=
        erase_of_fields _ _ (by simp [a, b, c, e, f, g, i, j, k, l, m, n, o])
      obtain ⟨n1, n2⟩ := next_shift _ _ x d (off + 1) hstep
      simp only [hb, if_true, n2]
      split_ifs
      · exact ⟨n1, rfl⟩
      · exact ⟨n1, List.length_cons x d⟩
    · simp only [hb, if_false]
      exact ih _ _ (off + 1) (erase_of_fields _ _
        (by simp [a, b, c, e, f, g, i, j, k, l, m, n, o]))

theorem finishWith_shift (s1 s2 : SMC) (msg : List Nat) (x : Nat) (d : List Nat) (off : Nat)
    (h : erase s1 = erase s2) :
    erase (finishWith s1 msg (x :: d) (off + 1)).1 = erase (finishWith s2 msg d off).1 ∧
    (finishWith s1 msg (x :: d) (off + 1)).2 = (finishWith s2 msg d off).2 + 1 := by
  obtain ⟨a, b, c, e, f, g, i, j, k, l, m, n, o⟩ := erase_fields s1 s2 h
  have hstep : erase { s1 with message := some msg } = erase { s2 with message := some msg } :=
    erase_of_fields _ _ (by simp [a, b, c, e, f, g, i, j, k, l, m, n, o])
  have hoff : off + 1 + s1.length.toNat = off + s2.length.toNat + 1 := by rw [j]; omega
  obtain ⟨n1, n2⟩ := next_shift _ _ x d (off + s2.length.toNat) hstep
  unfold finishWith
  simp only [hoff, n2]
  split_ifs
  · exact ⟨n1, rfl⟩
  · exact ⟨n1, List.length_cons x d⟩

theorem readMessage_panic_none (s : SMC) (d : List Nat) (off : Nat) (hm : s.message = none)
    (hn : s.length < 0) : readMessage s d off = .error Fault.panic := by
  unfold readMessage
  simp only [hm, hn, if_true, bind, Except.bind]
  split_ifs <;> rfl

theorem readMessage_panic_some (s : SMC) (d : List Nat) (off : Nat) (buf : List Nat)
    (hm : s.message = some buf)
    (hp : (buf.length : Int) - s.length < 0 ∨ (buf.length : Int) - s.length > buf.length) :
    readMessage s d off = .error Fault.panic := by
  unfold readMessage copyTail
  simp only [hm, hp, if_true, bind, Except.bind, Except.map]
  split_ifs <;> rfl

theorem readMessage_shift (s1 s2 : SMC) (x : Nat) (d : List Nat) (off : Nat)
    (h : erase s1 = erase s2) (hoff : off ≤ d.length) :
    (readMessage s1 (x :: d) (off + 1)).map (fun r => (erase r.1, r.2))
      = (readMessage s2 d off).map (fun r => (erase r.1, r.2 + 1)) := by
  obtain ⟨a, b, c, e, f, g, i, j, k, l, m, n, o⟩ := erase_fields s1 s2 h
  have hfree : (((x :: d).length : Nat) : Int) - ((off + 1 : Nat) : Int)
      = (d.length : Int) - (off : Int) := by
    rw [List.length_cons]
    push_cast
    ring
  have hfree2 : ((d.length + 1 : Nat) : Int) - ((off + 1 : Nat) : Int)
      = (d.length : Int) - (off : Int) := by
    push_cast
    ring
  have hoff1 : off + 1 ≤ (x :: d).length := by
    rw [List.length_cons]
    omega
  cases hm : s2.message with
  | none =>
    have hm1 : s1.message = none := by rw [f, hm]
    by_cases hn : s2.length < 0
    · rw [readMessage_panic_none s1 _ _ hm1 (by rw [j]; exact hn),
        readMessage_panic_none s2 _ _ hm hn]
      rfl
    · by_cases hf : (d.length : Int) - (off : Int) ≥ s2.length
      · rw [readMessage_borrow s1 (x :: d) (off + 1) hm1 (by rw [j]; omega)
            (by rw [hfree, j]; exact hf),
          readMessage_borrow s2 d off hm (by omega) hf]
        simp only [List.drop_succ_cons, j, Except.map]
        obtain ⟨q1, q2⟩ := finishWith_shift s1 s2
          ((d.drop off).take s2.length.toNat) x d off h
        rw [q1, q2]
      · rw [readMessage_alloc s1 (x :: d) (off + 1) hm1 (by rw [hfree, j]; omega) hoff1,
          readMessage_alloc s2 d off hm (by omega) hoff]
        simp only [List.drop_succ_cons, j, Except.map, List.length_cons, hfree2]
        have he : erase { s1 with
              message := some (copyAt (List.replicate s2.length.toNat 0) 0 (d.drop off)),
              length := wrapInt (s2.length - ((d.length : Int) - (off : Int))) }
            = erase { s2 with
              message := some (copyAt (List.replicate s2.length.toNat 0) 0 (d.drop off)),
              length := wrapInt (s2.length - ((d.length : Int) - (off : Int))) } :=
          erase_of_fields _ _ (by simp [a, b, c, e, g, i, k, l, m, n, o])
        rw [he]
  | some buf =>
    have hm1 : s1.message = some buf := by rw [f, hm]
    by_cases hp : (buf.length : Int) - s2.length < 0 ∨
        (buf.length : Int) - s2.length > buf.length
    · rw [readMessage_panic_some s1 _ _ buf hm1 (by rw [j]; exact hp),
        readMessage_panic_some s2 _ _ buf hm hp]
      rfl
    · by_cases hf : (d.length : Int) - (off : Int) ≥ s2.length
      · rw [readMessage_finish s1 (x :: d) (off + 1) buf hm1 (by rw [j]; omega)
            (by rw [j]; omega) (by rw [hfree, j]; exact hf),
          readMessage_finish s2 d off buf hm (by omega) (by omega) hf]
        simp only [List.drop_succ_cons, j, Except.map]
        obtain ⟨q1, q2⟩ := finishWith_shift s1 s2
          (copyAt buf ((buf.length : Int) - s2.length).toNat (d.drop off)) x d off h
        rw [q1, q2]
      · rw [readMessage_more s1 (x :: d) (off + 1) buf hm1 (by rw [j]; omega)
            (by rw [j]; omega) (by rw [hfree, j]; omega),
          readMessage_more s2 d off buf hm (by omega) (by omega) (by omega)]
        simp only [List.drop_succ_cons, j, Except.map, List.length_cons, hfree2]
        have he : erase { s1 with
              message := some (copyAt buf ((buf.length : Int) - s2.length).toNat (d.drop off)),
              length := wrapInt (s2.length - ((d.length : Int) - (off : Int))) }
            = erase { s2 with
              message := some (copyAt buf ((buf.length : Int) - s2.length).toNat (d.drop off)),
              length := wrapInt (s2.length - ((d.length : Int) - (off : Int))) } :=
          erase_of_fields _ _ (by simp [a, b, c, e, g, i, k, l, m, n, o])
        rw [he]

theorem recvLoop_shift (x : Nat) (d : List Nat) :
    ∀ (fuel : Nat) (s1 s2 : SMC) (off : Nat), erase s1 = erase s2 → off ≤ d.length →
    (recvLoop (x :: d) fuel s1 (off + 1)).map erase = (recvLoop d fuel s2 off).map erase := by
  intro fuel
  induction fuel with
  | zero => intro s1 s2 off _ _; rfl
  | succ fuel ih =>
    intro s1 s2 off h hoff
    have a : s1.state = s2.state := (erase_fields s1 s2 h).1
    by_cases hlt : off < d.length
    · have hlt1 : off + 1 < (x :: d).length := by
        rw [List.length_cons]
        omega
      by_cases h2 : s2.state = 2
      · rw [recvLoop_message_step (x :: d) fuel s1 (off + 1) hlt1 (by rw [a]; exact h2),
          recvLoop_message_step d fuel s2 off hlt h2]
        have hs := readMessage_shift s1 s2 x d off h hoff
        cases hr2 : readMessage s2 d off with
        | error e2 =>
          cases hr1 : readMessage s1 (x :: d) (off + 1) with
          | error e1 =>
            rw [hr1, hr2] at hs
            simp only [Except.map] at hs
            injection hs with hs
            rw [hs]
            rfl
          | ok r1 =>
            rw [hr1, hr2] at hs
            simp only [Except.map] at hs
            exact absurd hs (by simp)
        | ok r2 =>
          cases hr1 : readMessage s1 (x :: d) (off + 1) with
          | error e1 =>
            rw [hr1, hr2] at hs
            simp only [Except.map] at hs
            exact absurd hs (by simp)
          | ok r1 =>
            rw [hr1, hr2] at hs
            simp only [Except.map] at hs
            injection hs with hs
            injection hs with hs1 hs2
            simp only [bind, Except.bind]
            rw [hs2]
            exact ih r1.1 r2.1 r2.2 hs1 (readMessage_passes d s2 off r2 h2 hlt hr2).2
      · rw [recvLoop_varint_step (x :: d) fuel s1 (off + 1) hlt1 (by rw [a]; exact h2),
          recvLoop_varint_step d fuel s2 off hlt h2]
        unfold readVarint
        rw [List.drop_succ_cons]
        obtain ⟨q1, q2⟩ := readVarintLoop_shift x d (d.drop off) s1 s2 off h
        rw [q2]
        exact ih _ _ _ q1 (readVarint_passes d s2 off h2 hlt).2
    · have hlt1 : ¬ off + 1 < (x :: d).length := by
        rw [List.length_cons]
        omega
      rw [recvLoop_exit (x :: d) fuel s1 (off + 1) hlt1, recvLoop_exit d fuel s2 off hlt]
      simp only [Except.map]
      rw [h]

/-- One more pass of fuel than needed does not change the result of the loop. -/
theorem recvLoop_fuel_succ (d : List Nat) : ∀ (fuel : Nat) (s : SMC) (off : Nat),
    off ≤ d.length → passes d s off < fuel →
    recvLoop d (fuel + 1) s off = recvLoop d fuel s off := by
  intro fuel
  induction fuel with
  | zero => intro s off _ hp; omega
  | succ fuel ih =>
    intro s off hoff hp
    by_cases hlt : off < d.length
    · by_cases h2 : s.state = 2
      · rw [recvLoop_message_step d (fuel + 1) s off hlt h2,
          recvLoop_message_step d fuel s off hlt h2]
        cases hr : readMessage s d off with
        | error e => rfl
        | ok r =>
          simp only [bind, Except.bind]
          obtain ⟨p1, p2⟩ := readMessage_passes d s off r h2 hlt hr
          exact ih r.1 r.2 p2 (by omega)
      · rw [recvLoop_varint_step d (fuel + 1) s off hlt h2,
          recvLoop_varint_step d fuel s off hlt h2]
        obtain ⟨p1, p2⟩ := readVarint_passes d s off h2 hlt
        exact ih _ _ p2 (by omega)
    · rw [recvLoop_exit d (fuel + 1) s off hlt, recvLoop_exit d fuel s off hlt]

theorem recvEnd_shift (s1 s2 : SMC) (x : Nat) (d : List Nat) (h : erase s1 = erase s2) :
    (recvEnd s1 (x :: d)).map (fun r => (erase r.1, r.2))
      = (recvEnd s2 d).map (fun r => (erase r.1, r.2)) := by
  obtain ⟨a, b, c, e, f, g, i, j, k, l, m, n, o⟩ := erase_fields s1 s2 h
  unfold recvEnd
  rw [a, j]
  by_cases hp : s2.state = 2 ∧ s2.length = 0
  · simp only [hp, and_self, if_true]
    have hs := readMessage_shift s1 s2 x d d.length h (Nat.le_refl _)
    rw [List.length_cons]
    cases hr2 : readMessage s2 d d.length with
    | error e2 =>
      cases hr1 : readMessage s1 (x :: d) (d.length + 1) with
      | error e1 =>
        rw [hr1, hr2] at hs
        simp only [Except.map] at hs
        injection hs with hs
        rw [hs]
      | ok r1 =>
        rw [hr1, hr2] at hs
        simp only [Except.map] at hs
        exact absurd hs (by simp)
    | ok r2 =>
      cases hr1 : readMessage s1 (x :: d) (d.length + 1) with
      | error e1 =>
        rw [hr1, hr2] at hs
        simp only [Except.map] at hs
        exact absurd hs (by simp)
      | ok r1 =>
        rw [hr1, hr2] at hs
        simp only [Except.map] at hs
        injection hs with hs
        injection hs with hs1 hs2
        obtain ⟨a', b', c', e', f', g', i', j', k', l', m', n', o'⟩ :=
          erase_fields r1.1 r2.1 hs1
        simp only [Except.map, bind, Except.bind]
        exact congrArg Except.ok (congrArg₂ Prod.mk
          (erase_of_fields { r1.1 with receiving := false } { r2.1 with receiving := false }
            ⟨a', b', c', e', f', g', rfl, j', k', l', m', n', o'⟩)
          (congrArg (fun t => !t) g'))
  · simp only [hp, if_false, Except.map, bind, Except.bind]
    exact congrArg Except.ok (congrArg₂ Prod.mk
      (erase_of_fields { s1 with receiving := false } { s2 with receiving := false }
        ⟨a, b, c, e, f, g, rfl, j, k, l, m, n, o⟩)
      (congrArg (fun t => !t) g))

theorem Recv_nonempty (s : SMC) (d : List Nat) (hne : d ≠ []) (hrec : s.receiving = false) :
    Recv s d
      = recvLoop d (2 * d.length + 2) { s with receiving := true } 0 >>= fun s =>
          recvEnd s d := by
  unfold Recv
  have hl : ¬ d.length = 0 := fun h => hne (List.length_eq_zero.mp h)
  simp only [hl, if_false, hrec, Bool.false_eq_true]

theorem messagesOf_map_erase (l : List Event) :
    messagesOf (l.map eraseEvent) = messagesOf l := by
  induction l with
  | nil => rfl
  | cons e es ih => cases e <;> simp [messagesOf, eraseEvent, ih]

theorem missingOf_map_erase (l : List Event) :
    missingOf (l.map eraseEvent) = missingOf l := by
  induction l with
  | nil => rfl
  | cons e es ih => cases e <;> simp [missingOf, eraseEvent, ih]

theorem toInt_zero : toInt 0 = 0 := by
  unfold toInt wrapInt
  norm_num

theorem readVarint_zero_byte (wa wb : Bool) (d : List Nat) :
    readVarint { NewSMC wa wb with receiving := true } (0 :: d) 0
      = ({ NewSMC wa wb with receiving := true }, 1) :=
  readVarint_zero_eq { NewSMC wa wb with receiving := true } (0 :: d) 0 [] 0 d rfl
    (fun b hb => absurd hb (List.not_mem_nil b)) (by decide) rfl (Nat.two_pow_pos 64)
    (Nat.one_lt_two_pow (by decide)) toInt_zero

/-- A zero byte in front of a chunk changes nothing but the raw-chunk and offset
arguments of the handler calls. -/
theorem Recv_zero_prefix (wa wb : Bool) (bs : List Nat) :
    (Recv (NewSMC wa wb) (0 :: bs)).map (fun r => (erase r.1, r.2))
      = (Recv (NewSMC wa wb) bs).map (fun r => (erase r.1, r.2)) := by
  cases bs with
  | nil =>
    rw [Recv_nonempty (NewSMC wa wb) [0] (by simp) rfl,
      recvLoop_varint_step [0] _ _ 0 (by simp) (by simp [NewSMC]),
      readVarint_zero_byte wa wb [], recvLoop_exit [0] _ _ 1 (by simp)]
    rfl
  | cons y ys =>
    rw [Recv_nonempty (NewSMC wa wb) (0 :: y :: ys) (by simp) rfl,
      Recv_nonempty (NewSMC wa wb) (y :: ys) (by simp) rfl]
    have hfuel : 2 * (0 :: y :: ys).length + 2 = (2 * (y :: ys).length + 3) + 1 := by
      rw [List.length_cons]
      omega
    have hpass : passes (y :: ys) { NewSMC wa wb with receiving := true } 0
        < 2 * (y :: ys).length + 2 := by
      unfold passes
      split_ifs <;> omega
    have hstep : recvLoop (0 :: y :: ys) (2 * (0 :: y :: ys).length + 2)
          { NewSMC wa wb with receiving := true } 0
        = recvLoop (0 :: y :: ys) (2 * (y :: ys).length + 3)
          { NewSMC wa wb with receiving := true } 1 := by
      rw [hfuel, recvLoop_varint_step (0 :: y :: ys) _ _ 0 (by simp) (by simp [NewSMC]),
        readVarint_zero_byte wa wb (y :: ys)]
    have hsh := recvLoop_shift 0 (y :: ys) (2 * (y :: ys).length + 3)
      { NewSMC wa wb with receiving := true } { NewSMC wa wb with receiving := true } 0 rfl
      (Nat.zero_le _)
    rw [recvLoop_fuel_succ (y :: ys) (2 * (y :: ys).length + 2) _ 0 (Nat.zero_le _) hpass]
      at hsh
    rw [hstep]
    cases hr2 : recvLoop (y :: ys) (2 * (y :: ys).length + 2)
        { NewSMC wa wb with receiving := true } 0 with
    | error e2 =>
      cases hr1 : recvLoop (0 :: y :: ys) (2 * (y :: ys).length + 3)
          { NewSMC wa wb with receiving := true } 1 with
      | error e1 =>
        rw [hr1, hr2] at hsh
        simp only [Except.map] at hsh
        injection hsh with hsh
        rw [hsh]
        rfl
      | ok t1 =>
        rw [hr1, hr2] at hsh
        simp only [Except.map] at hsh
        exact absurd hsh (by simp)
    | ok t2 =>
      cases hr1 : recvLoop (0 :: y :: ys) (2 * (y :: ys).length + 3)
          { NewSMC wa wb with receiving := true } 1 with
      | error e1 =>
        rw [hr1, hr2] at hsh
        simp only [Except.map] at hsh
        exact absurd hsh (by simp)
      | ok t1 =>
        rw [hr1, hr2] at hsh
        simp only [Except.map] at hsh
        injection hsh with hsh
        simp only [bind, Except.bind]
        exact recvEnd_shift t1 t2 0 (y :: ys) hsh

theorem readMessageS_outcome (s : SMC) (d : List Nat) (off : Nat) :
    outcome (readMessageS s d off) = readMessage s d off := by
  unfold readMessageS outcome
  cases h : readMessage s d off <;> rfl

theorem recvLoopS_outcome (d : List Nat) : ∀ (fuel : Nat) (s : SMC) (off : Nat),
    (outcome (recvLoopS d fuel s off)).map Prod.fst = recvLoop d fuel s off := by
  intro fuel
  induction fuel with
  | zero => intro s off; rfl
  | succ fuel ih =>
    intro s off
    rw [recvLoopS, recvLoop]
    split_ifs with h1 h2
    · unfold readMessageS
      cases h : readMessage s d off with
      | error e => rfl
      | ok r =>
        simp only [bind, Except.bind]
        exact ih r.1 r.2
    · exact ih _ _
    · rfl

/-- The two models of `Recv` agree: same value or panic, same decoder when the
call returns. -/
theorem RecvS_outcome (s : SMC) (d : List Nat) : outcome (RecvS s d) = Recv s d := by
  unfold RecvS Recv
  simp only []
  split_ifs with h1 h2
  · rfl
  · rfl
  · have hl := recvLoopS_outcome d (2 * d.length + 2) { s with receiving := true } 0
    cases hL : recvLoopS d (2 * d.length + 2) { s with receiving := true } 0 with
    | mk s1 r1 =>
      rw [hL] at hl
      cases r1 with
      | error e =>
        simp only [outcome, Except.map] at hl
        rw [← hl]
        rfl
      | ok u =>
        simp only [outcome, Except.map] at hl
        rw [← hl]
        simp only [bind, Except.bind, recvEnd]
        by_cases hp : s1.state = 2 ∧ s1.length = 0
        · simp only [hp, and_self, if_true]
          unfold readMessageS
          cases hr : readMessage s1 d d.length with
          | error e => rfl
          | ok r => rfl
        · simp only [hp, if_false]
          rfl

/-- C17, amended: the re-entrancy guard. `RecvS` returns the decoder as the call
leaves it. For every decoder whose receiving flag is set and every non-empty chunk,
`Recv` panics and the decoder is exactly as it was: no field was written and no
handler was called. Every `Recv` call that returns normally on a non-empty chunk,
or that started with the flag cleared, leaves the flag cleared. `Recv` of the empty
chunk returns the liveness and leaves the decoder, the flag included, as it was.
`RecvS` and `Recv` agree on the value or panic and on the decoder returned. -/
theorem reentrancy_guard (s : SMC) (d : List Nat) :
    (s.receiving = true → d ≠ [] → RecvS s d = (s, .error Fault.panic)) ∧
    (s.receiving = true → d ≠ [] → Recv s d = .error Fault.panic) ∧
    (∀ s' b, RecvS s d = (s', .ok b) → (d ≠ [] ∨ s.receiving = false) →
      s'.receiving = false) ∧
    (∀ s' b, Recv s d = .ok (s', b) → (d ≠ [] ∨ s.receiving = false) →
      s'.receiving = false) ∧
    (d = [] → RecvS s d = (s, .ok (!s.destroyed))) ∧
    (d = [] → Recv s d = .ok (s, !s.destroyed)) ∧
    outcome (RecvS s d) = Recv s d := by
  have hguard : s.receiving = true → d ≠ [] → RecvS s d = (s, .error Fault.panic) := by
    intro hrec hd
    unfold RecvS
    have hl : ¬ d.length = 0 := fun h => hd (List.length_eq_zero.mp h)
    simp only [hl, if_false, hrec, if_true]
  have hret : ∀ s' b, Recv s d = .ok (s', b) → (d ≠ [] ∨ s.receiving = false) →
      s'.receiving = false := by
    intro s' b hr hcase
    unfold Recv at hr
    simp only [bind, Except.bind] at hr
    split_ifs at hr with h1 h2
    · injection hr with hr
      injection hr with hr1 hr2
      rw [← hr1]
      rcases hcase with hc | hc
      · exact absurd (List.length_eq_zero.mp h1) hc
      · exact hc
    · split at hr
      · exact absurd hr (by simp)
      · exact recvEnd_receiving _ d s' b hr
  refine ⟨hguard, ?_, ?_, hret, ?_, ?_, RecvS_outcome s d⟩
  · intro hrec hd
    rw [← RecvS_outcome s d, hguard hrec hd]
    rfl
  · intro s' b hr hcase
    refine hret s' b ?_ hcase
    rw [← RecvS_outcome s d, hr]
    rfl
  · intro hd
    subst hd
    rfl
  · intro hd
    subst hd
    rfl

theorem reentrancy_guard_witness :
    RecvS { NewSMC false true with receiving := true } [1, 0]
      = ({ NewSMC false true with receiving := true }, .error Fault.panic) :=
  (reentrancy_guard { NewSMC false true with receiving := true } [1, 0]).1 rfl (by decide)

theorem foldl_contStep_receiving (c : List Nat) : ∀ (s : SMC) (b : Bool),
    c.foldl contStep { s with receiving := b } = { (c.foldl contStep s) with receiving := b } := by
  induction c with
  | nil => intro s b; rfl
  | cons x xs ih =>
    intro s b
    simp only [List.foldl_cons]
    exact ih (contStep s x) b

theorem receiving_reset (s : SMC) (h : s.receiving = false) :
    { s with receiving := false } = s := by
  cases s
  simp only at h
  subst h
  rfl

/-- `Recv` of a chunk that holds only continuation bytes of a varint, fewer than
nine read so far: the bytes are accumulated and nothing else happens. -/
theorem Recv_cont (s : SMC) (c : List Nat) (hne : c ≠ []) (hc : ∀ b ∈ c, 128 ≤ b)
    (h2 : s.state ≠ 2) (hrec : s.receiving = false)
    (hcons : s.consumed + (c.length : Int) < 9) :
    Recv s c = .ok (c.foldl contStep s, !s.destroyed) := by
  have hlen : 0 < c.length := List.length_pos.mpr hne
  have hfuel : 2 * c.length + 2 = (2 * c.length) + 1 + 1 := by omega
  obtain ⟨f1, _, _, f4, f5, _, _, _, _, _, f11⟩ :=
    foldl_contStep_frame c { s with receiving := true }
  have hrv : readVarint { s with receiving := true } c 0
      = (c.foldl contStep { s with receiving := true }, c.length) := by
    unfold readVarint
    rw [List.drop_zero]
    have := readVarintLoop_cont c c [] { s with receiving := true } 0 hc
    rw [List.append_nil] at this
    rw [this, readVarintLoop_nil]
    have hlt : ¬ (c.foldl contStep { s with receiving := true }).consumed ≥ 9 := by
      rw [f11]
      show ¬ s.consumed + (c.length : Int) ≥ 9
      omega
    simp only [hlt, if_false]
  rw [Recv_nonempty s c hne hrec, hfuel,
    recvLoop_varint_step c _ { s with receiving := true } 0 hlen h2, hrv,
    recvLoop_exit c _ _ c.length (Nat.lt_irrefl _)]
  simp only [bind, Except.bind, recvEnd]
  have hst : ¬ ((c.foldl contStep { s with receiving := true }).state = 2 ∧
      (c.foldl contStep { s with receiving := true }).length = 0) := by
    rw [f1]
    exact fun h => h2 h.1
  simp only [hst, if_false]
  rw [foldl_contStep_receiving c s true]
  have hr2 : (c.foldl contStep s).receiving = false := by
    rw [(foldl_contStep_frame c s).2.2.2.2.1]
    exact hrec
  have hd2 : (c.foldl contStep s).destroyed = s.destroyed :=
    (foldl_contStep_frame c s).2.2.2.1
  have e : ({ ({ (c.foldl contStep s) with receiving := true } : SMC) with
      receiving := false } : SMC) = c.foldl contStep s := receiving_reset _ hr2
  exact congrArg Except.ok (congrArg₂ Prod.mk e (congrArg (fun t => !t) hd2))

/-- `Recv` of a chunk that ends a length varint of value zero. -/
theorem Recv_zero_end (s : SMC) (pre : List Nat) (t : Nat) (hpre : ∀ b ∈ pre, 128 ≤ b)
    (ht : t < 128) (h0 : s.state = 0) (hrec : s.receiving = false) (hv : s.varint = 0)
    (hf : s.factor < 2 ^ 64) (hz : leval (pre ++ [t]) = 0) :
    Recv s (pre ++ [t])
      = .ok ({ s with state := 0, factor := 1, length := 0, consumed := 0, varint := 0 },
             !s.destroyed) := by
  have hne : pre ++ [t] ≠ [] := by simp
  have hlen : (pre ++ [t]).length = pre.length + 1 := by simp
  have hfuel : 2 * (pre ++ [t]).length + 2 = (2 * (pre ++ [t]).length) + 1 + 1 := by omega
  have hzz : toInt (((({ s with receiving := true } : SMC)).varint
      + (({ s with receiving := true } : SMC)).factor * leval (pre ++ [t])) % 2 ^ 64) = 0 := by
    show toInt ((s.varint + s.factor * leval (pre ++ [t])) % 2 ^ 64) = 0
    rw [hv, hz, Nat.mul_zero, Nat.add_zero, Nat.zero_mod]
    exact toInt_zero
  have hrv := readVarint_zero_eq { s with receiving := true } (pre ++ [t]) 0 pre t []
    (by rw [List.drop_zero]) hpre ht h0 (by show s.varint < 2 ^ 64; rw [hv]; exact Nat.two_pow_pos 64)
    hf hzz
  clear hzz
  rw [Recv_nonempty s (pre ++ [t]) hne hrec, hfuel,
    recvLoop_varint_step (pre ++ [t]) _ { s with receiving := true } 0 (by rw [hlen]; omega)
      (by rw [h0]; decide),
    hrv, recvLoop_exit (pre ++ [t]) _ _ (0 + pre.length + 1) (by rw [hlen]; omega)]
  simp only [bind, Except.bind, recvEnd]
  have e : ({ s with state := 0, factor := 1, length := 0, consumed := 0, varint := 0,
                     receiving := false } : SMC)
      = { s with state := 0, factor := 1, length := 0, consumed := 0, varint := 0 } := by
    cases s
    simp only at hrec
    subst hrec
    rfl
  exact congrArg Except.ok (congrArg₂ Prod.mk e rfl)

theorem feed_empties : ∀ (cs : List (List Nat)) (s : SMC), (∀ c ∈ cs, c = []) →
    feed s cs = .ok (s, cs.map (fun _ => !s.destroyed)) := by
  intro cs
  induction cs with
  | nil => intro s _; rfl
  | cons c cs ih =>
    intro s h
    have hc : c = [] := h c (by simp)
    subst hc
    rw [feed]
    have hr : Recv s [] = .ok (s, !s.destroyed) := rfl
    rw [hr]
    simp only [bind, Except.bind]
    rw [ih s (fun c hc => h c (by simp [hc]))]
    rfl

theorem flatten_nil_all (cs : List (List Nat)) (h : cs.flatten = []) : ∀ c ∈ cs, c = [] := by
  induction cs with
  | nil => intro c hc; exact absurd hc (List.not_mem_nil c)
  | cons x xs ih =>
    intro c hc
    rw [List.flatten_cons] at h
    obtain ⟨h1, h2⟩ := List.append_eq_nil.mp h
    rcases List.mem_cons.mp hc with e | e
    · rw [e]; exact h1
    · exact ih h2 c e

theorem leval_zero_split (a b : List Nat) (h : leval (a ++ b) = 0) :
    leval a = 0 ∧ leval b = 0 := by
  rw [leval_append] at h
  have hp : 0 < 128 ^ a.length := pow_pos (by decide) _
  constructor
  · omega
  · by_contra hb
    have : 0 < 128 ^ a.length * leval b := Nat.mul_pos hp (Nat.pos_of_ne_zero hb)
    omega

/-- A length varint of value zero, cut into chunks in any way, with fewer than nine
bytes read at every chunk end: the calls of `Recv` return the liveness, and the
decoder ends at the start of a length varint with nothing else changed. -/
theorem feed_zero_varint : ∀ (chunks : List (List Nat)) (s : SMC) (pre : List Nat) (t : Nat),
    (∀ b ∈ pre, 128 ≤ b) → t < 128 → s.state = 0 → s.receiving = false → s.varint = 0 →
    s.factor < 2 ^ 64 → s.consumed + (pre.length : Int) < 9 → leval (pre ++ [t]) = 0 →
    chunks.flatten = pre ++ [t] →
    feed s chunks
      = .ok ({ s with state := 0, factor := 1, length := 0, consumed := 0, varint := 0 },
             chunks.map (fun _ => !s.destroyed)) := by
  intro chunks
  induction chunks with
  | nil =>
    intro s pre t _ _ _ _ _ _ _ _ hflat
    simp at hflat
  | cons c cs ih =>
    intro s pre t hpre ht h0 hrec hv hf hcons hz hflat
    rw [List.flatten_cons] at hflat
    by_cases hc : c = []
    · subst hc
      rw [List.nil_append] at hflat
      rw [feed]
      have hr : Recv s [] = .ok (s, !s.destroyed) := rfl
      rw [hr]
      simp only [bind, Except.bind]
      rw [ih s pre t hpre ht h0 hrec hv hf hcons hz hflat]
      rfl
    · have hcase : (∃ a, pre = c ++ a ∧ cs.flatten = a ++ [t]) ∨
          (c = pre ++ [t] ∧ cs.flatten = []) := by
        rcases split_cases c cs.flatten pre [t] hflat with ⟨a, _, e1, e2⟩ | ⟨c', e1, e2⟩
        · exact Or.inl ⟨a, e1, e2⟩
        · cases c' with
          | nil =>
            refine Or.inl ⟨[], ?_, ?_⟩
            · rw [List.append_nil] at e1 ⊢
              exact e1.symm
            · rw [List.nil_append] at e2 ⊢
              exact e2.symm
          | cons x xs =>
            have e3 : [t] = x :: (xs ++ cs.flatten) := e2
            injection e3 with e4 e5
            obtain ⟨e6, e7⟩ := List.append_eq_nil.mp e5.symm
            refine Or.inr ⟨?_, e7⟩
            rw [e1, e6, e4]
      rcases hcase with ⟨a, e1, e2⟩ | ⟨e1, e2⟩
      · have hcb : ∀ b ∈ c, 128 ≤ b := fun b hb => hpre b (by rw [e1]; simp [hb])
        have hab : ∀ b ∈ a, 128 ≤ b := fun b hb => hpre b (by rw [e1]; simp [hb])
        have hlen : (pre.length : Int) = (c.length : Int) + (a.length : Int) := by
          rw [e1, List.length_append]
          push_cast
          rfl
        have hz2 : leval c = 0 ∧ leval (a ++ [t]) = 0 := by
          apply leval_zero_split
          rw [← List.append_assoc, ← e1]
          exact hz
        obtain ⟨f1, _, _, f4, f5, _, _, _, _, _, f11⟩ := foldl_contStep_frame c s
        have fv := foldl_contStep_varint c s (by rw [hv]; exact Nat.two_pow_pos 64)
        have ff := foldl_contStep_factor c s hf
        rw [hv, hz2.1, Nat.mul_zero, Nat.add_zero, Nat.zero_mod] at fv
        rw [feed, Recv_cont s c hc hcb (by rw [h0]; decide) hrec (by omega)]
        simp only [bind, Except.bind]
        rw [ih (c.foldl contStep s) a t hab ht (by rw [f1, h0]) (by rw [f5, hrec]) fv
          (by rw [ff]; exact Nat.mod_lt _ (Nat.two_pow_pos 64)) (by rw [f11]; omega) hz2.2 e2]
        have e : ({ (c.foldl contStep s) with
                    state := 0, factor := 1, length := 0, consumed := 0, varint := 0 } : SMC)
            = { s with state := 0, factor := 1, length := 0, consumed := 0, varint := 0 } := by
          obtain ⟨g1, g2, g3, g4, g5, g6, g7, g8, g9, g10, g11⟩ := foldl_contStep_frame c s
          exact SMC.ext rfl rfl rfl g2 g3 g4 g5 rfl rfl g7 g8 g9 g10
        have e' : (!s.destroyed) :: cs.map (fun _ => !(c.foldl contStep s).destroyed)
            = (c :: cs).map (fun _ => !s.destroyed) := by
          rw [f4]
          rfl
        exact congrArg Except.ok (congrArg₂ Prod.mk e e')
      · subst e1
        rw [feed, Recv_zero_end s pre t hpre ht h0 hrec hv hf hz]
        simp only [bind, Except.bind]
        rw [feed_empties cs _ (flatten_nil_all cs e2)]
        rfl

/-- C14, as stated, fails for a zero varint of ten bytes: nine bytes `0x80` and
`0x00` are a terminated varint of value 0, read as a no-op when they come in one
chunk; cut after the ninth byte they destroy a fresh decoder with
`ErrInvalidVarint`. -/
theorem zero_varint_cut_after_nine :
    leval (List.replicate 9 128 ++ [0]) = 0 ∧ (∀ b ∈ List.replicate 9 128, 128 ≤ b) ∧
    (∃ s1, feed (NewSMC false true) [List.replicate 9 128 ++ [0]] = .ok (s1, [true]) ∧
      s1.destroyed = false ∧ s1.state = 0 ∧ s1.err = none) ∧
    (∃ s2, feed (NewSMC false true) [List.replicate 9 128, [0]] = .ok (s2, [false, false]) ∧
      s2.destroyed = true ∧ s2.err = some Err.ErrInvalidVarint) :=
  ⟨by decide, by decide, ⟨_, rfl, rfl, rfl, rfl⟩, ⟨_, rfl, rfl, rfl⟩⟩

/-- C14, amended: a zero-length frame is a no-op separator when its length varint
has at most nine bytes. For every decoder in state 0 at the start of a varint
(accumulator 0, factor 1, no byte counted) and every terminated varint of value 0
with at most eight continuation bytes, cut into chunks in any way: every `Recv`
returns the liveness, and the decoder ends in state 0 with accumulator 0 and
factor 1, the length and consumed counters 0 and every other field (handler log,
destroyed flag, stored error) as it was. A zero varint of any number of bytes that
lies inside one chunk is read with the same result, and reading goes on right after
it. Consequently `Recv` of `[0x00] ++ bs` on a fresh decoder and `Recv` of `bs` both
return, with the same value, and end in decoders that agree on every field but the
raw-chunk and offset arguments recorded in the handler log: same message callbacks,
same missing hints, same liveness, same stored error. -/
theorem zero_length_frame (s : SMC) (pre : List Nat) (t : Nat)
    (hpre : ∀ b ∈ pre, 128 ≤ b) (ht : t < 128) (h0 : s.state = 0) (hv : s.varint = 0)
    (hf : s.factor = 1) (hz : leval (pre ++ [t]) % 2 ^ 64 = 0) :
    (∀ chunks : List (List Nat), pre.length ≤ 8 → s.consumed = 0 → s.receiving = false →
      chunks.flatten = pre ++ [t] →
      feed s chunks
        = .ok ({ s with state := 0, factor := 1, length := 0, consumed := 0, varint := 0 },
               chunks.map (fun _ => !s.destroyed))) ∧
    (∀ (d : List Nat) (off : Nat) (rest : List Nat), d.drop off = pre ++ t :: rest →
      readVarint s d off
        = ({ s with state := 0, factor := 1, length := 0, consumed := 0, varint := 0 },
           off + pre.length + 1)) ∧
    (∀ (wa wb : Bool) (bs : List Nat),
      (Recv (NewSMC wa wb) (0 :: bs)).map (fun r => (erase r.1, r.2))
        = (Recv (NewSMC wa wb) bs).map (fun r => (erase r.1, r.2))) ∧
    (∀ (wa wb : Bool) (bs : List Nat), ∃ s1 s2 b,
      Recv (NewSMC wa wb) (0 :: bs) = .ok (s1, b) ∧ Recv (NewSMC wa wb) bs = .ok (s2, b) ∧
      messagesOf s1.calls = messagesOf s2.calls ∧
      missingOf s1.calls = missingOf s2.calls ∧
      s1.destroyed = s2.destroyed ∧ s1.err = s2.err) := by
  have hf64 : s.factor < 2 ^ 64 := by
    rw [hf]
    exact Nat.one_lt_two_pow (by decide)
  refine ⟨?_, ?_, Recv_zero_prefix, ?_⟩
  · intro chunks hlen hc hrec hflat
    have hlt := leval_lt (pre ++ [t])
    have hpow : 128 ^ (pre ++ [t]).length ≤ 128 ^ 9 :=
      Nat.pow_le_pow_right (by decide) (by rw [List.length_append, List.length_singleton]; omega)
    have h63 : (128 : Nat) ^ 9 < 2 ^ 64 := by decide
    have hz0 : leval (pre ++ [t]) = 0 := by
      rw [Nat.mod_eq_of_lt (Nat.lt_of_lt_of_le hlt (Nat.le_trans hpow (Nat.le_of_lt h63)))] at hz
      exact hz
    clear hz hlt hpow h63
    exact feed_zero_varint chunks s pre t hpre ht h0 hrec hv hf64
      (by rw [hc]; omega) hz0 hflat
  · intro d off rest hd
    have hzz : toInt ((s.varint + s.factor * leval (pre ++ [t])) % 2 ^ 64) = 0 := by
      rw [hv, hf, Nat.zero_add, Nat.one_mul, hz]
      exact toInt_zero
    exact readVarint_zero_eq s d off pre t rest hd hpre ht h0
      (by rw [hv]; exact Nat.two_pow_pos 64) hf64 hzz
  · intro wa wb bs
    obtain ⟨s1, b1, e1, _, _⟩ := Recv_inbounds (NewSMC wa wb) (0 :: bs)
      (NewSMC_inbounds wa wb) rfl rfl
    obtain ⟨s2, b2, e2, _, _⟩ := Recv_inbounds (NewSMC wa wb) bs
      (NewSMC_inbounds wa wb) rfl rfl
    have hzp := Recv_zero_prefix wa wb bs
    rw [e1, e2] at hzp
    simp only [Except.map] at hzp
    injection hzp with hzp
    injection hzp with hz1 hz2
    obtain ⟨_, _, _, _, _, g, _, _, _, l, _, _, o⟩ := erase_fields s1 s2 hz1
    rw [hz2] at e1
    refine ⟨s1, s2, b2, e1, e2, ?_, ?_, g, l⟩
    · rw [← messagesOf_map_erase s1.calls, o, messagesOf_map_erase]
    · rw [← missingOf_map_erase s1.calls, o, missingOf_map_erase]

theorem zero_length_frame_witness :
    feed (NewSMC false true) [[128], [], [128, 128], [0]]
      = .ok ({ NewSMC false true with state := 0, factor := 1, length := 0, consumed := 0,
                                      varint := 0 },
             [[128], [], [128, 128], [0]].map (fun _ => !(NewSMC false true).destroyed)) :=
  (zero_length_frame (NewSMC false true) [128, 128, 128] 0 (by decide) (by decide) rfl rfl rfl
    (by decide)).1 [[128], [], [128, 128], [0]] (by decide) rfl rfl rfl

theorem msgEvents_append (a b : List Event) : msgEvents (a ++ b) = msgEvents a ++ msgEvents b := by
  induction a with
  | nil => rfl
  | cons e es ih => cases e <;> simp [msgEvents, ih]

theorem next_msgEvents_other (s : SMC) (data : List Nat) (off : Nat) (h2 : s.state ≠ 2) :
    msgEvents (next s data off).1.calls = msgEvents s.calls := by
  unfold next
  split
  · simp only []; split_ifs <;> rfl
  · simp only [destroy]
    split_ifs <;> simp [msgEvents_append, msgEvents]
  · rename_i h; exact absurd h h2
  · rfl

theorem readVarintLoop_msgEvents_other (d : List Nat) :
    ∀ (bs : List Nat) (s : SMC) (off : Nat), s.state ≠ 2 →
    msgEvents (readVarintLoop d bs s off).1.calls = msgEvents s.calls := by
  intro bs
  induction bs with
  | nil =>
    intro s off _
    rw [readVarintLoop_nil]
    simp only [destroy]
    split_ifs <;> rfl
  | cons b bs ih =>
    intro s off h1
    rw [readVarintLoop]
    simp only []
    split_ifs
    · exact next_msgEvents_other _ _ _ h1
    · exact next_msgEvents_other _ _ _ h1
    · exact ih _ _ h1

theorem next_message_ne2 (s : SMC) (data : List Nat) (off : Nat) (h2 : s.state ≠ 2) :
    (next s data off).1.message = s.message := by
  unfold next
  split
  · simp only []; split_ifs <;> rfl
  · simp only [destroy]
    split_ifs <;> rfl
  · rename_i h; exact absurd h h2
  · rfl

theorem readVarintLoop_message_ne2 (d : List Nat) :
    ∀ (bs : List Nat) (s : SMC) (off : Nat), s.state ≠ 2 →
    (readVarintLoop d bs s off).1.message = s.message := by
  intro bs
  induction bs with
  | nil =>
    intro s off _
    rw [readVarintLoop_nil]
    simp only [destroy]
    split_ifs <;> rfl
  | cons b bs ih =>
    intro s off h1
    rw [readVarintLoop]
    simp only []
    split_ifs
    · exact next_message_ne2 _ _ _ h1
    · exact next_message_ne2 _ _ _ h1
    · exact ih _ _ h1

/-- One pass of `readMessage` inside a stream of frames, with the call it makes:
nothing is delivered and the chunk is used up, or the packet `m` is delivered with
the chunk, the offset just past its frame, and its payload. -/
theorem step_body_event (d : List Nat) (s : SMC) (off : Nat) (rest : List Nat) (m : Packet)
    (ms : List Packet) (g : Nat) (hval : m.valid) (hoff : off ≤ d.length)
    (hnz : off < d.length ∨ s.length = 0)
    (hl : Live s) (h2 : s.state = 2) (hf : VarAt s 0 0) (hh : s.header = m.hdr)
    (hlen : s.length = (m.d.length : Int) - (g : Int)) (hg : g ≤ m.d.length)
    (hb : BufAt s m.d g) (hrest : d.drop off ++ rest = m.d.drop g ++ stream ms)
    (hbuf : ∀ buf, s.message = some buf → off = 0) :
    ∃ s' off' done todo evs, readMessage s d off = .ok (s', off') ∧ m :: ms = done ++ todo ∧
      Inv s' (d.drop off' ++ rest) todo ∧ off' ≤ d.length ∧
      (off < d.length → passes d s' off' < passes d s off) ∧
      s'.receiving = s.receiving ∧ (s.length = 0 → s'.state = 0) ∧
      (off' < d.length → ∀ buf, s'.message = some buf → off' = 0) ∧
      msgEvents s'.calls = msgEvents s.calls ++ evs ∧
      ((done = [] ∧ evs = []) ∨
       (done = [m] ∧ todo = ms ∧ evs = [Event.message m.ch m.k (some m.d) d off'] ∧
         d.drop off' ++ rest = stream ms ∧
         (m.d.length ≤ off' → (d.take off').drop (off' - m.d.length) = m.d))) := by
  obtain ⟨s', off', done, todo, e1, e2, e3, e4, e5, e6, e7, e8, e9, e10, e11⟩ :=
    step_body d s off rest m ms g hval hoff hnz hl h2 hf hh hlen hg hb hrest
  rcases readMessage_event s d off (s', off') h2 hl.2 e1 with
    ⟨c1, c2, c3⟩ | ⟨pl, c1, c2, c3, c4, c5, c6⟩
  · have c1' : s'.calls = s.calls := c1
    have c3' : off' = d.length := c3
    have hdone : done = [] := by
      rw [c1'] at e6
      have := List.self_eq_append_right.mp e6
      exact List.map_eq_nil_iff.mp this
    refine ⟨s', off', [], todo, [], e1, by rw [← hdone]; exact e2, e3, e4, e5, e7, e10, ?_, ?_,
      Or.inl ⟨rfl, rfl⟩⟩
    · intro hlt
      omega
    · rw [c1', List.append_nil]
  · have c1' : s'.calls = s.calls ++
        [Event.message (s.header >>> 4) ((s.header &&& 0b1111) % 256) (some pl) d
          (off + s.length.toNat)] := c1
    have c6' : off' = off + s.length.toNat := c6 hl.1
    have hm6 : messagesOf s'.calls = messagesOf s.calls ++
        [(s.header >>> 4, (s.header &&& 0b1111) % 256, some pl)] := by
      rw [c1', messagesOf_append]
      rfl
    rw [hm6] at e6
    have hmap := List.append_cancel_left e6
    have hdone : done = [m] ∧ todo = ms ∧ m.seen
        = (s.header >>> 4, (s.header &&& 0b1111) % 256, some pl) := by
      cases done with
      | nil => exact absurd hmap (by simp)
      | cons m' done' =>
        simp only [List.map_cons] at hmap
        injection hmap with hm1 hm2
        have hnil : done' = [] := List.map_eq_nil_iff.mp hm2.symm
        subst hnil
        simp only [List.cons_append, List.nil_append] at e2
        injection e2 with hm3 hm4
        subst hm3
        exact ⟨rfl, hm4.symm, hm1.symm⟩
    obtain ⟨hd1, hd2, hd3⟩ := hdone
    have hseen : m.ch = s.header >>> 4 ∧ m.k = (s.header &&& 0b1111) % 256 ∧ m.d = pl := by
      unfold Packet.seen at hd3
      injection hd3 with q1 q2
      injection q2 with q2 q3
      injection q3 with q3
      exact ⟨q1, q2, q3⟩
    obtain ⟨q1, q2, q3⟩ := hseen
    have hL : s.length.toNat = m.d.length - g := by omega
    have hsplit : (d.drop off).take s.length.toNat ++ ((d.drop off).drop s.length.toNat ++ rest)
        = m.d.drop g ++ stream ms := by
      rw [← List.append_assoc, List.take_append_drop]
      exact hrest
    have hlenEq : ((d.drop off).take s.length.toNat).length = (m.d.drop g).length := by
      rw [List.length_take, List.length_drop, List.length_drop]
      omega
    obtain ⟨h1, h2'⟩ := List.append_inj hsplit hlenEq
    have hdd : (d.drop off).drop s.length.toNat = d.drop off' := by
      rw [List.drop_drop, c6']
    rw [hdd] at h2'
    have hmsg : s'.message = none := by
      rcases readMessage_cases s d off (s', off') e1 with ⟨_, _, msg, r3⟩ | ⟨_, msg, r3⟩
      · have := (finishWith_fields s msg d off h2 hl.1).2.1
        rw [← r3] at this
        exact this
      · exfalso
        have hc : s'.calls = s.calls := by
          have := congrArg (fun r : SMC × Nat => r.1.calls) r3
          exact this
        rw [hc] at c1'
        have := List.self_eq_append_right.mp c1'
        exact absurd this (by simp)
    refine ⟨s', off', [m], ms, [Event.message m.ch m.k (some m.d) d off'], e1, rfl, ?_, e4, e5,
      e7, e10, ?_, ?_, Or.inr ⟨rfl, rfl, rfl, h2', ?_⟩⟩
    · rw [← hd2]
      exact e3
    · intro _ buf hbuf2
      rw [hmsg] at hbuf2
      exact absurd hbuf2 (by simp)
    · rw [c1', msgEvents_append, q1, q2, q3, c6']
      rfl
    · intro hle
      rcases hb with ⟨g0, hm0⟩ | ⟨g1, g2, buf, hm1, _, _⟩
      · have hLR : s.length.toNat = m.d.length := by omega
        have e : off' - m.d.length = off := by omega
        rw [e, c6', drop_take_window, hLR]
        rw [hLR, g0, List.drop_zero] at h1
        exact h1
      · exfalso
        have := hbuf buf hm1
        omega

theorem FramedEvents_cons (c rest : List Nat) (m : Packet) (done todo : List Packet)
    (evs : List Event) (o : Nat) (ho : o ≤ c.length)
    (hs : c.drop o ++ rest = stream (done ++ todo))
    (hp : m.d.length ≤ o → (c.take o).drop (o - m.d.length) = m.d)
    (h : FramedEvents c rest done todo evs) :
    FramedEvents c rest (m :: done) todo (Event.message m.ch m.k (some m.d) c o :: evs) :=
  ⟨o, evs, rfl, ho, hs, hp, h⟩

theorem FramedEvents_snoc (c rest : List Nat) (m : Packet) (todo : List Packet) (o : Nat)
    (ho : o ≤ c.length) (hs : c.drop o ++ rest = stream todo)
    (hp : m.d.length ≤ o → (c.take o).drop (o - m.d.length) = m.d) :
    ∀ (done : List Packet) (evs : List Event), FramedEvents c rest done (m :: todo) evs →
    FramedEvents c rest (done ++ [m]) todo (evs ++ [Event.message m.ch m.k (some m.d) c o]) := by
  intro done
  induction done with
  | nil =>
    intro evs h
    have he : evs = [] := h
    subst he
    exact FramedEvents_cons c rest m [] todo [] o ho hs hp rfl
  | cons x xs ih =>
    intro evs h
    obtain ⟨o1, evs1, h1, h2, h3, h4, h5⟩ := h
    subst h1
    have h3' : c.drop o1 ++ rest = stream ((xs ++ [m]) ++ todo) := by
      rw [h3, List.append_assoc]
      rfl
    exact FramedEvents_cons c rest x (xs ++ [m]) todo _ o1 h2 h3' h4 (ih evs1 h5)

/-- The loop of `Recv` inside a stream of frames, with the calls it makes. -/
theorem recvLoop_stream_events (d : List Nat) : ∀ (fuel : Nat) (s : SMC) (off : Nat)
    (ms : List Packet) (rest : List Nat),
    (∀ m ∈ ms, m.valid) → Inv s (d.drop off ++ rest) ms → off ≤ d.length →
    passes d s off < fuel →
    (off < d.length → ∀ buf, s.message = some buf → off = 0) →
    ∃ s' done todo evs, recvLoop d fuel s off = .ok s' ∧ ms = done ++ todo ∧ Inv s' rest todo ∧
      msgEvents s'.calls = msgEvents s.calls ++ evs ∧ FramedEvents d rest done todo evs ∧
      s'.receiving = s.receiving := by
  intro fuel
  induction fuel with
  | zero => intro s off ms rest _ _ _ hp; omega
  | succ fuel ih =>
    intro s off ms rest hval hinv hoff hp hbuf
    by_cases hlt : off < d.length
    · rw [recvLoop]
      simp only [hlt, if_true]
      rcases hinv with ⟨hl, h0, hm, hf, hr⟩ | ⟨m, ms', j, hl, h0, hm, hv, hr⟩ |
        ⟨m, ms', j, hl, h1, hm, hlen, hv, hr⟩ |
        ⟨m, ms', g, hl, h2, hf, hh, hlen, hg, hb, hr⟩
      · have := congrArg List.length hr
        rw [List.length_append, List.length_drop] at this
        simp at this
        omega
      · obtain ⟨s1, off1, e1, e2, e3, e4, e5, e6, e7, e8⟩ :=
          step_len d s off rest m ms' j (hval m (by simp)) hlt hl h0 hm hv hr
        have hne : ¬ s.state = 2 := by rw [h0]; decide
        have hme : msgEvents s1.calls = msgEvents s.calls := by
          have := readVarintLoop_msgEvents_other d (d.drop off) s off hne
          unfold readVarint at e1
          rw [e1] at this
          exact this
        have hmm : s1.message = none := by
          have := readVarintLoop_message_ne2 d (d.drop off) s off hne
          unfold readVarint at e1
          rw [e1] at this
          rw [← hm]
          exact this
        simp only [hne, if_false, e1]
        obtain ⟨s', done, todo, evs, r1, r2, r3, r4, r5, r6⟩ :=
          ih s1 off1 (m :: ms') rest hval e2 e3 (by omega)
            (fun _ buf hb => by rw [hmm] at hb; exact absurd hb (by simp))
        exact ⟨s', done, todo, evs, r1, r2, r3, by rw [r4, hme], r5, by rw [r6, e6]⟩
      · obtain ⟨s1, off1, e1, e2, e3, e4, e5, e6, e7, e8⟩ :=
          step_head d s off rest m ms' j (hval m (by simp)) hlt hl h1 hm hlen hv hr
        have hne : ¬ s.state = 2 := by rw [h1]; decide
        have hme : msgEvents s1.calls = msgEvents s.calls := by
          have := readVarintLoop_msgEvents_other d (d.drop off) s off hne
          unfold readVarint at e1
          rw [e1] at this
          exact this
        have hmm : s1.message = none := by
          have := readVarintLoop_message_ne2 d (d.drop off) s off hne
          unfold readVarint at e1
          rw [e1] at this
          rw [← hm]
          exact this
        simp only [hne, if_false, e1]
        obtain ⟨s', done, todo, evs, r1, r2, r3, r4, r5, r6⟩ :=
          ih s1 off1 (m :: ms') rest hval e2 e3 (by omega)
            (fun _ buf hb => by rw [hmm] at hb; exact absurd hb (by simp))
        exact ⟨s', done, todo, evs, r1, r2, r3, by rw [r4, hme], r5, by rw [r6, e6]⟩
      · obtain ⟨s1, off1, done1, todo1, evs1, e1, e2, e3, e4, e5, e7, _, hb', hme, hcase⟩ :=
          step_body_event d s off rest m ms' g (hval m (by simp)) hoff (Or.inl hlt) hl h2 hf hh
            hlen hg hb hr (hbuf hlt)
        simp only [h2, if_true, e1, bind, Except.bind]
        have hval1 : ∀ x ∈ todo1, x.valid := by
          intro x hx
          apply hval
          rw [e2]
          simp [hx]
        have e5' := e5 hlt
        obtain ⟨s', done, todo, evs, r1, r2, r3, r4, r5, r6⟩ :=
          ih s1 off1 todo1 rest hval1 e3 e4 (by omega) hb'
        refine ⟨s', done1 ++ done, todo, evs1 ++ evs, r1, ?_, r3, ?_, ?_, by rw [r6, e7]⟩
        · rw [e2, r2, List.append_assoc]
        · rw [r4, hme, List.append_assoc]
        · rcases hcase with ⟨c1, c2⟩ | ⟨c1, c2, c3, c4, c5⟩
          · rw [c1, c2]
            exact r5
          · rw [c1, c3]
            refine FramedEvents_cons d rest m done todo evs off1 e4 ?_ c5 r5
            rw [c4, ← c2, r2]
    · have hnil : d.drop off = [] := List.drop_eq_nil_of_le (by omega)
      rw [hnil, List.nil_append] at hinv
      rw [recvLoop]
      simp only [hlt, if_false]
      exact ⟨s, [], ms, [], rfl, rfl, hinv, by simp, rfl, rfl⟩

/-- `Recv` of one chunk inside a stream of frames, with the calls it makes. -/
theorem Recv_stream_events (s : SMC) (d : List Nat) (ms : List Packet) (rest : List Nat)
    (hval : ∀ m ∈ ms, m.valid) (hinv : Inv s (d ++ rest) ms) (hrec : s.receiving = false)
    (hp : ¬ (s.state = 2 ∧ s.length = 0)) :
    ∃ s' done todo evs, Recv s d = .ok (s', true) ∧ ms = done ++ todo ∧ Inv s' rest todo ∧
      ¬ (s'.state = 2 ∧ s'.length = 0) ∧ s'.receiving = false ∧
      msgEvents s'.calls = msgEvents s.calls ++ evs ∧ FramedEvents d rest done todo evs := by
  unfold Recv
  by_cases hd : d.length = 0
  · have hnil : d = [] := List.length_eq_zero.mp hd
    subst hnil
    have hl := Inv_live _ _ _ hinv
    simp only [List.length_nil, if_true, hl.1, Bool.not_false]
    exact ⟨s, [], ms, [], rfl, rfl, by simpa using hinv, hp, hrec, by simp, rfl⟩
  · simp only [hd, if_false, hrec, Bool.false_eq_true]
    have hinv1 : Inv { s with receiving := true } (d.drop 0 ++ rest) ms := by
      rw [List.drop_zero]; exact Inv_receiving s _ ms true hinv
    obtain ⟨s1, done, todo, evs, r1, r2, r3, r4, r5, r6⟩ :=
      recvLoop_stream_events d (2 * d.length + 2) { s with receiving := true } 0 ms rest hval
        hinv1 (Nat.zero_le _) (by unfold passes; split_ifs <;> omega) (fun _ _ _ => rfl)
    have r4' : msgEvents s1.calls = msgEvents s.calls ++ evs := r4
    simp only [r1, bind, Except.bind, recvEnd]
    have hval2 : ∀ x ∈ todo, x.valid := by
      intro x hx
      apply hval
      rw [r2]
      simp [hx]
    by_cases hpend : s1.state = 2 ∧ s1.length = 0
    · simp only [hpend, and_self, if_true]
      rcases r3 with ⟨hl, h0, hm, hf, hr⟩ | ⟨m, ms', j, hl, h0, hm, hv, hr⟩ |
        ⟨m, ms', j, hl, h1, hm, hlen, hv, hr⟩ |
        ⟨m, ms', g, hl, h2, hf, hh, hlen, hg, hb, hr⟩
      · rw [h0] at hpend; exact absurd hpend.1 (by decide)
      · rw [h0] at hpend; exact absurd hpend.1 (by decide)
      · rw [h1] at hpend; exact absurd hpend.1 (by decide)
      · have hr' : d.drop d.length ++ rest = m.d.drop g ++ stream ms' := by
          rw [List.drop_length, List.nil_append]; exact hr
        have hbuf : ∀ buf, s1.message = some buf → d.length = 0 := by
          intro buf hbf
          exfalso
          rcases hb with ⟨_, hm0⟩ | ⟨g1, g2, _⟩
          · rw [hm0] at hbf
            exact absurd hbf (by simp)
          · have := hpend.2
            omega
        obtain ⟨s2, off2, done2, todo2, evs2, e1, e2, e3, e4, _, e7, e10, _, hme, hcase⟩ :=
          step_body_event d s1 d.length rest m ms' g (hval2 m (by simp)) (le_refl _)
            (Or.inr hpend.2) hl h2 hf hh hlen hg hb hr' hbuf
        have hoff2 : off2 = d.length := by
          rcases readMessage_cases s1 d d.length (s2, off2) e1 with
            ⟨_, _, msg, r3⟩ | ⟨_, msg, r3⟩
          · have f2 := (finishWith_state2 s1 msg d d.length h2).2
            rw [← r3] at f2
            have hz : s1.length.toNat = 0 := by rw [hpend.2]; rfl
            rcases f2 with f2 | f2
            · have f2' : off2 = d.length + s1.length.toNat := f2
              omega
            · exact f2
          · exact congrArg (fun r : SMC × Nat => r.2) r3
        have hfin : Inv s2 rest todo2 := by
          rw [hoff2, List.drop_length, List.nil_append] at e3
          exact e3
        simp only [e1, Except.map]
        have hl2 := Inv_live _ _ _ hfin
        refine ⟨_, done ++ done2, todo2, evs ++ evs2, ?_, ?_, Inv_receiving s2 _ _ false hfin,
          ?_, rfl, ?_, ?_⟩
        · simp only [hl2.1, Bool.not_false]
        · rw [r2, e2, List.append_assoc]
        · simp only [e10 hpend.2]
          intro h; exact absurd h.1 (by decide)
        · show msgEvents s2.calls = msgEvents s.calls ++ (evs ++ evs2)
          rw [hme, r4', List.append_assoc]
        · rcases hcase with ⟨c1, c2⟩ | ⟨c1, c2, c3, c4, c5⟩
          · rw [c1, c2, List.append_nil, List.append_nil]
            have ht : todo2 = m :: ms' := by
              rw [c1, List.nil_append] at e2
              exact e2.symm
            rw [ht]
            exact r5
          · rw [c1, c2, c3]
            exact FramedEvents_snoc d rest m ms' off2 e4 c4 c5 done evs r5
    · simp only [hpend, if_false]
      have hl1 := Inv_live _ _ _ r3
      refine ⟨_, done, todo, evs, ?_, r2, Inv_receiving s1 _ _ false r3, hpend, rfl, r4', r5⟩
      simp only [hl1.1, Bool.not_false]

/-- C16: chunk and end offset passed to the message handler. Take any packets
within the bounds of the round trip, the stream `Send` makes of them, and any way
of cutting it into the chunks `before`, then the chunk `c`, then the bytes `rest`.
After the chunks `before`, `Recv(c)` returns `true` and calls the message handler
exactly once for each packet of `done`, the packets whose frame ends inside `c`, in
order (`FramedEvents`): the call carries the channel, kind and payload of the
packet, the raw chunk `c`, and the offset `o` with `o ≤ len(c)` for which
`c[o:] ++ rest` is exactly the frames of the later packets, so `o` is the index in
`c` just past the last byte of the frame; and when the payload (length `R`) has
`R ≤ o`, that is, lay inside `c`, it equals `c[o - R : o]`. The same holds for
every decoder inside a stream of frames (`Inv`), and then again for the next chunk.
For every decoder and chunk: each call made during `Recv(c)` carries `c` and an
offset inside it; a call is made by `readMessage`, entered at `off` with `R'` bytes
of the payload to come, with offset `off + R'`, the last `R'` bytes of the payload
being `c[off : off + R']`; `readVarint` outside state 2 makes no such call. -/
theorem handler_chunk_offset (ms : List Packet) (before : List (List Nat)) (c rest : List Nat)
    (wm : Bool) (hval : ∀ m ∈ ms, m.ch < 2 ^ 59 ∧ m.k ≤ 15 ∧ m.d.length ≤ 8388608)
    (hcat : sendAll ms = .ok (before.flatten ++ c ++ rest)) :
    (∃ s s' early done todo evs,
      feed (NewSMC wm true) before = .ok (s, List.replicate before.length true) ∧
      Recv s c = .ok (s', true) ∧ ms = early ++ done ++ todo ∧
      msgEvents s'.calls = msgEvents s.calls ++ evs ∧ FramedEvents c rest done todo evs) ∧
    (∀ (s : SMC) (ms' : List Packet), (∀ m ∈ ms', m.valid) → Inv s (c ++ rest) ms' →
      s.receiving = false → ¬ (s.state = 2 ∧ s.length = 0) →
      ∃ s' done todo evs, Recv s c = .ok (s', true) ∧ ms' = done ++ todo ∧ Inv s' rest todo ∧
        ¬ (s'.state = 2 ∧ s'.length = 0) ∧ s'.receiving = false ∧
        msgEvents s'.calls = msgEvents s.calls ++ evs ∧ FramedEvents c rest done todo evs) ∧
    (∀ (s0 s1 : SMC) (b : Bool), Recv s0 c = .ok (s1, b) →
      ∃ new, s1.calls = s0.calls ++ new ∧ ∀ e ∈ new, EventIn c e) ∧
    (∀ (s : SMC) (off : Nat) (r : SMC × Nat), s.state = 2 → s.onmessage = true →
      readMessage s c off = .ok r →
      (r.1.calls = s.calls ∧ (c.length : Int) - (off : Int) < s.length ∧ r.2 = c.length) ∨
      (∃ pl, r.1.calls = s.calls ++
          [Event.message (s.header >>> 4) ((s.header &&& 0b1111) % 256) (some pl) c
            (off + s.length.toNat)] ∧
        0 ≤ s.length ∧ off + s.length.toNat ≤ c.length ∧
        pl.drop (pl.length - s.length.toNat) = (c.take (off + s.length.toNat)).drop off ∧
        (s.message = none → pl = (c.take (off + s.length.toNat)).drop off) ∧
        (s.destroyed = false → r.2 = off + s.length.toNat))) ∧
    (∀ (s : SMC) (off : Nat), s.state ≠ 2 →
      messagesOf (readVarint s c off).1.calls = messagesOf s.calls) := by
  refine ⟨?_, fun s ms' hv hi hr hp => Recv_stream_events s c ms' rest hv hi hr hp,
    fun s0 s1 b hr => Recv_calls_in s0 c s1 b hr,
    fun s off r h2 hon hrm => readMessage_event s c off r h2 hon hrm,
    fun s off h2 => readVarintLoop_message_other c _ s off h2⟩
  have hsend := sendAll_valid ms hval
  have hb : stream ms = before.flatten ++ (c ++ rest) := by
    rw [hcat] at hsend
    injection hsend with hsend
    rw [← hsend, List.append_assoc]
  have hinv0 : Inv (NewSMC wm true) (before.flatten ++ (c ++ rest)) ms := by
    rw [← hb]
    exact NewSMC_inv wm ms
  obtain ⟨s, early, mid, f1, f2, f3, f4, _, f6, _, _⟩ :=
    feed_stream before (NewSMC wm true) ms (c ++ rest) hval hinv0 rfl
      (fun h => absurd h.1 (by simp [NewSMC]))
  have hval2 : ∀ m ∈ mid, m.valid := by
    intro m hm
    apply hval
    rw [f2]
    simp [hm]
  obtain ⟨s', done, todo, evs, r1, r2, _, _, _, r6, r7⟩ :=
    Recv_stream_events s c mid rest hval2 f3 f6 f4
  exact ⟨s, s', early, done, todo, evs, f1, r1, by rw [f2, r2, List.append_assoc], r6, r7⟩

theorem handler_chunk_offset_witness :
    (∃ s s' early done todo evs,
      feed (NewSMC false true) [[3, 1]] = .ok (s, List.replicate [[3, 1]].length true) ∧
      Recv s [104, 105, 5, 163] = .ok (s', true) ∧
      [Packet.mk 0 1 [104, 105], Packet.mk 42 3 [104, 101, 121]] = early ++ done ++ todo ∧
      msgEvents s'.calls = msgEvents s.calls ++ evs ∧
      FramedEvents [104, 105, 5, 163] [5, 104, 101, 121] done todo evs) ∧
    (∃ s s', feed (NewSMC false true) [[3, 1]] = .ok (s, [true]) ∧
      Recv s [104, 105, 5, 163] = .ok (s', true) ∧
      s'.calls = [Event.message 0 1 (some [104, 105]) [104, 105, 5, 163] 2]) :=
  ⟨(handler_chunk_offset [Packet.mk 0 1 [104, 105], Packet.mk 42 3 [104, 101, 121]]
      [[3, 1]] [104, 105, 5, 163] [5, 104, 101, 121] false (by decide) (by rfl)).1,
   ⟨_, _, rfl, rfl, rfl⟩⟩

end Smc
